import Mathlib

/-!
# A verification development for the free-list allocator of `alloc.c`

The C program keeps every block header inside the managed heap and links the
free blocks through their headers.  The embedding below keeps that: memory is
a function from byte addresses to bytes, a header is read and written field by
field at its byte offsets, pointers are natural numbers below `2 ^ 64` with
`0` for `NULL`, and every loop of the source is a function that recurses on a
step budget.

Target data model (LP64, little endian), as `alloc.c` is written for it:
`unsigned int` is 32 bits wide, `size_t` and pointers are 64 bits wide, and
`sizeof(metadata_t)` is 24 with `size` at offset 0, `isUsed` at offset 4,
`next_free` at offset 8 and `prev_free` at offset 16.
-/

namespace Alloc

/-! ## Byte memory -/

/-- Memory: the byte stored at every address.  Every address can be read and
written here; an access outside the heap region, where the behaviour of the
program is undefined, has a result all the same.  A statement about a call
describes the program on the inputs on which every access of the call lies
inside the heap region. -/
abbrev Mem := Nat → Nat

/-- Little-endian read of `w` bytes starting at address `a`. -/
def rd (m : Mem) : Nat → Nat → Nat
  | _, 0 => 0
  | a, w + 1 => m a % 256 + 256 * rd m (a + 1) w

/-- Little-endian store of the low `w` bytes of `v` at address `a`. -/
def wr (m : Mem) (a w v : Nat) : Mem :=
  fun x => if a ≤ x ∧ x < a + w then v / 256 ^ (x - a) % 256 else m x

/-- The effect of `memcpy(dst, src, n)`: `n` bytes of the old memory at `src` appear at `dst`. -/
def memcpy (m : Mem) (dst src n : Nat) : Mem :=
  fun x => if dst ≤ x ∧ x < dst + n then m (src + (x - dst)) else m x

/-- The effect of `memset(dst, c, n)`. -/
def memset (m : Mem) (dst c n : Nat) : Mem :=
  fun x => if dst ≤ x ∧ x < dst + n then c % 256 else m x

/-! ## The header `metadata_t` (alloc.c lines 9-16) -/

/-- The value of `sizeof(metadata_t)`. -/
def HDR : Nat := 24

/-- Pointers and `size_t` values live below this bound. -/
def W64 : Nat := 2 ^ 64

/-- Values of `unsigned int` live below this bound. -/
def W32 : Nat := 2 ^ 32

/-- Field `size` of the header at `a`. -/
def rd_size (m : Mem) (a : Nat) : Nat := rd m a 4

/-- Field `isUsed` of the header at `a`. -/
def rd_isUsed (m : Mem) (a : Nat) : Nat := rd m (a + 4) 1

/-- Field `next_free` of the header at `a`. -/
def rd_next_free (m : Mem) (a : Nat) : Nat := rd m (a + 8) 8

/-- Field `prev_free` of the header at `a`. -/
def rd_prev_free (m : Mem) (a : Nat) : Nat := rd m (a + 16) 8

/-- Store to field `size`: the value is cut to 32 bits by the field width. -/
def wr_size (m : Mem) (a v : Nat) : Mem := wr m a 4 v

/-- Store to field `isUsed`. -/
def wr_isUsed (m : Mem) (a v : Nat) : Mem := wr m (a + 4) 1 v

/-- Store to field `next_free`. -/
def wr_next_free (m : Mem) (a v : Nat) : Mem := wr m (a + 8) 8 v

/-- Store to field `prev_free`. -/
def wr_prev_free (m : Mem) (a v : Nat) : Mem := wr m (a + 16) 8 v

/-! ## Allocator state -/

/-- The globals of `alloc.c` (lines 18-20), the memory, and the state of the
operating system's program break: `brk` is the current break, `limit` the
highest break `sbrk` grants, and `sbrkFailed` records that some `sbrk` call
has been refused. -/
structure Heap where
  mem : Mem
  head_free : Nat
  tail_free : Nat
  startOfHeap : Nat
  brk : Nat
  limit : Nat
  sbrkFailed : Bool

/-- The system call `sbrk(n)` for an increment `n` read as a byte count: it
returns the old break and moves the break up by `n`, or returns
`(void *) -1` and leaves the break where it is.  The reading of an increment
of `2 ^ 63` or more as a negative `intptr_t`, which lowers the break, is not
modelled: such an increment is refused here. -/
def sbrk (h : Heap) (n : Nat) : Heap × Nat :=
  if h.brk + n ≤ h.limit then ({ h with brk := h.brk + n }, h.brk)
  else ({ h with sbrkFailed := true }, W64 - 1)

/-- Step budget of the loops: a walk over distinct addresses below the break
takes fewer steps than this. -/
def fuel (h : Heap) : Nat := h.brk + 1

/-- Signed 64-bit comparison `(intptr_t) a > (intptr_t) b`. -/
def sgt64 (a b : Nat) : Prop := (b + 2 ^ 63) % W64 < (a + 2 ^ 63) % W64

instance (a b : Nat) : Decidable (sgt64 a b) := by unfold sgt64; infer_instance

/-- The 64-bit pattern of an `int` whose 32-bit pattern is `x % 2 ^ 32`
(sign extension), as used when an `int` is added to a pointer. -/
def sext32 (x : Nat) : Nat :=
  if x % W32 < 2 ^ 31 then x % W32 else x % W32 + (W64 - W32)

/-! ## coalesce (alloc.c lines 256-279) -/

/-- The function `coalesce(curr)`. -/
def coalesce (h : Heap) (curr : Nat) : Heap :=
  let m1 := wr_size h.mem curr
    (rd_size h.mem curr + HDR + rd_size h.mem (rd_next_free h.mem curr))
  let h1 : Heap :=
    if rd_next_free m1 curr = h.tail_free then { h with mem := m1, tail_free := curr }
    else { h with mem := wr_prev_free m1 (rd_next_free m1 (rd_next_free m1 curr)) curr }
  let temp := rd_next_free h1.mem curr
  let m2 := wr_next_free h1.mem curr (rd_next_free h1.mem (rd_next_free h1.mem curr))
  let m3 := wr_next_free m2 temp 0
  let m4 := wr_prev_free m3 temp 0
  { h1 with mem := wr_size m4 temp 0 }

/-! ## split (alloc.c lines 141-177) -/

/-- Lines 147-166 of `split`: `new_block` takes the place of `current` in the
free list. -/
def split_relink (h : Heap) (current new_block : Nat) : Heap :=
  let m3 := wr_next_free h.mem new_block (rd_next_free h.mem current)
  let m4 := wr_prev_free m3 new_block (rd_prev_free m3 current)
  let h1 : Heap :=
    if current = h.tail_free then { h with mem := m4, tail_free := new_block }
    else { h with mem := wr_prev_free m4 (rd_next_free m4 current) new_block }
  if current = h1.head_free then { h1 with head_free := new_block }
  else { h1 with mem := wr_next_free h1.mem (rd_prev_free h1.mem current) new_block }

/-- Lines 173-176 of `split`: `current` becomes a used block of `size` bytes. -/
def split_finish (h : Heap) (current size : Nat) : Heap :=
  let m5 := wr_next_free h.mem current 0
  let m6 := wr_prev_free m5 current 0
  let m7 := wr_isUsed m6 current 1
  { h with mem := wr_size m7 current size }

/-- The function `split(current, size)`; `size` carries the bit pattern of the
`int` argument. -/
def split (h : Heap) (current size : Nat) : Heap :=
  let new_block := (current + HDR + sext32 size) % W64
  let m1 := wr_isUsed h.mem new_block 0
  let m2 := wr_size m1 new_block
    (((rd_size m1 current + W32 - size % W32) % W32 + W64 - HDR) % W64)
  let h2 : Heap := split_relink { h with mem := m2 } current new_block
  let h3 : Heap :=
    if new_block ≠ h2.tail_free ∧
        rd_next_free h2.mem new_block = (new_block + HDR + rd_size h2.mem new_block) % W64
    then coalesce h2 new_block else h2
  split_finish h3 current size

/-! ## malloc (alloc.c lines 75-139) -/

/-- Lines 94-112 of `malloc`: `curMeta` leaves the free list. -/
def take_unlink (h : Heap) (curMeta : Nat) : Heap :=
  let h1 : Heap :=
    if curMeta = h.tail_free then { h with tail_free := rd_prev_free h.mem curMeta }
    else { h with
      mem := wr_prev_free h.mem (rd_next_free h.mem curMeta) (rd_prev_free h.mem curMeta) }
  let h2 : Heap :=
    if curMeta = h1.head_free then { h1 with head_free := rd_next_free h1.mem curMeta }
    else { h1 with
      mem := wr_next_free h1.mem (rd_prev_free h1.mem curMeta) (rd_next_free h1.mem curMeta) }
  let m3 := wr_next_free h2.mem curMeta 0
  { h2 with mem := wr_prev_free m3 curMeta 0 }

/-- Lines 92-112 of `malloc`: the block `curMeta` is taken whole. -/
def malloc_take (h : Heap) (curMeta : Nat) : Heap :=
  take_unlink { h with mem := wr_isUsed h.mem curMeta 1 } curMeta

/-- The loop of lines 88-127.  The result is `none` when the step budget runs
out, `some none` when the loop ends without a `return`, and `some (some r)`
when the loop body returns `r`. -/
def malloc_scan (h : Heap) (size : Nat) : Nat → Nat → Option (Option (Heap × Nat))
  | 0, _ => none
  | k + 1, curMeta =>
    if curMeta = 0 then some none
    else if rd_size h.mem curMeta = size ∨
        (rd_size h.mem curMeta > size ∧ rd_size h.mem curMeta - size < HDR) then
      some (some (malloc_take h curMeta, (curMeta + HDR) % W64))
    else if rd_size h.mem curMeta > (size + HDR) % W64 then
      some (some (split h curMeta size, (curMeta + HDR) % W64))
    else malloc_scan h size k (rd_next_free h.mem curMeta)

/-- Lines 130-138 of `malloc`: the heap is extended by a header and `size` bytes. -/
def malloc_extend (h : Heap) (size : Nat) : Heap × Nat :=
  let r1 := sbrk h HDR
  let m1 := wr_size r1.1.mem r1.2 size
  let m2 := wr_isUsed m1 r1.2 1
  let m3 := wr_next_free m2 r1.2 0
  let m4 := wr_prev_free m3 r1.2 0
  sbrk { r1.1 with mem := m4 } size

/-- Lines 82-83 of `malloc`: the start of the heap is recorded on the first call. -/
def malloc_init (h : Heap) : Heap :=
  if h.startOfHeap = 0 then { (sbrk h 0).1 with startOfHeap := (sbrk h 0).2 } else h

/-- The function `malloc(size)`; `none` stands for a run that does not return. -/
def malloc (h : Heap) (size : Nat) : Option (Heap × Nat) :=
  match malloc_scan (malloc_init h) size (fuel (malloc_init h)) (malloc_init h).head_free with
  | none => none
  | some (some r) => some r
  | some none => some (malloc_extend (malloc_init h) size)

/-! ## calloc (alloc.c lines 45-52) -/

/-- The function `calloc(num, size)`: the product is computed in `size_t`. -/
def calloc (h : Heap) (num size : Nat) : Option (Heap × Nat) :=
  match malloc h (num * size % W64) with
  | none => none
  | some r => some ({ r.1 with mem := memset r.1.mem r.2 0 (num * size % W64) }, r.2)

/-! ## free (alloc.c lines 195-254) -/

/-- Lines 221-231 of `free`, and the same statements at lines 366-376 of
`realloc`: `node` is linked into the free list right before `curr`. -/
def link_before (h : Heap) (node curr : Nat) : Heap :=
  let m1 := wr_prev_free h.mem node (rd_prev_free h.mem curr)
  let h1 : Heap :=
    if curr = h.head_free then { h with mem := m1, head_free := node }
    else { h with mem := wr_next_free m1 (rd_prev_free m1 curr) node }
  let m2 := wr_prev_free h1.mem curr node
  { h1 with mem := wr_next_free m2 node curr }

/-- Lines 240-242 of `free`, and lines 385-387 of `realloc`: `node` is
appended after `tail_free`. -/
def link_last (h : Heap) (node : Nat) : Heap :=
  let m1 := wr_next_free h.mem h.tail_free node
  { h with mem := wr_prev_free m1 node h.tail_free, tail_free := node }

/-- The loop of lines 216-237; the flag is the variable `found`. -/
def free_scan (h : Heap) (meta : Nat) : Nat → Nat → Option (Heap × Bool)
  | 0, _ => none
  | k + 1, curr =>
    if curr = 0 then some (h, false)
    else if sgt64 curr meta then some (link_before h meta curr, true)
    else free_scan h meta k (rd_next_free h.mem curr)

/-- Lines 238-252 of `free`: the append when nothing was found, and the two
coalescing checks. -/
def free_finish (h : Heap) (meta : Nat) (found : Bool) : Heap :=
  let h2 : Heap := if found then h else link_last h meta
  let h3 : Heap :=
    if meta ≠ h2.tail_free ∧
        rd_next_free h2.mem meta = (meta + HDR + rd_size h2.mem meta) % W64
    then coalesce h2 meta else h2
  if meta ≠ h3.head_free ∧
      (rd_prev_free h3.mem meta + HDR + rd_size h3.mem (rd_prev_free h3.mem meta)) % W64 = meta
  then coalesce h3 (rd_prev_free h3.mem meta) else h3

/-- Line 201 of `free`: the header address `ptr - sizeof(metadata_t)`. -/
def free_meta (ptr : Nat) : Nat := (ptr + W64 - HDR) % W64

/-- The function `free(ptr)`; `none` stands for a run that does not return. -/
def free (h : Heap) (ptr : Nat) : Option Heap :=
  let meta := free_meta ptr
  let h0 : Heap := { h with mem := wr_isUsed h.mem meta 0 }
  if h0.head_free = 0 then some { h0 with head_free := meta, tail_free := meta }
  else
    match free_scan h0 meta (fuel h0) h0.head_free with
    | none => none
    | some r => some (free_finish r.1 meta r.2)

/-! ## realloc (alloc.c lines 326-407) -/

/-- The loop of lines 362-382; the flag is the variable `found`. -/
def realloc_scan (h : Heap) (new_block endOfHeap : Nat) : Nat → Nat → Option (Heap × Bool)
  | 0, _ => none
  | k + 1, curr =>
    if curr < endOfHeap then
      if rd_isUsed h.mem curr = 0 then some (link_before h new_block curr, true)
      else realloc_scan h new_block endOfHeap k ((curr + HDR + rd_size h.mem curr) % W64)
    else some (h, false)

/-- Lines 346-350 of `realloc`: the header of the remainder is written behind
the first `size` bytes of the block. -/
def realloc_carve (h : Heap) (meta size : Nat) : Heap :=
  let new_block := (meta + HDR + size) % W64
  let m1 := wr_isUsed h.mem new_block 0
  let m2 := wr_size m1 new_block (((rd_size m1 meta + W64 - size) % W64 + W64 - HDR) % W64)
  let m3 := wr_next_free m2 new_block 0
  { h with mem := wr_prev_free m3 new_block 0 }

/-- Lines 352-388 of `realloc`: the remainder is linked into the free list,
before the first free block found behind it or else after `tail_free`. -/
def realloc_link (h : Heap) (new_block : Nat) : Option Heap :=
  if h.head_free = 0 then some { h with head_free := new_block, tail_free := new_block }
  else
    match realloc_scan h new_block (sbrk h 0).2 (fuel h)
        ((new_block + HDR + rd_size h.mem new_block) % W64) with
    | none => none
    | some r => some (if r.2 then r.1 else link_last r.1 new_block)

/-- Lines 346-396 of `realloc`: the block is shrunk in place. -/
def realloc_shrink (h : Heap) (meta size : Nat) : Option Heap :=
  match realloc_link (realloc_carve h meta size) ((meta + HDR + size) % W64) with
  | none => none
  | some h2 => some { h2 with mem := wr_size h2.mem meta size }

/-- The function `realloc(ptr, size)`; `none` stands for a run that does not return. -/
def realloc (h : Heap) (ptr size : Nat) : Option (Heap × Nat) :=
  if ptr = 0 then malloc h size
  else if size = 0 then
    match free h ptr with
    | none => none
    | some h1 => some (h1, 0)
  else
    let meta := (ptr + W64 - HDR) % W64
    if rd_size h.mem meta = size then some (h, ptr)
    else if rd_size h.mem meta ≥ (size + HDR) % W64 then
      match realloc_shrink h meta size with
      | none => none
      | some h1 => some (h1, ptr)
    else
      match malloc h size with
      | none => none
      | some r =>
        let h2 : Heap := { r.1 with mem := memcpy r.1.mem r.2 ptr (rd_size r.1.mem meta) }
        match free h2 ptr with
        | none => none
        | some h3 => some (h3, r.2)

/-! ## Observations of a state -/

/-- The state before the first call: no block, an empty free list, the break at `base`. -/
def emptyHeap (m : Mem) (base limit : Nat) : Heap :=
  { mem := m, head_free := 0, tail_free := 0, startOfHeap := 0,
    brk := base, limit := limit, sbrkFailed := false }

/-- Walk of the free list along `next_free`, as `printFree` does it (lines
426-432): the addresses visited, or `none` when the budget runs out. -/
def freeWalk (m : Mem) : Nat → Nat → Option (List Nat)
  | 0, _ => none
  | k + 1, cur =>
    if cur = 0 then some []
    else (freeWalk m k (rd_next_free m cur)).map (fun l => cur :: l)

/-- The free list of a state. -/
def freeList (h : Heap) : Option (List Nat) := freeWalk h.mem (fuel h) h.head_free

/-- Walk of the heap by header-plus-size steps, as `printHeap` does it (lines
412-419), from `cur` to exactly `stop`: the addresses visited; `none` when the
walk steps over `stop` or the budget runs out. -/
def heapWalk (m : Mem) (stop : Nat) : Nat → Nat → Option (List Nat)
  | 0, _ => none
  | k + 1, cur =>
    if cur = stop then some []
    else if stop < cur then none
    else (heapWalk m stop k (cur + HDR + rd_size m cur)).map (fun l => cur :: l)

/-- The blocks of a state in address order. -/
def heapBlocks (h : Heap) : Option (List Nat) :=
  heapWalk h.mem h.brk (fuel h) (if h.startOfHeap = 0 then h.brk else h.startOfHeap)

/-! ## The block structure behind a state

The specification describes the heap as a sequence of blocks.  A `Blk` records
one block of that sequence: the address of its header, the number of payload
bytes up to the next header (`cap`), the content of its `size` field and its
status.  `Rep h bs` says that the bytes and globals of `h` represent the
sequence `bs`. -/

/-- One block of the heap. -/
structure Blk where
  addr : Nat
  cap : Nat
  size : Nat
  used : Bool

/-- The blocks of `bs` lie one after the other from address `a` to address `e`,
each one a header followed by `cap` payload bytes. -/
def Tiles : Nat → List Blk → Nat → Prop
  | a, [], e => a = e
  | a, b :: r, e => b.addr = a ∧ Tiles (a + 24 + b.cap) r e

/-- First element of a list of addresses, `d` for the empty list. -/
def headOr : List Nat → Nat → Nat
  | [], d => d
  | a :: _, _ => a

/-- Last element of a list of addresses, `d` for the empty list. -/
def lastOr : List Nat → Nat → Nat
  | [], d => d
  | a :: r, _ => lastOr r a

/-- Header addresses of the free blocks, in address order. -/
def frees : List Blk → List Nat
  | [] => []
  | b :: r => if b.used then frees r else b.addr :: frees r

/-- Payload addresses of the used blocks, in address order. -/
def useds : List Blk → List Nat
  | [] => []
  | b :: r => if b.used then (b.addr + 24) :: useds r else useds r

/-- The headers at the addresses of `l` are doubly linked in that order; the
first one has `prev_free = p`, the last one has `next_free = n`. -/
def Seg (m : Mem) : Nat → List Nat → Nat → Prop
  | _, [], _ => True
  | p, a :: r, n => rd_prev_free m a = p ∧ rd_next_free m a = headOr r n ∧ Seg m a r n

/-- The header of block `b` in memory: the `size` field holds `b.size`, which
does not exceed the room of the block; `isUsed` holds the status; a used block
has both links null. -/
def FieldsOK (m : Mem) (b : Blk) : Prop :=
  rd_size m b.addr = b.size ∧ b.size ≤ b.cap ∧
  rd_isUsed m b.addr = (if b.used then 1 else 0) ∧
  (b.used = true → rd_next_free m b.addr = 0 ∧ rd_prev_free m b.addr = 0)

/-- First address of the heap region: `startOfHeap`, or the break while
`startOfHeap` is still null. -/
def heapStart (h : Heap) : Nat := if h.startOfHeap = 0 then h.brk else h.startOfHeap

/-- Address `a` is the address of a header of `L`, or a header at `a` shares
no byte with any header of `L`. -/
def SepAll (a : Nat) (L : List Nat) : Prop := ∀ x ∈ L, a = x ∨ a + 24 ≤ x ∨ x + 24 ≤ a

/-- Byte `x` lies in no header of `L`. -/
def Off (x : Nat) (L : List Nat) : Prop := ∀ a ∈ L, x < a ∨ a + 24 ≤ x

/-- Headers at the addresses of `L` lie in ascending order without overlap. -/
def Asc (L : List Nat) : Prop := List.Pairwise (fun x y => x + 24 ≤ y) L

/-- The free list of `h` is the list `L`: `head_free` and `tail_free` are its
ends (null for the empty list), the headers are linked in this order, and the
addresses ascend. -/
structure DLL (h : Heap) (L : List Nat) : Prop where
  head : h.head_free = headOr L 0
  tail : h.tail_free = lastOr L 0
  seg : Seg h.mem 0 L 0
  asc : Asc L
  pos : ∀ a ∈ L, 0 < a ∧ a < 18446744073709551616

/-- State `h2` differs from `h` at most in `head_free`, `tail_free`, the
link fields of headers at the addresses of `L` and the `size` fields of
headers at the addresses of `E`. -/
structure LinkStepX (h h2 : Heap) (L E : List Nat) : Prop where
  size_eq : ∀ a, SepAll a L → a ∉ E → rd_size h2.mem a = rd_size h.mem a
  used_eq : ∀ a, SepAll a L → rd_isUsed h2.mem a = rd_isUsed h.mem a
  bytes_eq : ∀ x, Off x L → h2.mem x = h.mem x
  start_eq : h2.startOfHeap = h.startOfHeap
  brk_eq : h2.brk = h.brk
  limit_eq : h2.limit = h.limit
  failed_eq : h2.sbrkFailed = h.sbrkFailed

/-- State `h2` differs from `h` at most in `head_free`, `tail_free` and the
link fields of headers at the addresses of `L`. -/
structure LinkStep (h h2 : Heap) (L : List Nat) : Prop where
  size_eq : ∀ a, SepAll a L → rd_size h2.mem a = rd_size h.mem a
  used_eq : ∀ a, SepAll a L → rd_isUsed h2.mem a = rd_isUsed h.mem a
  bytes_eq : ∀ x, Off x L → h2.mem x = h.mem x
  start_eq : h2.startOfHeap = h.startOfHeap
  brk_eq : h2.brk = h.brk
  limit_eq : h2.limit = h.limit
  failed_eq : h2.sbrkFailed = h.sbrkFailed

/-- Headers at `a` and `b` share no byte. -/
def Apart (a b : Nat) : Prop := a + 24 ≤ b ∨ b + 24 ≤ a

/-- The state `h` holds the blocks `bs` and a free list over the addresses `L`:
the blocks tile the heap region (I1), the header fields of every block other
than the one at address `skip` are as recorded, and the free list is `L`.  The
break lies below `2 ^ 63`, as every user-space address does. -/
structure PreRep (h : Heap) (bs : List Blk) (L : List Nat) (skip : Nat) : Prop where
  start_pos : 0 < heapStart h
  tiles : Tiles (heapStart h) bs h.brk
  brk_le : h.brk ≤ h.limit
  limit_le : h.limit ≤ 9223372036854775808
  fields : ∀ b ∈ bs, b.addr ≠ skip → FieldsOK h.mem b
  dll : DLL h L

/-- The state `h` represents the block sequence `bs`, except that nothing is
said about the header fields of the block at address `skip`: in addition to
`PreRep`, the free list is the list of the free blocks (I2), in address
order (I3). -/
def RepX (h : Heap) (bs : List Blk) (skip : Nat) : Prop := PreRep h bs (frees bs) skip

/-- The state `h` represents the block sequence `bs`. -/
def Rep (h : Heap) (bs : List Blk) : Prop := RepX h bs 0

/-- Every `size` field holds the room of its block (I5). -/
def Exact (bs : List Blk) : Prop := ∀ b ∈ bs, b.size = b.cap

/-- No free block is directly followed by a free block (I4). -/
def NoAdj : List Blk → Prop
  | [] => True
  | [_] => True
  | b :: c :: r => ¬ (b.used = false ∧ c.used = false) ∧ NoAdj (c :: r)

/-! ## The operations on block sequences -/

/-- Block `c` after it has absorbed its successor `n`; the `size` field is an
`unsigned int`. -/
def merge (c n : Blk) : Blk :=
  { addr := c.addr, cap := c.cap + 24 + n.cap, size := (c.size + 24 + n.size) % 4294967296,
    used := false }

/-- Forward coalescing of the free block `b` with the blocks after it: `b`
absorbs the next block when that block is free and starts where the `size`
field of `b` says that `b` ends. -/
def mergeNext (b : Blk) : List Blk → Blk × List Blk
  | [] => (b, [])
  | p :: r => if p.used = false ∧ b.size = b.cap then (merge b p, r) else (b, p :: r)

/-- Backward coalescing of the free block `b` with the blocks `pre` before it. -/
def mergePrev : List Blk → Blk → List Blk → List Blk
  | [], b, rest => b :: rest
  | [q], b, rest =>
    if q.used = false ∧ q.size = q.cap then merge q b :: rest else q :: b :: rest
  | x :: y :: pre, b, rest => x :: mergePrev (y :: pre) b rest

/-- The block sequence after `free` of the used block `b`. -/
def freeAt (pre : List Blk) (b : Blk) (post : List Blk) : List Blk :=
  mergePrev pre (mergeNext { b with used := false } post).1
    (mergeNext { b with used := false } post).2

/-- The used block of `size` bytes that `split` leaves at the front of `b`. -/
def splitHead (b : Blk) (size : Nat) : Blk :=
  { addr := b.addr, cap := size, size := size, used := true }

/-- The free remainder that `split` carves out of `b`. -/
def splitRest (b : Blk) (size : Nat) : Blk :=
  { addr := b.addr + 24 + size, cap := b.cap - size - 24, size := b.size - size - 24,
    used := false }

/-- The block sequence from `b` on after `split(b, size)`. -/
def splitAt (b : Blk) (size : Nat) (post : List Blk) : List Blk :=
  splitHead b size :: (mergeNext (splitRest b size) post).1 :: (mergeNext (splitRest b size) post).2

/-- The search of `malloc` through the blocks: the first free block that
fits is taken whole or split; the result is the new block sequence and the
address of the header of the block handed out. -/
def scanBlocks (size : Nat) : List Blk → Option (List Blk × Nat)
  | [] => none
  | b :: r =>
    if b.used = false ∧ (b.size = size ∨ (b.size > size ∧ b.size - size < 24)) then
      some ({ b with used := true } :: r, b.addr)
    else if b.used = false ∧ b.size > size + 24 then
      some (splitAt b size r, b.addr)
    else (scanBlocks size r).map (fun res => (b :: res.1, res.2))

/-- The block sequence and the header address after `malloc(size)` at break `brk`. -/
def mallocBlocks (size brk : Nat) (bs : List Blk) : List Blk × Nat :=
  match scanBlocks size bs with
  | some res => res
  | none => (bs ++ [{ addr := brk, cap := size, size := size, used := true }], brk)

/-- The states `h` and `h2` agree on the break, its limit, the start of the
heap and the record of refused extensions. -/
def SameOS (h h2 : Heap) : Prop :=
  h2.brk = h.brk ∧ h2.limit = h.limit ∧ h2.startOfHeap = h.startOfHeap ∧
  h2.sbrkFailed = h.sbrkFailed

/-- The block sequence from `b` on after `realloc` has shrunk the used block
`b` in place to `n` bytes: the block keeps `n` bytes and the rest becomes a
free block, which is not merged with what follows. -/
def shrinkAt (b : Blk) (n : Nat) (post : List Blk) : List Blk :=
  splitHead b n :: splitRest b n :: post

/-! ## Runs of calls -/

/-- One call of the client program. -/
inductive Op where
  | malloc (size : Nat)
  | free (ptr : Nat)
  | realloc (ptr size : Nat)

/-- The allocator state together with the pointers the client holds: those
returned by a call and not released since. -/
structure Sys where
  heap : Heap
  live : List Nat

/-- The state before the first call. -/
def Sys.start (m : Mem) (base limit : Nat) : Sys :=
  { heap := emptyHeap m base limit, live := [] }

/-- One call and its effect on the pointers held; `none` when the call does
not return. -/
def step (s : Sys) : Op → Option Sys
  | Op.malloc n => (malloc s.heap n).map (fun r => { heap := r.1, live := r.2 :: s.live })
  | Op.free p => (free s.heap p).map (fun h => { heap := h, live := s.live.erase p })
  | Op.realloc p n => (realloc s.heap p n).map (fun r =>
      { heap := r.1, live := if n = 0 then s.live.erase p else r.2 :: s.live.erase p })

/-- The conditions on a call: every size is below `2 ^ 31`, and a pointer
passed to `free` or `realloc` is one the client holds. -/
def legal (s : Sys) : Op → Bool
  | Op.malloc n => decide (n < 2147483648)
  | Op.free p => decide (p ∈ s.live)
  | Op.realloc p n => decide (p ∈ s.live) && decide (n < 2147483648)

/-- The conditions on a call in a run of `malloc` and `free` calls only. -/
def legalMF (s : Sys) : Op → Bool
  | Op.realloc _ _ => false
  | op => legal s op

/-- A `realloc` call that moves the block to a smaller one: the new size is
below the stored size by less than a header. -/
def shrinkMove (s : Sys) : Op → Bool
  | Op.realloc p n =>
    decide (n ≠ 0 ∧ n < rd_size s.heap.mem (p - 24) ∧ rd_size s.heap.mem (p - 24) < n + 24)
  | _ => false

/-- The conditions on a call in a run without a moving shrink. -/
def legalNM (s : Sys) (op : Op) : Bool := legal s op && !shrinkMove s op

/-- How a run of calls ends: all calls returned; or some call was outside the
conditions or had a heap extension refused; or some call did not return. -/
inductive Outcome where
  | done (s : Sys)
  | refused
  | stuck

/-- A run of calls under the conditions `g`, every heap extension succeeding. -/
def run (g : Sys → Op → Bool) : Sys → List Op → Outcome
  | s, [] => Outcome.done s
  | s, op :: ops =>
    if g s op = true then
      match step s op with
      | none => Outcome.stuck
      | some s2 => if s2.heap.sbrkFailed = true then Outcome.refused else run g s2 ops
    else Outcome.refused

/-- The run returned from every call, and `P` holds of the state it ends in,
unless the run left the conditions. -/
def Outcome.sat (P : Sys → Prop) : Outcome → Prop
  | Outcome.done s => P s
  | Outcome.refused => True
  | Outcome.stuck => False

/-- The run stayed within the conditions and returned from every call. -/
def Outcome.isDone : Outcome → Bool
  | Outcome.done _ => true
  | _ => false

/-- The invariant of a run: no heap extension has been refused, the state
represents a block sequence whose used blocks are the ones the client holds,
and `Q` holds of the sequence as long as the heap region is shorter than
`2 ^ 32` bytes. -/
def Inv (Q : List Blk → Prop) (s : Sys) : Prop :=
  s.heap.sbrkFailed = false ∧ ∃ bs, Rep s.heap bs ∧ s.live.Perm (useds bs) ∧
    (s.heap.brk < heapStart s.heap + 4294967296 → Q bs)

/-- What `f` sees in the state a run ends in; `none` for a run that left the
conditions or did not return. -/
def Outcome.obs {α : Type} (f : Sys → α) : Outcome → Option α
  | Outcome.done s => some (f s)
  | _ => none

/-- The invariant of a run that includes `realloc` calls: the invariant `Inv`
with exact sizes, where the break cannot rise to `2 ^ 32` bytes above the
start of the heap. -/
def InvR (s : Sys) : Prop :=
  Inv Exact s ∧ s.heap.limit < heapStart s.heap + 4294967296

/-- A store of the client program: the low `w` bytes of `v` are written at
address `a`. -/
def clientStore (h : Heap) (a w v : Nat) : Heap := { h with mem := wr h.mem a w v }

/-- The state after the first call `malloc(s)` from the empty heap: one used
block of `s` bytes at `base`. -/
def oneBlock (m : Mem) (base limit s : Nat) : Heap :=
  { mem := wr_prev_free (wr_next_free (wr_isUsed (wr_size m base s) base 1) base 0) base 0
    head_free := 0
    tail_free := 0
    startOfHeap := base
    brk := base + 24 + s
    limit := limit
    sbrkFailed := false }

/-! ## The heap region -/

/-- The heap a run of calls from the empty heap ends in; the empty heap
itself when the run leaves the conditions or does not return. -/
def heapAfter (m : Mem) (base limit : Nat) (ops : List Op) : Heap :=
  ((run legal (Sys.start m base limit) ops).obs (fun s => s.heap)).getD
    (emptyHeap m base limit)

/-- Computable form of `Tiles`. -/
def tilesB : Nat → List Blk → Nat → Bool
  | a, [], e => decide (a = e)
  | a, b :: r, e => decide (b.addr = a) && tilesB (a + 24 + b.cap) r e

/-- Computable form of `Seg`. -/
def segB (m : Mem) : Nat → List Nat → Nat → Bool
  | _, [], _ => true
  | p, a :: r, n =>
    decide (rd_prev_free m a = p) && decide (rd_next_free m a = headOr r n) && segB m a r n

/-- Computable form of `FieldsOK`. -/
def fieldsB (m : Mem) (b : Blk) : Bool :=
  decide (rd_size m b.addr = b.size) && decide (b.size ≤ b.cap) &&
  decide (rd_isUsed m b.addr = (if b.used then 1 else 0)) &&
  (!b.used || (decide (rd_next_free m b.addr = 0) && decide (rd_prev_free m b.addr = 0)))

/-- Computable check that the state `h` represents the block sequence `bs`. -/
def repCheck (h : Heap) (bs : List Blk) : Bool :=
  decide (0 < heapStart h) && tilesB (heapStart h) bs h.brk && decide (h.brk ≤ h.limit) &&
  decide (h.limit ≤ 9223372036854775808) && bs.all (fun b => fieldsB h.mem b) &&
  decide (h.head_free = headOr (frees bs) 0) && decide (h.tail_free = lastOr (frees bs) 0) &&
  segB h.mem 0 (frees bs) 0

/-! ## Reads and writes of byte memory -/

theorem rd_lt (m : Mem) (a w : Nat) : rd m a w < 256 ^ w := by
  induction w generalizing a with
  | zero => simp [rd]
  | succ w ih =>
    have h1 := ih (a + 1)
    have h2 : m a % 256 < 256 := Nat.mod_lt _ (by norm_num)
    rw [rd, pow_succ]
    nlinarith

theorem rd_congr (m m2 : Mem) (a w : Nat)
    (h : ∀ x, a ≤ x → x < a + w → m x = m2 x) : rd m a w = rd m2 a w := by
  induction w generalizing a with
  | zero => simp [rd]
  | succ w ih =>
    rw [rd, rd, h a (le_refl _) (by omega), ih (a + 1) (fun x h1 h2 => h x (by omega) (by omega))]

theorem wr_out (m : Mem) (a w v x : Nat) (h : x < a ∨ a + w ≤ x) : wr m a w v x = m x := by
  unfold wr
  rw [if_neg]
  omega

theorem rd_wr_disj (m : Mem) (a w b w2 v : Nat) (h : a + w ≤ b ∨ b + w2 ≤ a) :
    rd (wr m b w2 v) a w = rd m a w := by
  apply rd_congr
  intro x h1 h2
  apply wr_out
  omega

theorem rd_of_bytes (m : Mem) (a w v : Nat)
    (h : ∀ i, i < w → m (a + i) = v / 256 ^ i % 256) : rd m a w = v % 256 ^ w := by
  induction w generalizing a v with
  | zero => simp [rd, Nat.mod_one]
  | succ w ih =>
    have h0 := h 0 (by omega)
    simp only [Nat.add_zero, pow_zero, Nat.div_one] at h0
    have h1 : rd m (a + 1) w = (v / 256) % 256 ^ w := by
      apply ih
      intro i hi
      have := h (i + 1) (by omega)
      rw [show a + 1 + i = a + (i + 1) by ring, this, pow_succ, Nat.div_div_eq_div_mul,
        mul_comm]
    rw [rd, h0, h1, Nat.mod_mod, pow_succ, mul_comm (256 ^ w) 256, Nat.mod_mul]

theorem rd_wr_same (m : Mem) (a w v : Nat) : rd (wr m a w v) a w = v % 256 ^ w := by
  apply rd_of_bytes
  intro i hi
  unfold wr
  rw [if_pos (by omega)]
  simp

theorem memcpy_out (m : Mem) (dst src n x : Nat) (h : x < dst ∨ dst + n ≤ x) :
    memcpy m dst src n x = m x := by
  unfold memcpy
  rw [if_neg]
  omega

theorem memcpy_in (m : Mem) (dst src n i : Nat) (h : i < n) :
    memcpy m dst src n (dst + i) = m (src + i) := by
  unfold memcpy
  rw [if_pos (by omega)]
  simp

theorem memset_out (m : Mem) (dst c n x : Nat) (h : x < dst ∨ dst + n ≤ x) :
    memset m dst c n x = m x := by
  unfold memset
  rw [if_neg]
  omega

theorem memset_in (m : Mem) (dst c n i : Nat) (h : i < n) :
    memset m dst c n (dst + i) = c % 256 := by
  unfold memset
  rw [if_pos (by omega)]

attribute [irreducible] rd wr memcpy memset

/-! ## Header fields: a read after a store -/

theorem rd_size_lt (m : Mem) (a : Nat) : rd_size m a < 4294967296 := by
  unfold rd_size; exact rd_lt _ _ _

theorem rd_size_wr_size (m : Mem) (a v : Nat) : rd_size (wr_size m a v) a = v % 4294967296 := by
  unfold rd_size wr_size; exact rd_wr_same _ _ _ _

theorem rd_size_wr_size_ne (m : Mem) (a b v : Nat) (h : a + 24 ≤ b ∨ b + 24 ≤ a) :
    rd_size (wr_size m b v) a = rd_size m a := by
  unfold rd_size wr_size; apply rd_wr_disj; omega

theorem rd_size_wr_isUsed (m : Mem) (a b v : Nat) (h : a = b ∨ a + 24 ≤ b ∨ b + 24 ≤ a) :
    rd_size (wr_isUsed m b v) a = rd_size m a := by
  unfold rd_size wr_isUsed; apply rd_wr_disj; omega

theorem rd_size_wr_next_free (m : Mem) (a b v : Nat) (h : a = b ∨ a + 24 ≤ b ∨ b + 24 ≤ a) :
    rd_size (wr_next_free m b v) a = rd_size m a := by
  unfold rd_size wr_next_free; apply rd_wr_disj; omega

theorem rd_size_wr_prev_free (m : Mem) (a b v : Nat) (h : a = b ∨ a + 24 ≤ b ∨ b + 24 ≤ a) :
    rd_size (wr_prev_free m b v) a = rd_size m a := by
  unfold rd_size wr_prev_free; apply rd_wr_disj; omega

theorem rd_isUsed_lt (m : Mem) (a : Nat) : rd_isUsed m a < 256 := by
  unfold rd_isUsed; exact rd_lt _ _ _

theorem rd_isUsed_wr_isUsed (m : Mem) (a v : Nat) (h : v < 256) : rd_isUsed (wr_isUsed m a v) a = v := by
  unfold rd_isUsed wr_isUsed; rw [rd_wr_same]; exact Nat.mod_eq_of_lt h

theorem rd_isUsed_wr_isUsed_ne (m : Mem) (a b v : Nat) (h : a + 24 ≤ b ∨ b + 24 ≤ a) :
    rd_isUsed (wr_isUsed m b v) a = rd_isUsed m a := by
  unfold rd_isUsed wr_isUsed; apply rd_wr_disj; omega

theorem rd_isUsed_wr_size (m : Mem) (a b v : Nat) (h : a = b ∨ a + 24 ≤ b ∨ b + 24 ≤ a) :
    rd_isUsed (wr_size m b v) a = rd_isUsed m a := by
  unfold rd_isUsed wr_size; apply rd_wr_disj; omega

theorem rd_isUsed_wr_next_free (m : Mem) (a b v : Nat) (h : a = b ∨ a + 24 ≤ b ∨ b + 24 ≤ a) :
    rd_isUsed (wr_next_free m b v) a = rd_isUsed m a := by
  unfold rd_isUsed wr_next_free; apply rd_wr_disj; omega

theorem rd_isUsed_wr_prev_free (m : Mem) (a b v : Nat) (h : a = b ∨ a + 24 ≤ b ∨ b + 24 ≤ a) :
    rd_isUsed (wr_prev_free m b v) a = rd_isUsed m a := by
  unfold rd_isUsed wr_prev_free; apply rd_wr_disj; omega

theorem rd_next_free_lt (m : Mem) (a : Nat) : rd_next_free m a < 18446744073709551616 := by
  unfold rd_next_free; exact rd_lt _ _ _

theorem rd_next_free_wr_next_free (m : Mem) (a v : Nat) (h : v < 18446744073709551616) : rd_next_free (wr_next_free m a v) a = v := by
  unfold rd_next_free wr_next_free; rw [rd_wr_same]; exact Nat.mod_eq_of_lt h

theorem rd_next_free_wr_next_free_ne (m : Mem) (a b v : Nat) (h : a + 24 ≤ b ∨ b + 24 ≤ a) :
    rd_next_free (wr_next_free m b v) a = rd_next_free m a := by
  unfold rd_next_free wr_next_free; apply rd_wr_disj; omega

theorem rd_next_free_wr_size (m : Mem) (a b v : Nat) (h : a = b ∨ a + 24 ≤ b ∨ b + 24 ≤ a) :
    rd_next_free (wr_size m b v) a = rd_next_free m a := by
  unfold rd_next_free wr_size; apply rd_wr_disj; omega

theorem rd_next_free_wr_isUsed (m : Mem) (a b v : Nat) (h : a = b ∨ a + 24 ≤ b ∨ b + 24 ≤ a) :
    rd_next_free (wr_isUsed m b v) a = rd_next_free m a := by
  unfold rd_next_free wr_isUsed; apply rd_wr_disj; omega

theorem rd_next_free_wr_prev_free (m : Mem) (a b v : Nat) (h : a = b ∨ a + 24 ≤ b ∨ b + 24 ≤ a) :
    rd_next_free (wr_prev_free m b v) a = rd_next_free m a := by
  unfold rd_next_free wr_prev_free; apply rd_wr_disj; omega

theorem rd_prev_free_lt (m : Mem) (a : Nat) : rd_prev_free m a < 18446744073709551616 := by
  unfold rd_prev_free; exact rd_lt _ _ _

theorem rd_prev_free_wr_prev_free (m : Mem) (a v : Nat) (h : v < 18446744073709551616) : rd_prev_free (wr_prev_free m a v) a = v := by
  unfold rd_prev_free wr_prev_free; rw [rd_wr_same]; exact Nat.mod_eq_of_lt h

theorem rd_prev_free_wr_prev_free_ne (m : Mem) (a b v : Nat) (h : a + 24 ≤ b ∨ b + 24 ≤ a) :
    rd_prev_free (wr_prev_free m b v) a = rd_prev_free m a := by
  unfold rd_prev_free wr_prev_free; apply rd_wr_disj; omega

theorem rd_prev_free_wr_size (m : Mem) (a b v : Nat) (h : a = b ∨ a + 24 ≤ b ∨ b + 24 ≤ a) :
    rd_prev_free (wr_size m b v) a = rd_prev_free m a := by
  unfold rd_prev_free wr_size; apply rd_wr_disj; omega

theorem rd_prev_free_wr_isUsed (m : Mem) (a b v : Nat) (h : a = b ∨ a + 24 ≤ b ∨ b + 24 ≤ a) :
    rd_prev_free (wr_isUsed m b v) a = rd_prev_free m a := by
  unfold rd_prev_free wr_isUsed; apply rd_wr_disj; omega

theorem rd_prev_free_wr_next_free (m : Mem) (a b v : Nat) (h : a = b ∨ a + 24 ≤ b ∨ b + 24 ≤ a) :
    rd_prev_free (wr_next_free m b v) a = rd_prev_free m a := by
  unfold rd_prev_free wr_next_free; apply rd_wr_disj; omega

theorem wr_size_out (m : Mem) (b v x : Nat) (h : x < b ∨ b + 24 ≤ x) : wr_size m b v x = m x := by
  unfold wr_size; apply wr_out; omega

theorem wr_isUsed_out (m : Mem) (b v x : Nat) (h : x < b ∨ b + 24 ≤ x) : wr_isUsed m b v x = m x := by
  unfold wr_isUsed; apply wr_out; omega

theorem wr_next_free_out (m : Mem) (b v x : Nat) (h : x < b ∨ b + 24 ≤ x) : wr_next_free m b v x = m x := by
  unfold wr_next_free; apply wr_out; omega

theorem wr_prev_free_out (m : Mem) (b v x : Nat) (h : x < b ∨ b + 24 ≤ x) : wr_prev_free m b v x = m x := by
  unfold wr_prev_free; apply wr_out; omega

/-- Reads of header fields after stores to header fields, as one rewriting rule set. -/
theorem hdr_rw :
    (∀ (m : Mem) (a v : Nat), rd_size (wr_size m a v) a = v % 4294967296) ∧
    (∀ (m : Mem) (a b v : Nat), (a + 24 ≤ b ∨ b + 24 ≤ a) → rd_size (wr_size m b v) a = rd_size m a) ∧
    (∀ (m : Mem) (a b v : Nat), (a = b ∨ a + 24 ≤ b ∨ b + 24 ≤ a) → rd_size (wr_isUsed m b v) a = rd_size m a) ∧
    (∀ (m : Mem) (a b v : Nat), (a = b ∨ a + 24 ≤ b ∨ b + 24 ≤ a) → rd_size (wr_next_free m b v) a = rd_size m a) ∧
    (∀ (m : Mem) (a b v : Nat), (a = b ∨ a + 24 ≤ b ∨ b + 24 ≤ a) → rd_size (wr_prev_free m b v) a = rd_size m a) ∧
    (∀ (m : Mem) (a v : Nat), v < 256 → rd_isUsed (wr_isUsed m a v) a = v) ∧
    (∀ (m : Mem) (a b v : Nat), (a + 24 ≤ b ∨ b + 24 ≤ a) → rd_isUsed (wr_isUsed m b v) a = rd_isUsed m a) ∧
    (∀ (m : Mem) (a b v : Nat), (a = b ∨ a + 24 ≤ b ∨ b + 24 ≤ a) → rd_isUsed (wr_size m b v) a = rd_isUsed m a) ∧
    (∀ (m : Mem) (a b v : Nat), (a = b ∨ a + 24 ≤ b ∨ b + 24 ≤ a) → rd_isUsed (wr_next_free m b v) a = rd_isUsed m a) ∧
    (∀ (m : Mem) (a b v : Nat), (a = b ∨ a + 24 ≤ b ∨ b + 24 ≤ a) → rd_isUsed (wr_prev_free m b v) a = rd_isUsed m a) ∧
    (∀ (m : Mem) (a v : Nat), v < 18446744073709551616 → rd_next_free (wr_next_free m a v) a = v) ∧
    (∀ (m : Mem) (a b v : Nat), (a + 24 ≤ b ∨ b + 24 ≤ a) → rd_next_free (wr_next_free m b v) a = rd_next_free m a) ∧
    (∀ (m : Mem) (a b v : Nat), (a = b ∨ a + 24 ≤ b ∨ b + 24 ≤ a) → rd_next_free (wr_size m b v) a = rd_next_free m a) ∧
    (∀ (m : Mem) (a b v : Nat), (a = b ∨ a + 24 ≤ b ∨ b + 24 ≤ a) → rd_next_free (wr_isUsed m b v) a = rd_next_free m a) ∧
    (∀ (m : Mem) (a b v : Nat), (a = b ∨ a + 24 ≤ b ∨ b + 24 ≤ a) → rd_next_free (wr_prev_free m b v) a = rd_next_free m a) ∧
    (∀ (m : Mem) (a v : Nat), v < 18446744073709551616 → rd_prev_free (wr_prev_free m a v) a = v) ∧
    (∀ (m : Mem) (a b v : Nat), (a + 24 ≤ b ∨ b + 24 ≤ a) → rd_prev_free (wr_prev_free m b v) a = rd_prev_free m a) ∧
    (∀ (m : Mem) (a b v : Nat), (a = b ∨ a + 24 ≤ b ∨ b + 24 ≤ a) → rd_prev_free (wr_size m b v) a = rd_prev_free m a) ∧
    (∀ (m : Mem) (a b v : Nat), (a = b ∨ a + 24 ≤ b ∨ b + 24 ≤ a) → rd_prev_free (wr_isUsed m b v) a = rd_prev_free m a) ∧
    (∀ (m : Mem) (a b v : Nat), (a = b ∨ a + 24 ≤ b ∨ b + 24 ≤ a) → rd_prev_free (wr_next_free m b v) a = rd_prev_free m a) :=
  ⟨rd_size_wr_size, rd_size_wr_size_ne, rd_size_wr_isUsed, rd_size_wr_next_free, rd_size_wr_prev_free, rd_isUsed_wr_isUsed, rd_isUsed_wr_isUsed_ne, rd_isUsed_wr_size, rd_isUsed_wr_next_free, rd_isUsed_wr_prev_free, rd_next_free_wr_next_free, rd_next_free_wr_next_free_ne, rd_next_free_wr_size, rd_next_free_wr_isUsed, rd_next_free_wr_prev_free, rd_prev_free_wr_prev_free, rd_prev_free_wr_prev_free_ne, rd_prev_free_wr_size, rd_prev_free_wr_isUsed, rd_prev_free_wr_next_free⟩

/-- Bytes outside a header are not changed by a store to the header. -/
theorem out_rw :
    (∀ (m : Mem) (b v x : Nat), (x < b ∨ b + 24 ≤ x) → wr_size m b v x = m x) ∧
    (∀ (m : Mem) (b v x : Nat), (x < b ∨ b + 24 ≤ x) → wr_isUsed m b v x = m x) ∧
    (∀ (m : Mem) (b v x : Nat), (x < b ∨ b + 24 ≤ x) → wr_next_free m b v x = m x) ∧
    (∀ (m : Mem) (b v x : Nat), (x < b ∨ b + 24 ≤ x) → wr_prev_free m b v x = m x) :=
  ⟨wr_size_out, wr_isUsed_out, wr_next_free_out, wr_prev_free_out⟩

/-- Link fields are read from the bytes of their header. -/
theorem links_of_bytes (m m2 : Mem) (a : Nat)
    (h : ∀ x, a ≤ x → x < a + 24 → m2 x = m x) :
    rd_next_free m2 a = rd_next_free m a ∧ rd_prev_free m2 a = rd_prev_free m a := by
  unfold rd_next_free rd_prev_free
  exact ⟨rd_congr _ _ _ _ (fun x h1 h2 => h x (by omega) (by omega)),
    rd_congr _ _ _ _ (fun x h1 h2 => h x (by omega) (by omega))⟩

/-- The fields `size` and `isUsed` are read from the bytes of their header. -/
theorem su_of_bytes (m m2 : Mem) (a : Nat)
    (h : ∀ x, a ≤ x → x < a + 24 → m2 x = m x) :
    rd_size m2 a = rd_size m a ∧ rd_isUsed m2 a = rd_isUsed m a := by
  unfold rd_size rd_isUsed
  exact ⟨rd_congr _ _ _ _ (fun x h1 h2 => h x (by omega) (by omega)),
    rd_congr _ _ _ _ (fun x h1 h2 => h x (by omega) (by omega))⟩

/-! ## Lists of addresses -/

@[simp] theorem headOr_nil (d : Nat) : headOr [] d = d := rfl
@[simp] theorem headOr_cons (a d : Nat) (l : List Nat) : headOr (a :: l) d = a := rfl
@[simp] theorem lastOr_nil (d : Nat) : lastOr [] d = d := rfl
@[simp] theorem lastOr_cons (a d : Nat) (l : List Nat) : lastOr (a :: l) d = lastOr l a := rfl

@[simp] theorem headOr_append_cons (l1 l2 : List Nat) (a d : Nat) :
    headOr (l1 ++ a :: l2) d = headOr l1 a := by
  cases l1 <;> simp

@[simp] theorem lastOr_append_cons (l1 l2 : List Nat) (a d : Nat) :
    lastOr (l1 ++ a :: l2) d = lastOr l2 a := by
  induction l1 generalizing d with
  | nil => simp
  | cons x l ih => simp [ih]

theorem lastOr_mem (l : List Nat) (d : Nat) (h : l ≠ []) : lastOr l d ∈ l := by
  induction l generalizing d with
  | nil => exact absurd rfl h
  | cons x l ih =>
    cases l with
    | nil => simp
    | cons y l2 => exact List.mem_cons_of_mem _ (ih x (by simp))

theorem headOr_mem (l : List Nat) (d : Nat) (h : l ≠ []) : headOr l d ∈ l := by
  cases l with
  | nil => exact absurd rfl h
  | cons x l => simp

theorem lastOr_mem_or (l : List Nat) (d : Nat) : lastOr l d = d ∨ lastOr l d ∈ l := by
  cases l with
  | nil => simp
  | cons x l => exact Or.inr (lastOr_mem _ _ (by simp))

theorem headOr_mem_or (l : List Nat) (d : Nat) : headOr l d = d ∨ headOr l d ∈ l := by
  cases l with
  | nil => simp
  | cons x l => simp

theorem asc_append_cons (l1 l2 : List Nat) (a : Nat) :
    Asc (l1 ++ a :: l2) ↔
      Asc l1 ∧ Asc l2 ∧ (∀ x ∈ l1, x + 24 ≤ a) ∧ (∀ y ∈ l2, a + 24 ≤ y) := by
  unfold Asc
  rw [List.pairwise_append, List.pairwise_cons]
  constructor
  · rintro ⟨h1, ⟨h2, h3⟩, h4⟩
    exact ⟨h1, h3, fun x hx => h4 x hx a (by simp), h2⟩
  · rintro ⟨h1, h2, h3, h4⟩
    refine ⟨h1, ⟨h4, h2⟩, ?_⟩
    intro x hx y hy
    rcases List.mem_cons.1 hy with rfl | hy
    · exact h3 x hx
    · have := h3 x hx
      have := h4 y hy
      omega

theorem asc_cons (l : List Nat) (a : Nat) :
    Asc (a :: l) ↔ Asc l ∧ (∀ y ∈ l, a + 24 ≤ y) := by
  have := asc_append_cons [] l a
  simpa [Asc] using this

theorem asc_concat (l : List Nat) (a : Nat) :
    Asc (l ++ [a]) ↔ Asc l ∧ (∀ x ∈ l, x + 24 ≤ a) := by
  have := asc_append_cons l [] a
  simpa [Asc] using this

theorem eq_nil_or_snoc (l : List Nat) : l = [] ∨ ∃ l0 z, l = l0 ++ [z] := by
  rcases List.eq_nil_or_concat l with h | ⟨l0, z, h⟩
  · exact Or.inl h
  · exact Or.inr ⟨l0, z, by rw [h, List.concat_eq_append]⟩

theorem lastOr_ge (l : List Nat) (d b : Nat) (hd : b ≤ d) (h : ∀ y ∈ l, b ≤ y) : b ≤ lastOr l d := by
  rcases lastOr_mem_or l d with e | e
  · omega
  · exact h _ e

theorem headOr_le (l : List Nat) (d b : Nat) (hd : d ≤ b) (h : ∀ y ∈ l, y ≤ b) : headOr l d ≤ b := by
  rcases headOr_mem_or l d with e | e
  · omega
  · exact h _ e

/-! ## Linked segments -/

theorem seg_append (m : Mem) (l1 l2 : List Nat) (p n : Nat) :
    Seg m p (l1 ++ l2) n ↔ Seg m p l1 (headOr l2 n) ∧ Seg m (lastOr l1 p) l2 n := by
  induction l1 generalizing p with
  | nil => simp [Seg]
  | cons a l ih =>
    have e : headOr (l ++ l2) n = headOr l (headOr l2 n) := by cases l <;> simp
    rw [List.cons_append]
    simp only [Seg, lastOr_cons]
    rw [ih a, e]
    simp only [and_assoc]

theorem seg_congr (m m2 : Mem) (l : List Nat) (p n : Nat)
    (h : ∀ a ∈ l, rd_next_free m2 a = rd_next_free m a ∧ rd_prev_free m2 a = rd_prev_free m a)
    (hs : Seg m p l n) : Seg m2 p l n := by
  induction l generalizing p with
  | nil => trivial
  | cons a l ih =>
    obtain ⟨h1, h2, h3⟩ := hs
    have ha := h a (by simp)
    exact ⟨by rw [ha.2, h1], by rw [ha.1, h2],
      ih a (fun x hx => h x (List.mem_cons_of_mem _ hx)) h3⟩

/-! ## The list operations of the source on a linked segment -/

theorem take_unlink_spec (h : Heap) (L1 L2 : List Nat) (c : Nat)
    (hd : DLL h (L1 ++ c :: L2)) :
    DLL (take_unlink h c) (L1 ++ L2) ∧ LinkStep h (take_unlink h c) (L1 ++ c :: L2) ∧
    rd_next_free (take_unlink h c).mem c = 0 ∧ rd_prev_free (take_unlink h c).mem c = 0 := by
  obtain ⟨hh, ht, hl, hs, hp⟩ := hd
  rcases eq_nil_or_snoc L1 with rfl | ⟨L0, z, rfl⟩ <;>
  rcases L2 with _ | ⟨y, L3⟩
  · simp only [List.nil_append, Seg, headOr_cons, lastOr_cons, headOr_nil, lastOr_nil] at hh ht hl
    obtain ⟨hl1, hl2, -⟩ := hl
    have e : (take_unlink h c) = { h with
        mem := wr_prev_free (wr_next_free h.mem c 0) c 0
        head_free := 0
        tail_free := 0 } := by
      simp (disch := omega) only [take_unlink, hh, ht, if_true, hdr_rw, hl1, hl2]
    rw [e]
    refine ⟨⟨rfl, rfl, trivial, List.Pairwise.nil, by simp⟩, ⟨?_, ?_, ?_, rfl, rfl, rfl, rfl⟩, ?_, ?_⟩
    · intro a ha
      have h2 := ha c (by simp)
      simp (disch := omega) only [hdr_rw]
    · intro a ha
      have h2 := ha c (by simp)
      simp (disch := omega) only [hdr_rw]
    · intro x hx
      have h2 := hx c (by simp)
      simp (disch := omega) only [out_rw]
    · simp (disch := omega) only [hdr_rw]
    · simp (disch := omega) only [hdr_rw]
  · rw [List.nil_append] at hs hp hh ht hl
    rw [asc_cons, asc_cons] at hs
    obtain ⟨⟨hs2, hs3⟩, hs4⟩ := hs
    simp only [Seg, headOr_cons, lastOr_cons] at hl hh ht
    have hy := (hp y (by simp)).2
    have hcy : c + 24 ≤ y := hs4 y (by simp)
    have ht2 : c ≠ h.tail_free := by
      have := lastOr_ge L3 y y (le_refl _) (fun a ha => by have := hs3 a ha; omega)
      omega
    obtain ⟨hl6, hl7, hl8, hl9, hl10⟩ := hl
    have e : (take_unlink h c) = { h with
        mem := wr_prev_free (wr_next_free (wr_prev_free h.mem y 0) c 0) c 0
        head_free := y } := by
      simp (disch := omega) only [take_unlink, ht2, hh, if_false, if_true, hdr_rw, hl6, hl7]
    rw [e]
    refine ⟨⟨?_, ?_, ?_, ?_, ?_⟩, ⟨?_, ?_, ?_, rfl, rfl, rfl, rfl⟩, ?_, ?_⟩
    · simp
    · simp [ht]
    · simp only [List.nil_append, Seg, headOr_cons, lastOr_cons]
      refine ⟨?_, ?_, ?_⟩
      · simp (disch := omega) only [hdr_rw]
      · simp (disch := omega) only [hdr_rw, hl9]
      · refine seg_congr _ _ _ _ _ ?_ hl10
        intro a ha
        have := hs3 a ha
        simp (disch := omega) only [hdr_rw, and_self]
    · rw [List.nil_append, asc_cons]
      exact ⟨hs2, hs3⟩
    · intro a ha
      exact hp a (by simp at ha ⊢; tauto)
    · intro a ha
      have h2 := ha c (by simp)
      have h3 := ha y (by simp)
      simp (disch := omega) only [hdr_rw]
    · intro a ha
      have h2 := ha c (by simp)
      have h3 := ha y (by simp)
      simp (disch := omega) only [hdr_rw]
    · intro x hx
      have h2 := hx c (by simp)
      have h3 := hx y (by simp)
      simp (disch := omega) only [out_rw]
    · simp (disch := omega) only [hdr_rw]
    · simp (disch := omega) only [hdr_rw]
  · rw [List.append_assoc, List.singleton_append] at hs hp hh ht hl
    rw [asc_append_cons, asc_cons] at hs
    obtain ⟨hs1, -, hs5, hs6⟩ := hs
    rw [seg_append] at hl
    simp only [Seg, headOr_cons, lastOr_cons, headOr_nil] at hl
    rw [headOr_append_cons] at hh
    rw [lastOr_append_cons] at ht
    simp only [lastOr_cons, lastOr_nil] at ht
    have hz := (hp z (by simp)).2
    have hzc : z + 24 ≤ c := hs6 c (by simp)
    have hh2 : c ≠ h.head_free := by
      have := headOr_le L0 z z (le_refl _) (fun a ha => by have := hs5 a ha; omega)
      omega
    obtain ⟨hl1, hl4, hl5, hl6, hl7, -⟩ := hl
    have e : (take_unlink h c) = { h with
        mem := wr_prev_free (wr_next_free (wr_next_free h.mem z 0) c 0) c 0
        tail_free := z } := by
      simp (disch := omega) only [take_unlink, ht, hh2, if_false, if_true, hdr_rw, hl6, hl7]
    rw [e]
    refine ⟨⟨?_, ?_, ?_, ?_, ?_⟩, ⟨?_, ?_, ?_, rfl, rfl, rfl, rfl⟩, ?_, ?_⟩
    · simp [hh]
    · simp
    · rw [List.append_nil, seg_append]
      simp only [Seg, headOr_cons, lastOr_cons, headOr_nil]
      refine ⟨?_, ?_, ?_, trivial⟩
      · refine seg_congr _ _ _ _ _ ?_ hl1
        intro a ha
        have := hs5 a ha
        simp (disch := omega) only [hdr_rw, and_self]
      · simp (disch := omega) only [hdr_rw, hl4]
      · simp (disch := omega) only [hdr_rw]
    · rw [List.append_nil, asc_concat]
      exact ⟨hs1, hs5⟩
    · intro a ha
      exact hp a (by simp at ha ⊢; tauto)
    · intro a ha
      have h1 := ha z (by simp)
      have h2 := ha c (by simp)
      simp (disch := omega) only [hdr_rw]
    · intro a ha
      have h1 := ha z (by simp)
      have h2 := ha c (by simp)
      simp (disch := omega) only [hdr_rw]
    · intro x hx
      have h1 := hx z (by simp)
      have h2 := hx c (by simp)
      simp (disch := omega) only [out_rw]
    · simp (disch := omega) only [hdr_rw]
    · simp (disch := omega) only [hdr_rw]
  · rw [List.append_assoc, List.singleton_append] at hs hp hh ht hl
    rw [asc_append_cons, asc_cons, asc_cons] at hs
    obtain ⟨hs1, ⟨⟨hs2, hs3⟩, hs4⟩, hs5, hs6⟩ := hs
    rw [seg_append] at hl
    simp only [Seg, headOr_cons, lastOr_cons] at hl
    rw [headOr_append_cons] at hh
    rw [lastOr_append_cons] at ht
    simp only [lastOr_cons] at ht
    have hz := (hp z (by simp)).2
    have hy := (hp y (by simp)).2
    have hzc : z + 24 ≤ c := hs6 c (by simp)
    have hcy : c + 24 ≤ y := hs4 y (by simp)
    have ht2 : c ≠ h.tail_free := by
      have := lastOr_ge L3 y y (le_refl _) (fun a ha => by have := hs3 a ha; omega)
      omega
    have hh2 : c ≠ h.head_free := by
      have := headOr_le L0 z z (le_refl _) (fun a ha => by have := hs5 a ha; omega)
      omega
    obtain ⟨hl1, hl4, hl5, hl6, hl7, hl8, hl9, hl10⟩ := hl
    have e : (take_unlink h c) = { h with
        mem := wr_prev_free (wr_next_free (wr_next_free (wr_prev_free h.mem y z) z y) c 0) c 0 } := by
      simp (disch := omega) only [take_unlink, ht2, hh2, if_false, hdr_rw, hl6, hl7]
    rw [e]
    refine ⟨⟨?_, ?_, ?_, ?_, ?_⟩, ⟨?_, ?_, ?_, rfl, rfl, rfl, rfl⟩, ?_, ?_⟩
    · simp [hh]
    · simp [ht]
    · rw [List.append_assoc, List.singleton_append, seg_append]
      simp only [Seg, headOr_cons, lastOr_cons]
      refine ⟨?_, ?_, ?_, ?_, ?_, ?_⟩
      · refine seg_congr _ _ _ _ _ ?_ hl1
        intro a ha
        have := hs5 a ha
        simp (disch := omega) only [hdr_rw, and_self]
      · simp (disch := omega) only [hdr_rw, hl4]
      · simp (disch := omega) only [hdr_rw]
      · simp (disch := omega) only [hdr_rw]
      · simp (disch := omega) only [hdr_rw, hl9]
      · refine seg_congr _ _ _ _ _ ?_ hl10
        intro a ha
        have := hs3 a ha
        simp (disch := omega) only [hdr_rw, and_self]
    · rw [List.append_assoc, List.singleton_append, asc_append_cons, asc_cons]
      exact ⟨hs1, ⟨hs2, hs3⟩, hs5, fun a ha => by have := hs4 a ha; omega⟩
    · intro a ha
      exact hp a (by simp at ha ⊢; tauto)
    · intro a ha
      have h1 := ha z (by simp)
      have h2 := ha c (by simp)
      have h3 := ha y (by simp)
      simp (disch := omega) only [hdr_rw]
    · intro a ha
      have h1 := ha z (by simp)
      have h2 := ha c (by simp)
      have h3 := ha y (by simp)
      simp (disch := omega) only [hdr_rw]
    · intro x hx
      have h1 := hx z (by simp)
      have h2 := hx c (by simp)
      have h3 := hx y (by simp)
      simp (disch := omega) only [out_rw]
    · simp (disch := omega) only [hdr_rw]
    · simp (disch := omega) only [hdr_rw]

theorem split_relink_spec (h : Heap) (L1 L2 : List Nat) (c n : Nat)
    (hd : DLL h (L1 ++ c :: L2)) (hcn : c + 24 ≤ n) (hn2 : ∀ y ∈ L2, n + 24 ≤ y)
    (hn : n < 18446744073709551616) :
    DLL (split_relink h c n) (L1 ++ n :: L2) ∧
    LinkStep h (split_relink h c n) (L1 ++ c :: n :: L2) := by
  obtain ⟨hh, ht, hl, hs, hp⟩ := hd
  rcases eq_nil_or_snoc L1 with rfl | ⟨L0, z, rfl⟩ <;>
  rcases L2 with _ | ⟨y, L3⟩
  · simp only [List.nil_append, Seg, headOr_cons, lastOr_cons, headOr_nil, lastOr_nil] at hh ht hl
    obtain ⟨hl1, hl2, -⟩ := hl
    have hc := hp c (by simp)
    have e : (split_relink h c n) = { h with
        mem := wr_prev_free (wr_next_free h.mem n 0) n 0
        head_free := n
        tail_free := n } := by
      simp (disch := omega) only [split_relink, hh, ht, if_true, hdr_rw, hl1, hl2]
    rw [e]
    refine ⟨⟨rfl, rfl, ?_, ?_, ?_⟩, ⟨?_, ?_, ?_, rfl, rfl, rfl, rfl⟩⟩
    · simp only [List.nil_append, Seg, headOr_nil]
      refine ⟨?_, ?_, trivial⟩
      · simp (disch := omega) only [hdr_rw]
      · simp (disch := omega) only [hdr_rw]
    · simp [Asc]
    · intro a ha
      simp only [List.nil_append, List.mem_singleton] at ha
      subst ha
      omega
    · intro a ha
      have h2 := ha c (by simp)
      have h4 := ha n (by simp)
      simp (disch := omega) only [hdr_rw]
    · intro a ha
      have h2 := ha c (by simp)
      have h4 := ha n (by simp)
      simp (disch := omega) only [hdr_rw]
    · intro x hx
      have h2 := hx c (by simp)
      have h4 := hx n (by simp)
      simp (disch := omega) only [out_rw]
  · rw [List.nil_append] at hs hp hh ht hl
    rw [asc_cons, asc_cons] at hs
    obtain ⟨⟨hs2, hs3⟩, hs4⟩ := hs
    simp only [Seg, headOr_cons, lastOr_cons] at hl hh ht
    have hy := (hp y (by simp)).2
    have hc := hp c (by simp)
    have hcy : c + 24 ≤ y := hs4 y (by simp)
    have hny : n + 24 ≤ y := hn2 y (by simp)
    have ht2 : c ≠ h.tail_free := by
      have := lastOr_ge L3 y y (le_refl _) (fun a ha => by have := hs3 a ha; omega)
      omega
    obtain ⟨hl6, hl7, hl8, hl9, hl10⟩ := hl
    have e : (split_relink h c n) = { h with
        mem := wr_prev_free (wr_prev_free (wr_next_free h.mem n y) n 0) y n
        head_free := n } := by
      simp (disch := omega) only [split_relink, ht2, hh, if_false, if_true, hdr_rw, hl6, hl7]
    rw [e]
    refine ⟨⟨?_, ?_, ?_, ?_, ?_⟩, ⟨?_, ?_, ?_, rfl, rfl, rfl, rfl⟩⟩
    · simp
    · simp [ht]
    · simp only [List.nil_append, Seg, headOr_cons, lastOr_cons]
      refine ⟨?_, ?_, ?_, ?_, ?_⟩
      · simp (disch := omega) only [hdr_rw]
      · simp (disch := omega) only [hdr_rw]
      · simp (disch := omega) only [hdr_rw]
      · simp (disch := omega) only [hdr_rw, hl9]
      · refine seg_congr _ _ _ _ _ ?_ hl10
        intro a ha
        have := hs3 a ha
        simp (disch := omega) only [hdr_rw, and_self]
    · rw [List.nil_append, asc_cons, asc_cons]
      exact ⟨⟨hs2, hs3⟩, hn2⟩
    · intro a ha
      simp only [List.nil_append, List.mem_cons] at ha
      rcases ha with rfl | ha
      · omega
      · exact hp a (by simp; tauto)
    · intro a ha
      have h2 := ha c (by simp)
      have h3 := ha y (by simp)
      have h4 := ha n (by simp)
      simp (disch := omega) only [hdr_rw]
    · intro a ha
      have h2 := ha c (by simp)
      have h3 := ha y (by simp)
      have h4 := ha n (by simp)
      simp (disch := omega) only [hdr_rw]
    · intro x hx
      have h2 := hx c (by simp)
      have h3 := hx y (by simp)
      have h4 := hx n (by simp)
      simp (disch := omega) only [out_rw]
  · rw [List.append_assoc, List.singleton_append] at hs hp hh ht hl
    rw [asc_append_cons, asc_cons] at hs
    obtain ⟨hs1, -, hs5, hs6⟩ := hs
    rw [seg_append] at hl
    simp only [Seg, headOr_cons, lastOr_cons, headOr_nil] at hl
    rw [headOr_append_cons] at hh
    rw [lastOr_append_cons] at ht
    simp only [lastOr_cons, lastOr_nil] at ht
    have hz := (hp z (by simp)).2
    have hc := hp c (by simp)
    have hzc : z + 24 ≤ c := hs6 c (by simp)
    have hh2 : c ≠ h.head_free := by
      have := headOr_le L0 z z (le_refl _) (fun a ha => by have := hs5 a ha; omega)
      omega
    obtain ⟨hl1, hl4, hl5, hl6, hl7, -⟩ := hl
    have e : (split_relink h c n) = { h with
        mem := wr_next_free (wr_prev_free (wr_next_free h.mem n 0) n z) z n
        tail_free := n } := by
      simp (disch := omega) only [split_relink, ht, hh2, if_false, if_true, hdr_rw, hl6, hl7]
    rw [e]
    refine ⟨⟨?_, ?_, ?_, ?_, ?_⟩, ⟨?_, ?_, ?_, rfl, rfl, rfl, rfl⟩⟩
    · simp [hh]
    · simp
    · rw [List.append_assoc, List.singleton_append, seg_append]
      simp only [Seg, headOr_cons, lastOr_cons, headOr_nil]
      refine ⟨?_, ?_, ?_, ?_, ?_, trivial⟩
      · refine seg_congr _ _ _ _ _ ?_ hl1
        intro a ha
        have := hs5 a ha
        simp (disch := omega) only [hdr_rw, and_self]
      · simp (disch := omega) only [hdr_rw, hl4]
      · simp (disch := omega) only [hdr_rw]
      · simp (disch := omega) only [hdr_rw]
      · simp (disch := omega) only [hdr_rw]
    · rw [List.append_assoc, List.singleton_append, asc_append_cons, asc_cons]
      refine ⟨hs1, ⟨List.Pairwise.nil, by simp⟩, hs5, ?_⟩
      intro a ha
      simp only [List.mem_singleton] at ha
      omega
    · intro a ha
      simp only [List.append_assoc, List.mem_append, List.mem_cons, List.mem_singleton,
        List.not_mem_nil, or_false] at ha
      rcases ha with ha | rfl | rfl
      · exact hp a (by simp; tauto)
      · exact hp a (by simp)
      · omega
    · intro a ha
      have h1 := ha z (by simp)
      have h2 := ha c (by simp)
      have h4 := ha n (by simp)
      simp (disch := omega) only [hdr_rw]
    · intro a ha
      have h1 := ha z (by simp)
      have h2 := ha c (by simp)
      have h4 := ha n (by simp)
      simp (disch := omega) only [hdr_rw]
    · intro x hx
      have h1 := hx z (by simp)
      have h2 := hx c (by simp)
      have h4 := hx n (by simp)
      simp (disch := omega) only [out_rw]
  · rw [List.append_assoc, List.singleton_append] at hs hp hh ht hl
    rw [asc_append_cons, asc_cons, asc_cons] at hs
    obtain ⟨hs1, ⟨⟨hs2, hs3⟩, hs4⟩, hs5, hs6⟩ := hs
    rw [seg_append] at hl
    simp only [Seg, headOr_cons, lastOr_cons] at hl
    rw [headOr_append_cons] at hh
    rw [lastOr_append_cons] at ht
    simp only [lastOr_cons] at ht
    have hz := (hp z (by simp)).2
    have hy := (hp y (by simp)).2
    have hc := hp c (by simp)
    have hzc : z + 24 ≤ c := hs6 c (by simp)
    have hcy : c + 24 ≤ y := hs4 y (by simp)
    have hny : n + 24 ≤ y := hn2 y (by simp)
    have ht2 : c ≠ h.tail_free := by
      have := lastOr_ge L3 y y (le_refl _) (fun a ha => by have := hs3 a ha; omega)
      omega
    have hh2 : c ≠ h.head_free := by
      have := headOr_le L0 z z (le_refl _) (fun a ha => by have := hs5 a ha; omega)
      omega
    obtain ⟨hl1, hl4, hl5, hl6, hl7, hl8, hl9, hl10⟩ := hl
    have e : (split_relink h c n) = { h with
        mem := wr_next_free (wr_prev_free (wr_prev_free (wr_next_free h.mem n y) n z) y n) z n } := by
      simp (disch := omega) only [split_relink, ht2, hh2, if_false, hdr_rw, hl6, hl7]
    rw [e]
    refine ⟨⟨?_, ?_, ?_, ?_, ?_⟩, ⟨?_, ?_, ?_, rfl, rfl, rfl, rfl⟩⟩
    · simp [hh]
    · simp [ht]
    · rw [List.append_assoc, List.singleton_append, seg_append]
      simp only [Seg, headOr_cons, lastOr_cons]
      refine ⟨?_, ?_, ?_, ?_, ?_, ?_, ?_, ?_⟩
      · refine seg_congr _ _ _ _ _ ?_ hl1
        intro a ha
        have := hs5 a ha
        simp (disch := omega) only [hdr_rw, and_self]
      · simp (disch := omega) only [hdr_rw, hl4]
      · simp (disch := omega) only [hdr_rw]
      · simp (disch := omega) only [hdr_rw]
      · simp (disch := omega) only [hdr_rw]
      · simp (disch := omega) only [hdr_rw]
      · simp (disch := omega) only [hdr_rw, hl9]
      · refine seg_congr _ _ _ _ _ ?_ hl10
        intro a ha
        have := hs3 a ha
        simp (disch := omega) only [hdr_rw, and_self]
    · rw [List.append_assoc, List.singleton_append, asc_append_cons, asc_cons, asc_cons]
      refine ⟨hs1, ⟨⟨hs2, hs3⟩, hn2⟩, hs5, ?_⟩
      intro a ha
      simp only [List.mem_cons] at ha
      rcases ha with rfl | rfl | ha
      · omega
      · omega
      · have := hs3 a ha
        omega
    · intro a ha
      simp only [List.append_assoc, List.mem_append, List.mem_cons, List.mem_singleton,
        List.not_mem_nil, or_false] at ha
      rcases ha with ha | rfl | rfl | rfl | ha
      · exact hp a (by simp; tauto)
      · exact hp a (by simp)
      · omega
      · exact hp a (by simp)
      · exact hp a (by simp; tauto)
    · intro a ha
      have h1 := ha z (by simp)
      have h2 := ha c (by simp)
      have h3 := ha y (by simp)
      have h4 := ha n (by simp)
      simp (disch := omega) only [hdr_rw]
    · intro a ha
      have h1 := ha z (by simp)
      have h2 := ha c (by simp)
      have h3 := ha y (by simp)
      have h4 := ha n (by simp)
      simp (disch := omega) only [hdr_rw]
    · intro x hx
      have h1 := hx z (by simp)
      have h2 := hx c (by simp)
      have h3 := hx y (by simp)
      have h4 := hx n (by simp)
      simp (disch := omega) only [out_rw]

theorem link_before_spec (h : Heap) (L1 L2 : List Nat) (node curr : Nat)
    (hd : DLL h (L1 ++ curr :: L2)) (h1n : ∀ x ∈ L1, x + 24 ≤ node) (hnc : node + 24 ≤ curr)
    (hn0 : 0 < node) :
    DLL (link_before h node curr) (L1 ++ node :: curr :: L2) ∧
    LinkStep h (link_before h node curr) (L1 ++ node :: curr :: L2) := by
  obtain ⟨hh, ht, hl, hs, hp⟩ := hd
  have hc := hp curr (by simp)
  rcases eq_nil_or_snoc L1 with rfl | ⟨L0, z, rfl⟩
  · rw [List.nil_append] at hs hp hh ht hl
    rw [asc_cons] at hs
    obtain ⟨hs2, hs3⟩ := hs
    simp only [Seg, headOr_cons, lastOr_cons] at hl hh ht
    obtain ⟨hl6, hl7, hl10⟩ := hl
    have e : (link_before h node curr) = { h with
        mem := wr_next_free (wr_prev_free (wr_prev_free h.mem node 0) curr node) node curr
        head_free := node } := by
      simp (disch := omega) only [link_before, hh, if_true, hdr_rw, hl6]
    rw [e]
    refine ⟨⟨?_, ?_, ?_, ?_, ?_⟩, ⟨?_, ?_, ?_, rfl, rfl, rfl, rfl⟩⟩
    · simp
    · simp [ht]
    · simp only [List.nil_append, Seg, headOr_cons, lastOr_cons]
      refine ⟨?_, ?_, ?_, ?_, ?_⟩
      · simp (disch := omega) only [hdr_rw]
      · simp (disch := omega) only [hdr_rw]
      · simp (disch := omega) only [hdr_rw]
      · simp (disch := omega) only [hdr_rw, hl7]
      · refine seg_congr _ _ _ _ _ ?_ hl10
        intro a ha
        have := hs3 a ha
        simp (disch := omega) only [hdr_rw, and_self]
    · rw [List.nil_append, asc_cons, asc_cons]
      refine ⟨⟨hs2, hs3⟩, ?_⟩
      intro a ha
      simp only [List.mem_cons] at ha
      rcases ha with rfl | ha
      · omega
      · have := hs3 a ha
        omega
    · intro a ha
      simp only [List.nil_append, List.mem_cons] at ha
      rcases ha with rfl | ha
      · omega
      · exact hp a (by simp; tauto)
    · intro a ha
      have h2 := ha curr (by simp)
      have h4 := ha node (by simp)
      simp (disch := omega) only [hdr_rw]
    · intro a ha
      have h2 := ha curr (by simp)
      have h4 := ha node (by simp)
      simp (disch := omega) only [hdr_rw]
    · intro x hx
      have h2 := hx curr (by simp)
      have h4 := hx node (by simp)
      simp (disch := omega) only [out_rw]
  · rw [List.append_assoc, List.singleton_append] at hs hp hh ht hl
    rw [asc_append_cons, asc_cons] at hs
    obtain ⟨hs1, ⟨hs2, hs3⟩, hs5, hs6⟩ := hs
    rw [seg_append] at hl
    simp only [Seg, headOr_cons, lastOr_cons] at hl
    rw [headOr_append_cons] at hh
    rw [lastOr_append_cons] at ht
    simp only [lastOr_cons] at ht
    have hz := (hp z (by simp)).2
    have hzn : z + 24 ≤ node := h1n z (by simp)
    have hh2 : curr ≠ h.head_free := by
      have := headOr_le L0 z z (le_refl _) (fun a ha => by have := hs5 a ha; omega)
      omega
    obtain ⟨hl1, hl4, hl5, hl6, hl7, hl10⟩ := hl
    have e : (link_before h node curr) = { h with
        mem := wr_next_free (wr_prev_free (wr_next_free (wr_prev_free h.mem node z) z node)
          curr node) node curr } := by
      simp (disch := omega) only [link_before, hh2, if_false, hdr_rw, hl6]
    rw [e]
    refine ⟨⟨?_, ?_, ?_, ?_, ?_⟩, ⟨?_, ?_, ?_, rfl, rfl, rfl, rfl⟩⟩
    · simp [hh]
    · simp [ht]
    · rw [List.append_assoc, List.singleton_append, seg_append]
      simp only [Seg, headOr_cons, lastOr_cons]
      refine ⟨?_, ?_, ?_, ?_, ?_, ?_, ?_, ?_⟩
      · refine seg_congr _ _ _ _ _ ?_ hl1
        intro a ha
        have := hs5 a ha
        simp (disch := omega) only [hdr_rw, and_self]
      · simp (disch := omega) only [hdr_rw, hl4]
      · simp (disch := omega) only [hdr_rw]
      · simp (disch := omega) only [hdr_rw]
      · simp (disch := omega) only [hdr_rw]
      · simp (disch := omega) only [hdr_rw]
      · simp (disch := omega) only [hdr_rw, hl7]
      · refine seg_congr _ _ _ _ _ ?_ hl10
        intro a ha
        have := hs3 a ha
        simp (disch := omega) only [hdr_rw, and_self]
    · rw [List.append_assoc, List.singleton_append, asc_append_cons, asc_cons, asc_cons]
      refine ⟨hs1, ⟨⟨hs2, hs3⟩, ?_⟩, hs5, ?_⟩
      · intro a ha
        simp only [List.mem_cons] at ha
        rcases ha with rfl | ha
        · omega
        · have := hs3 a ha
          omega
      · intro a ha
        simp only [List.mem_cons] at ha
        rcases ha with rfl | rfl | ha
        · omega
        · omega
        · have := hs3 a ha
          omega
    · intro a ha
      simp only [List.append_assoc, List.mem_append, List.mem_cons, List.mem_singleton,
        List.not_mem_nil, or_false] at ha
      rcases ha with ha | rfl | rfl | rfl | ha
      · exact hp a (by simp; tauto)
      · exact hp a (by simp)
      · omega
      · exact hp a (by simp)
      · exact hp a (by simp; tauto)
    · intro a ha
      have h1 := ha z (by simp)
      have h2 := ha curr (by simp)
      have h4 := ha node (by simp)
      simp (disch := omega) only [hdr_rw]
    · intro a ha
      have h1 := ha z (by simp)
      have h2 := ha curr (by simp)
      have h4 := ha node (by simp)
      simp (disch := omega) only [hdr_rw]
    · intro x hx
      have h1 := hx z (by simp)
      have h2 := hx curr (by simp)
      have h4 := hx node (by simp)
      simp (disch := omega) only [out_rw]

theorem link_last_spec (h : Heap) (L0 : List Nat) (z node : Nat)
    (hd : DLL h (L0 ++ [z])) (h1n : ∀ x ∈ L0 ++ [z], x + 24 ≤ node)
    (hnx : rd_next_free h.mem node = 0) (hn : node < 18446744073709551616) :
    DLL (link_last h node) (L0 ++ [z] ++ [node]) ∧
    LinkStep h (link_last h node) (L0 ++ [z] ++ [node]) := by
  obtain ⟨hh, ht, hl, hs, hp⟩ := hd
  rw [asc_concat] at hs
  obtain ⟨hs1, hs5⟩ := hs
  rw [seg_append] at hl
  simp only [Seg, headOr_cons, lastOr_cons, headOr_nil] at hl
  rw [headOr_append_cons] at hh
  rw [lastOr_append_cons] at ht
  simp only [lastOr_nil] at ht
  have hz := hp z (by simp)
  have hzn : z + 24 ≤ node := h1n z (by simp)
  obtain ⟨hl1, hl4, hl5, -⟩ := hl
  have e : (link_last h node) = { h with
      mem := wr_prev_free (wr_next_free h.mem z node) node z
      tail_free := node } := by
    simp (disch := omega) only [link_last, ht]
  rw [e]
  refine ⟨⟨?_, ?_, ?_, ?_, ?_⟩, ⟨?_, ?_, ?_, rfl, rfl, rfl, rfl⟩⟩
  · simp [hh]
  · simp
  · rw [List.append_assoc, List.singleton_append, seg_append]
    simp only [Seg, headOr_cons, lastOr_cons, headOr_nil]
    refine ⟨?_, ?_, ?_, ?_, ?_, trivial⟩
    · refine seg_congr _ _ _ _ _ ?_ hl1
      intro a ha
      have := hs5 a ha
      simp (disch := omega) only [hdr_rw, and_self]
    · simp (disch := omega) only [hdr_rw, hl4]
    · simp (disch := omega) only [hdr_rw]
    · simp (disch := omega) only [hdr_rw]
    · simp (disch := omega) only [hdr_rw, hnx]
  · rw [asc_concat, asc_concat]
    exact ⟨⟨hs1, hs5⟩, h1n⟩
  · intro a ha
    simp only [List.append_assoc, List.mem_append, List.mem_cons, List.mem_singleton,
      List.not_mem_nil, or_false] at ha
    rcases ha with ha | rfl | rfl
    · exact hp a (by simp; tauto)
    · exact hp a (by simp)
    · omega
  · intro a ha
    have h1 := ha z (by simp)
    have h4 := ha node (by simp)
    simp (disch := omega) only [hdr_rw]
  · intro a ha
    have h1 := ha z (by simp)
    have h4 := ha node (by simp)
    simp (disch := omega) only [hdr_rw]
  · intro x hx
    have h1 := hx z (by simp)
    have h4 := hx node (by simp)
    simp (disch := omega) only [out_rw]

theorem coalesce_spec (h : Heap) (L1 L2 : List Nat) (c n : Nat)
    (hd : DLL h (L1 ++ c :: n :: L2)) :
    DLL (coalesce h c) (L1 ++ c :: L2) ∧
    rd_size (coalesce h c).mem c = (rd_size h.mem c + 24 + rd_size h.mem n) % 4294967296 ∧
    rd_size (coalesce h c).mem n = 0 ∧
    rd_next_free (coalesce h c).mem n = 0 ∧ rd_prev_free (coalesce h c).mem n = 0 ∧
    (∀ a, SepAll a (L1 ++ c :: n :: L2) → a ≠ c → a ≠ n →
      rd_size (coalesce h c).mem a = rd_size h.mem a) ∧
    (∀ a, SepAll a (L1 ++ c :: n :: L2) →
      rd_isUsed (coalesce h c).mem a = rd_isUsed h.mem a) ∧
    (∀ x, Off x (L1 ++ c :: n :: L2) → (coalesce h c).mem x = h.mem x) ∧
    (coalesce h c).startOfHeap = h.startOfHeap ∧ (coalesce h c).brk = h.brk ∧
    (coalesce h c).limit = h.limit ∧ (coalesce h c).sbrkFailed = h.sbrkFailed := by
  obtain ⟨hh, ht, hl, hs, hp⟩ := hd
  have hc := hp c (by simp)
  have hn := hp n (by simp)
  rw [asc_append_cons, asc_cons] at hs
  obtain ⟨hs1, ⟨hs2, hs4⟩, hs5, hs6⟩ := hs
  have hcn : c + 24 ≤ n := hs6 n (by simp)
  rw [seg_append] at hl
  rw [headOr_append_cons] at hh
  rw [lastOr_append_cons] at ht
  rcases L2 with _ | ⟨y, L3⟩
  · simp only [Seg, headOr_cons, lastOr_cons, headOr_nil, lastOr_nil] at hl ht
    obtain ⟨hl1, hl4, hl5, hl6, hl7, -⟩ := hl
    have e : (coalesce h c) = { h with
        mem := wr_size (wr_prev_free (wr_next_free (wr_next_free (wr_size h.mem c
          (rd_size h.mem c + 24 + rd_size h.mem n)) c 0) n 0) n 0) n 0
        tail_free := c } := by
      simp (disch := omega) only [coalesce, HDR, ht, if_true, hdr_rw, hl5, hl7]
    rw [e]
    refine ⟨⟨?_, ?_, ?_, ?_, ?_⟩, ?_, ?_, ?_, ?_, ?_, ?_, ?_, rfl, rfl, rfl, rfl⟩
    · simp [hh]
    · simp
    · rw [seg_append]
      simp only [Seg, headOr_cons, lastOr_cons, headOr_nil]
      refine ⟨?_, ?_, ?_, trivial⟩
      · refine seg_congr _ _ _ _ _ ?_ hl1
        intro a ha
        have := hs5 a ha
        simp (disch := omega) only [hdr_rw, and_self]
      · simp (disch := omega) only [hdr_rw, hl4]
      · simp (disch := omega) only [hdr_rw]
    · rw [asc_append_cons]
      exact ⟨hs1, List.Pairwise.nil, hs5, by simp⟩
    · intro a ha
      exact hp a (by simp at ha ⊢; tauto)
    · simp (disch := omega) only [hdr_rw]
    · simp (disch := omega) only [hdr_rw]
    · simp (disch := omega) only [hdr_rw]
    · simp (disch := omega) only [hdr_rw]
    · intro a ha h1 h2
      have h3 := ha c (by simp)
      have h4 := ha n (by simp)
      simp (disch := omega) only [hdr_rw]
    · intro a ha
      have h3 := ha c (by simp)
      have h4 := ha n (by simp)
      simp (disch := omega) only [hdr_rw]
    · intro x hx
      have h3 := hx c (by simp)
      have h4 := hx n (by simp)
      simp (disch := omega) only [out_rw]
  · rw [asc_cons] at hs2
    obtain ⟨hs7, hs8⟩ := hs2
    have hs9 := hs4
    simp only [Seg, headOr_cons, lastOr_cons] at hl ht
    obtain ⟨hl1, hl4, hl5, hl6, hl7, hl8, hl9, hl10⟩ := hl
    have hy := hp y (by simp)
    have hny : n + 24 ≤ y := hs9 y (by simp)
    have ht2 : n ≠ h.tail_free := by
      have := lastOr_ge L3 y y (le_refl _) (fun a ha => by have := hs8 a ha; omega)
      omega
    have e : (coalesce h c) = { h with
        mem := wr_size (wr_prev_free (wr_next_free (wr_next_free (wr_prev_free (wr_size h.mem c
          (rd_size h.mem c + 24 + rd_size h.mem n)) y c) c y) n 0) n 0) n 0 } := by
      simp (disch := omega) only [coalesce, HDR, ht2, if_false, hdr_rw, hl5, hl7]
    rw [e]
    refine ⟨⟨?_, ?_, ?_, ?_, ?_⟩, ?_, ?_, ?_, ?_, ?_, ?_, ?_, rfl, rfl, rfl, rfl⟩
    · simp [hh]
    · simp [ht]
    · rw [seg_append]
      simp only [Seg, headOr_cons, lastOr_cons]
      refine ⟨?_, ?_, ?_, ?_, ?_, ?_⟩
      · refine seg_congr _ _ _ _ _ ?_ hl1
        intro a ha
        have := hs5 a ha
        simp (disch := omega) only [hdr_rw, and_self]
      · simp (disch := omega) only [hdr_rw, hl4]
      · simp (disch := omega) only [hdr_rw]
      · simp (disch := omega) only [hdr_rw]
      · simp (disch := omega) only [hdr_rw, hl9]
      · refine seg_congr _ _ _ _ _ ?_ hl10
        intro a ha
        have := hs8 a ha
        simp (disch := omega) only [hdr_rw, and_self]
    · rw [asc_append_cons, asc_cons]
      refine ⟨hs1, ⟨hs7, hs8⟩, hs5, ?_⟩
      intro a ha
      exact hs6 a (by simp at ha ⊢; tauto)
    · intro a ha
      exact hp a (by simp at ha ⊢; tauto)
    · simp (disch := omega) only [hdr_rw]
    · simp (disch := omega) only [hdr_rw]
    · simp (disch := omega) only [hdr_rw]
    · simp (disch := omega) only [hdr_rw]
    · intro a ha h1 h2
      have h3 := ha c (by simp)
      have h4 := ha n (by simp)
      have h5 := ha y (by simp)
      simp (disch := omega) only [hdr_rw]
    · intro a ha
      have h3 := ha c (by simp)
      have h4 := ha n (by simp)
      have h5 := ha y (by simp)
      simp (disch := omega) only [hdr_rw]
    · intro x hx
      have h3 := hx c (by simp)
      have h4 := hx n (by simp)
      have h5 := hx y (by simp)
      simp (disch := omega) only [out_rw]

theorem coalesce_step (h : Heap) (L1 L2 : List Nat) (c n : Nat)
    (hd : DLL h (L1 ++ c :: n :: L2)) :
    LinkStepX h (coalesce h c) (L1 ++ c :: n :: L2) [c, n] := by
  obtain ⟨-, -, -, -, -, h1, h2, h3, h4, h5, h6, h7⟩ := coalesce_spec h L1 L2 c n hd
  refine ⟨?_, h2, h3, h4, h5, h6, h7⟩
  intro a ha hE
  simp only [List.mem_cons, List.mem_singleton, List.not_mem_nil, or_false, not_or] at hE
  exact h1 a ha hE.1 hE.2

theorem LinkStep.toX (h h2 : Heap) (L : List Nat) (hl : LinkStep h h2 L) :
    LinkStepX h h2 L [] :=
  ⟨fun a ha _ => hl.size_eq a ha, hl.used_eq, hl.bytes_eq, hl.start_eq, hl.brk_eq, hl.limit_eq,
    hl.failed_eq⟩

/-! ## Block sequences -/

@[simp] theorem frees_nil : frees [] = [] := rfl

theorem frees_cons (b : Blk) (r : List Blk) :
    frees (b :: r) = if b.used then frees r else b.addr :: frees r := rfl

theorem frees_append (p q : List Blk) : frees (p ++ q) = frees p ++ frees q := by
  induction p with
  | nil => rfl
  | cons b r ih =>
    rw [List.cons_append, frees_cons, frees_cons, ih]
    split <;> rfl

theorem mem_frees (bs : List Blk) (x : Nat) :
    x ∈ frees bs ↔ ∃ b ∈ bs, b.used = false ∧ b.addr = x := by
  induction bs with
  | nil => simp
  | cons b r ih =>
    rw [frees_cons]
    by_cases hb : b.used = true
    · rw [if_pos hb, ih]
      constructor
      · rintro ⟨c, hc, h1, h2⟩
        exact ⟨c, List.mem_cons_of_mem _ hc, h1, h2⟩
      · rintro ⟨c, hc, h1, h2⟩
        rcases List.mem_cons.1 hc with rfl | hc
        · rw [hb] at h1; exact absurd h1 (by simp)
        · exact ⟨c, hc, h1, h2⟩
    · rw [if_neg hb, List.mem_cons, ih]
      constructor
      · rintro (rfl | ⟨c, hc, h1, h2⟩)
        · exact ⟨b, by simp, by simpa using hb, rfl⟩
        · exact ⟨c, List.mem_cons_of_mem _ hc, h1, h2⟩
      · rintro ⟨c, hc, h1, h2⟩
        rcases List.mem_cons.1 hc with rfl | hc
        · exact Or.inl h2.symm
        · exact Or.inr ⟨c, hc, h1, h2⟩

theorem tiles_append_cons (a e : Nat) (pre post : List Blk) (b : Blk) :
    Tiles a (pre ++ b :: post) e ↔
      Tiles a pre b.addr ∧ Tiles (b.addr + 24 + b.cap) post e := by
  induction pre generalizing a with
  | nil =>
    simp only [List.nil_append, Tiles]
    constructor
    · rintro ⟨h1, h2⟩
      subst h1
      exact ⟨rfl, h2⟩
    · rintro ⟨h1, h2⟩
      subst h1
      exact ⟨rfl, h2⟩
  | cons c r ih =>
    rw [List.cons_append]
    simp only [Tiles]
    rw [ih, and_assoc]

theorem tiles_le (a e : Nat) (bs : List Blk) (h : Tiles a bs e) : a ≤ e := by
  induction bs generalizing a with
  | nil => exact le_of_eq h
  | cons b r ih =>
    have := ih _ h.2
    omega

theorem tiles_bounds (a e : Nat) (bs : List Blk) (h : Tiles a bs e) :
    ∀ b ∈ bs, a ≤ b.addr ∧ b.addr + 24 + b.cap ≤ e := by
  induction bs generalizing a with
  | nil => simp
  | cons b r ih =>
    intro x hx
    obtain ⟨h1, h2⟩ := h
    rcases List.mem_cons.1 hx with rfl | hx
    · have := tiles_le _ _ _ h2
      omega
    · have := ih _ h2 x hx
      omega

/-- In a tiling the blocks before a block end before it and the blocks after it start after it. -/
theorem tiles_split (a e : Nat) (pre post : List Blk) (b : Blk)
    (h : Tiles a (pre ++ b :: post) e) :
    (∀ x ∈ pre, a ≤ x.addr ∧ x.addr + 24 + x.cap ≤ b.addr) ∧
    (∀ y ∈ post, b.addr + 24 + b.cap ≤ y.addr ∧ y.addr + 24 + y.cap ≤ e) ∧
    a ≤ b.addr ∧ b.addr + 24 + b.cap ≤ e := by
  rw [tiles_append_cons] at h
  have h1 := tiles_bounds _ _ _ h.1
  have h2 := tiles_bounds _ _ _ h.2
  have h3 := tiles_le _ _ _ h.1
  have h4 := tiles_le _ _ _ h.2
  exact ⟨h1, h2, h3, h4⟩

/-- Two blocks of a tiling are the same block or their headers share no byte. -/
theorem tiles_apart (a e : Nat) (bs : List Blk) (h : Tiles a bs e) :
    ∀ x ∈ bs, ∀ y ∈ bs, x = y ∨ Apart x.addr y.addr := by
  induction bs generalizing a with
  | nil => simp
  | cons b r ih =>
    obtain ⟨h1, h2⟩ := h
    have hb := tiles_bounds _ _ _ h2
    intro x hx y hy
    rcases List.mem_cons.1 hx with hx | hx <;> rcases List.mem_cons.1 hy with hy | hy
    · exact Or.inl (hx.trans hy.symm)
    · have := hb y hy
      subst hx
      right; left; omega
    · have := hb x hx
      subst hy
      right; right; omega
    · exact ih _ h2 x hx y hy

theorem tiles_sepAll (a e : Nat) (bs : List Blk) (h : Tiles a bs e) :
    ∀ x ∈ bs, SepAll x.addr (frees bs) := by
  intro x hx y hy
  obtain ⟨c, hc, -, rfl⟩ := (mem_frees _ _).1 hy
  rcases tiles_apart _ _ _ h x hx c hc with rfl | h1
  · exact Or.inl rfl
  · exact Or.inr h1

theorem tiles_used_apart (a e : Nat) (bs : List Blk) (h : Tiles a bs e) :
    ∀ x ∈ bs, x.used = true → ∀ y ∈ frees bs, Apart x.addr y := by
  intro x hx hu y hy
  obtain ⟨c, hc, hcu, rfl⟩ := (mem_frees _ _).1 hy
  rcases tiles_apart _ _ _ h x hx c hc with rfl | h1
  · rw [hu] at hcu; exact absurd hcu (by simp)
  · exact h1

theorem tiles_asc (a e : Nat) (bs : List Blk) (h : Tiles a bs e) : Asc (frees bs) := by
  induction bs generalizing a with
  | nil => exact List.Pairwise.nil
  | cons b r ih =>
    obtain ⟨h1, h2⟩ := h
    rw [frees_cons]
    split
    · exact ih _ h2
    · rw [asc_cons]
      refine ⟨ih _ h2, ?_⟩
      intro y hy
      obtain ⟨c, hc, -, rfl⟩ := (mem_frees _ _).1 hy
      have := tiles_bounds _ _ _ h2 c hc
      omega

theorem tiles_frees_bounds (a e : Nat) (bs : List Blk) (h : Tiles a bs e) :
    ∀ y ∈ frees bs, a ≤ y ∧ y + 24 ≤ e := by
  intro y hy
  obtain ⟨c, hc, -, rfl⟩ := (mem_frees _ _).1 hy
  have := tiles_bounds _ _ _ h c hc
  omega

theorem tiles_congr (a e : Nat) (pre post : List Blk) (b c : Blk) (h1 : c.addr = b.addr)
    (h2 : c.cap = b.cap) :
    Tiles a (pre ++ c :: post) e ↔ Tiles a (pre ++ b :: post) e := by
  rw [tiles_append_cons, tiles_append_cons, h1, h2]

/-! ## Header fields across the list operations -/

theorem asc_sepAll (L : List Nat) (h : Asc L) : ∀ a ∈ L, SepAll a L := by
  induction L with
  | nil => simp
  | cons b r ih =>
    rw [asc_cons] at h
    intro a ha y hy
    rcases List.mem_cons.1 ha with ha | ha <;> rcases List.mem_cons.1 hy with hy | hy
    · exact Or.inl (ha.trans hy.symm)
    · have := h.2 y hy
      subst ha
      right; left; omega
    · have := h.2 a ha
      subst hy
      right; right; omega
    · exact ih h.1 a ha y hy

/-- The fields of a header are read from its bytes. -/
theorem fields_of_bytes (m m2 : Mem) (x : Blk)
    (hb : ∀ z, x.addr ≤ z → z < x.addr + 24 → m2 z = m z) (hf : FieldsOK m x) :
    FieldsOK m2 x := by
  obtain ⟨f1, f2, f3, f4⟩ := hf
  have h1 := su_of_bytes _ _ _ hb
  have h2 := links_of_bytes _ _ _ hb
  exact ⟨by rw [h1.1, f1], f2, by rw [h1.2, f3], fun hx => by rw [h2.1, h2.2]; exact f4 hx⟩

theorem fields_linkstep (h h2 : Heap) (L E : List Nat) (x : Blk) (hl : LinkStepX h h2 L E)
    (hs : SepAll x.addr L) (hE : x.addr ∉ E) (hu : x.used = true → ∀ y ∈ L, Apart x.addr y)
    (hf : FieldsOK h.mem x) : FieldsOK h2.mem x := by
  obtain ⟨f1, f2, f3, f4⟩ := hf
  refine ⟨by rw [hl.size_eq _ hs hE, f1], f2, by rw [hl.used_eq _ hs, f3], ?_⟩
  intro hx
  have hb : ∀ z, x.addr ≤ z → z < x.addr + 24 → h2.mem z = h.mem z := by
    intro z h1 h2
    apply hl.bytes_eq
    intro y hy
    have := hu hx y hy
    unfold Apart at this
    omega
  have := links_of_bytes _ _ _ hb
  rw [this.1, this.2]
  exact f4 hx

/-- A list operation on headers of free blocks, or of the skipped block, keeps the
representation of all blocks. -/
theorem prerep_linkstep (h h2 : Heap) (bs : List Blk) (L L2 T E : List Nat) (k : Nat)
    (hp : PreRep h bs L k) (ls : LinkStepX h h2 T E)
    (hT : ∀ t ∈ T, ∃ x ∈ bs, x.addr = t ∧ (x.used = false ∨ x.addr = k))
    (hE : ∀ t ∈ E, ∀ x ∈ bs, x.addr = t → x.addr = k)
    (hd : DLL h2 L2) : PreRep h2 bs L2 k := by
  have hst : heapStart h2 = heapStart h := by
    unfold heapStart; rw [ls.start_eq, ls.brk_eq]
  refine ⟨by rw [hst]; exact hp.start_pos, by rw [hst, ls.brk_eq]; exact hp.tiles,
    by rw [ls.brk_eq, ls.limit_eq]; exact hp.brk_le, by rw [ls.limit_eq]; exact hp.limit_le,
    ?_, hd⟩
  intro x hx hxk
  refine fields_linkstep h h2 T E x ls ?_ ?_ ?_ (hp.fields x hx hxk)
  · intro t ht
    obtain ⟨y, hy, rfl, -⟩ := hT t ht
    rcases tiles_apart _ _ _ hp.tiles x hx y hy with e | e
    · exact Or.inl (by rw [e])
    · exact Or.inr e
  · intro hmem
    exact hxk (hE _ hmem x hx rfl)
  · intro hu t ht
    obtain ⟨y, hy, rfl, hy2⟩ := hT t ht
    rcases tiles_apart _ _ _ hp.tiles x hx y hy with e | e
    · subst e
      rcases hy2 with e2 | e2
      · rw [hu] at e2; exact absurd e2 (by simp)
      · exact absurd e2 hxk
    · exact e

/-- A store into the header of one block keeps the fields of the other blocks of a tiling. -/
theorem fields_wr_other (m m2 : Mem) (a e : Nat) (bs : List Blk) (c : Nat)
    (ht : Tiles a bs e) (hc : ∃ y ∈ bs, y.addr = c)
    (hm : ∀ z, (z < c ∨ c + 24 ≤ z) → m2 z = m z) :
    ∀ x ∈ bs, x.addr ≠ c → FieldsOK m x → FieldsOK m2 x := by
  intro x hx hxc hf
  obtain ⟨y, hy, rfl⟩ := hc
  refine fields_of_bytes m m2 x ?_ hf
  intro z h1 h2
  apply hm
  rcases tiles_apart _ _ _ ht x hx y hy with e | e
  · exact absurd (by rw [e]) hxc
  · unfold Apart at e
    omega

/-- A store into a header that is apart from the headers of a linked segment keeps the segment. -/
theorem dll_of_bytes (h h2 : Heap) (L : List Nat) (c : Nat) (hd : DLL h L)
    (hc : ∀ a ∈ L, Apart a c)
    (hm : ∀ z, (z < c ∨ c + 24 ≤ z) → h2.mem z = h.mem z)
    (hh : h2.head_free = h.head_free) (ht : h2.tail_free = h.tail_free) : DLL h2 L := by
  refine ⟨by rw [hh]; exact hd.head, by rw [ht]; exact hd.tail, ?_, hd.asc, hd.pos⟩
  refine seg_congr _ _ _ _ _ ?_ hd.seg
  intro a ha
  have := hc a ha
  unfold Apart at this
  exact links_of_bytes _ _ _ (fun z h1 h2 => hm z (by omega))

/-- A store to `isUsed` or `size` keeps a linked segment whose headers are equal to or apart
from the header stored to. -/
theorem dll_wr_isUsed (h : Heap) (L : List Nat) (c v : Nat) (hd : DLL h L) (hc : SepAll c L) :
    DLL { h with mem := wr_isUsed h.mem c v } L := by
  refine ⟨hd.head, hd.tail, ?_, hd.asc, hd.pos⟩
  refine seg_congr _ _ _ _ _ ?_ hd.seg
  intro a ha
  have := hc a ha
  simp (disch := omega) only [hdr_rw, and_self]

theorem prerep_unskip (h : Heap) (bs : List Blk) (L : List Nat) (k k2 : Nat)
    (hp : PreRep h bs L k) (hk : ∀ x ∈ bs, x.addr = k → x.addr ≠ k2 → FieldsOK h.mem x) :
    PreRep h bs L k2 := by
  refine ⟨hp.start_pos, hp.tiles, hp.brk_le, hp.limit_le, ?_, hp.dll⟩
  intro x hx hxk
  by_cases e : x.addr = k
  · exact hk x hx e hxk
  · exact hp.fields x hx e

theorem frees_mid (pre post : List Blk) (b : Blk) (hb : b.used = false) :
    frees (pre ++ b :: post) = frees pre ++ b.addr :: frees post := by
  rw [frees_append, frees_cons, hb]; rfl

theorem frees_mid_used (pre post : List Blk) (b : Blk) (hb : b.used = true) :
    frees (pre ++ b :: post) = frees pre ++ frees post := by
  rw [frees_append, frees_cons, hb]; rfl

theorem same_addr_eq (a e : Nat) (bs : List Blk) (ht : Tiles a bs e) (x y : Blk)
    (hx : x ∈ bs) (hy : y ∈ bs) (h : x.addr = y.addr) : x = y := by
  rcases tiles_apart _ _ _ ht x hx y hy with e1 | e1
  · exact e1
  · unfold Apart at e1; omega

/-! ## malloc takes a block whole -/

theorem rep_take (h : Heap) (pre post : List Blk) (b : Blk)
    (hr : RepX h (pre ++ b :: post) 0) (hb : b.used = false) :
    RepX (malloc_take h b.addr) (pre ++ { b with used := true } :: post) 0 := by
  have hfr := frees_mid pre post b hb
  have hfr2 : frees (pre ++ { b with used := true } :: post) = frees pre ++ frees post :=
    frees_mid_used pre post _ rfl
  have hb0 : b.addr ≠ 0 := by
    have := (hr.dll.pos b.addr (by rw [hfr]; simp)).1
    omega
  have hfb := hr.fields b (by simp) hb0
  have ht2 : Tiles (heapStart h) (pre ++ { b with used := true } :: post) h.brk :=
    (tiles_congr _ _ pre post b { b with used := true } rfl rfl).2 hr.tiles
  -- the store to `isUsed`
  have h1 : PreRep { h with mem := wr_isUsed h.mem b.addr 1 }
      (pre ++ { b with used := true } :: post) (frees pre ++ b.addr :: frees post) b.addr := by
    refine ⟨hr.start_pos, ht2, hr.brk_le, hr.limit_le, ?_, ?_⟩
    · intro x hx hxb
      have hx2 : x ∈ pre ++ b :: post := by
        simp only [List.mem_append, List.mem_cons] at hx ⊢
        rcases hx with hx | rfl | hx
        · exact Or.inl hx
        · exact absurd rfl hxb
        · exact Or.inr (Or.inr hx)
      have hx0 : x.addr ≠ 0 := by
        have := hr.start_pos
        have := (tiles_bounds _ _ _ hr.tiles x hx2).1
        omega
      refine fields_wr_other h.mem _ _ _ _ b.addr hr.tiles ⟨b, by simp, rfl⟩ ?_ x hx2 hxb
        (hr.fields x hx2 hx0)
      intro z hz
      exact wr_isUsed_out _ _ _ _ hz
    · have := dll_wr_isUsed h _ b.addr 1 hr.dll (tiles_sepAll _ _ _ hr.tiles b (by simp))
      rw [hfr] at this
      exact this
  obtain ⟨d2, ls, n0, p0⟩ := take_unlink_spec _ _ _ _ h1.dll
  have h2 := prerep_linkstep _ _ _ _ _ _ _ _ h1 ls.toX ?_ (by simp) d2
  · unfold RepX
    rw [hfr2]
    refine prerep_unskip _ _ _ _ _ h2 ?_
    intro x hx hxb _
    have hx2 := same_addr_eq _ _ _ ht2 x { b with used := true } hx (by simp) hxb
    subst hx2
    have hs : SepAll b.addr (frees pre ++ b.addr :: frees post) := by
      have := tiles_sepAll _ _ _ hr.tiles b (by simp)
      rw [hfr] at this
      exact this
    refine ⟨?_, hfb.2.1, ?_, fun _ => ⟨n0, p0⟩⟩
    · show rd_size (malloc_take h b.addr).mem b.addr = b.size
      unfold malloc_take
      rw [ls.size_eq _ hs]
      simp (disch := omega) only [hdr_rw, hfb.1]
    · show rd_isUsed (malloc_take h b.addr).mem b.addr = 1
      unfold malloc_take
      rw [ls.used_eq _ hs]
      simp (disch := omega) only [hdr_rw]
  · intro t ht
    simp only [List.mem_append, List.mem_cons] at ht
    rcases ht with ht | rfl | ht
    · obtain ⟨x, hx, h3, h4⟩ := (mem_frees _ _).1 ht
      exact ⟨x, by simp [hx], h4, Or.inl h3⟩
    · exact ⟨{ b with used := true }, by simp, rfl, Or.inr rfl⟩
    · obtain ⟨x, hx, h3, h4⟩ := (mem_frees _ _).1 ht
      exact ⟨x, by simp [hx], h4, Or.inl h3⟩

/-! ## coalesce on the block sequence -/

theorem rep_coalesce (h : Heap) (pre post : List Blk) (c n : Blk) (k : Nat)
    (hr : RepX h (pre ++ c :: n :: post) k) (hc : c.used = false) (hn : n.used = false)
    (hck : c.addr ≠ k) (hnk : n.addr ≠ k) :
    RepX (coalesce h c.addr) (pre ++ merge c n :: post) k := by
  have hfr : frees (pre ++ c :: n :: post) = frees pre ++ c.addr :: n.addr :: frees post := by
    rw [frees_append, frees_cons, frees_cons, hc, hn]; rfl
  have hfr2 : frees (pre ++ merge c n :: post) = frees pre ++ c.addr :: frees post :=
    frees_mid pre post _ rfl
  have hd := hr.dll
  rw [hfr] at hd
  obtain ⟨d2, s1, -, -, -, -, -, -, -⟩ := coalesce_spec h _ _ _ _ hd
  have ls := coalesce_step h _ _ _ _ hd
  have hst : heapStart (coalesce h c.addr) = heapStart h := by
    unfold heapStart; rw [ls.start_eq, ls.brk_eq]
  have ht := hr.tiles
  have htn : n.addr = c.addr + 24 + c.cap := by
    rw [tiles_append_cons] at ht
    exact ht.2.1
  have ht2 : Tiles (heapStart h) (pre ++ merge c n :: post) h.brk := by
    rw [tiles_append_cons] at ht ⊢
    refine ⟨ht.1, ?_⟩
    have := ht.2.2
    have e : (merge c n).addr + 24 + (merge c n).cap = c.addr + 24 + c.cap + 24 + n.cap := by
      show c.addr + 24 + (c.cap + 24 + n.cap) = _
      omega
    rw [e]
    exact this
  have hfc := hr.fields c (by simp) hck
  have hfn := hr.fields n (by simp) hnk
  have hsa := tiles_sepAll _ _ _ hr.tiles
  have hua := tiles_used_apart _ _ _ hr.tiles
  rw [hfr] at hsa hua
  unfold RepX
  rw [hfr2]
  refine ⟨by rw [hst]; exact hr.start_pos, by rw [hst, ls.brk_eq]; exact ht2,
    by rw [ls.brk_eq, ls.limit_eq]; exact hr.brk_le, by rw [ls.limit_eq]; exact hr.limit_le,
    ?_, d2⟩
  intro x hx hxk
  have key : ∀ y ∈ pre ++ c :: n :: post, y ≠ c → y ≠ n → y.addr ≠ k →
      FieldsOK (coalesce h c.addr).mem y := by
    intro y hy hyc hyn hyk
    refine fields_linkstep _ _ _ _ y ls (hsa y hy) ?_ (hua y hy) (hr.fields y hy hyk)
    intro hmem
    simp only [List.mem_cons, List.mem_singleton, List.not_mem_nil, or_false] at hmem
    rcases hmem with e | e
    · exact hyc (same_addr_eq _ _ _ hr.tiles y c hy (by simp) e)
    · exact hyn (same_addr_eq _ _ _ hr.tiles y n hy (by simp) e)
  have hsp := tiles_split _ _ _ _ _ hr.tiles
  have hsp2 := tiles_split _ _ (pre ++ [c]) post n (by
    rw [List.append_assoc, List.singleton_append]; exact hr.tiles)
  simp only [List.mem_append, List.mem_cons] at hx
  rcases hx with hx | rfl | hx
  · have h1 := hsp.1 x hx
    refine key x (by simp [hx]) ?_ ?_ hxk
    · rintro rfl; omega
    · rintro rfl; omega
  · refine ⟨?_, ?_, ?_, fun hu => absurd hu (by simp [merge])⟩
    · show rd_size (coalesce h c.addr).mem c.addr = (c.size + 24 + n.size) % 4294967296
      rw [s1, hfc.1, hfn.1]
    · show (c.size + 24 + n.size) % 4294967296 ≤ c.cap + 24 + n.cap
      have := Nat.mod_le (c.size + 24 + n.size) 4294967296
      have := hfc.2.1
      have := hfn.2.1
      omega
    · show rd_isUsed (coalesce h c.addr).mem c.addr = 0
      rw [ls.used_eq _ (hsa c (by simp)), hfc.2.2.1, hc]
      rfl
  · have h1 := hsp.2.1 x (by simp [hx])
    refine key x (by simp [hx]) ?_ ?_ hxk
    · rintro rfl; omega
    · rintro rfl
      have := hsp2.2.1 x hx
      omega

/-! ## The adjacency checks of split and free -/

theorem dll_mid (h : Heap) (L1 L2 : List Nat) (c : Nat) (hd : DLL h (L1 ++ c :: L2)) :
    h.head_free = headOr L1 c ∧ h.tail_free = lastOr L2 c ∧
    rd_prev_free h.mem c = lastOr L1 0 ∧ rd_next_free h.mem c = headOr L2 0 := by
  obtain ⟨hh, ht, hl, -, -⟩ := hd
  rw [headOr_append_cons] at hh
  rw [lastOr_append_cons] at ht
  rw [seg_append] at hl
  simp only [Seg] at hl
  exact ⟨hh, ht, hl.2.1, hl.2.2.1⟩

/-- The check of lines 168 and 245: it holds exactly when the next block is
free and starts where the `size` field of `b` ends the block. -/
theorem fwd_check (h : Heap) (pre post : List Blk) (b : Blk) (k : Nat)
    (hr : RepX h (pre ++ b :: post) k) (hb : b.used = false) (hbk : b.addr ≠ k) :
    (b.addr ≠ h.tail_free ∧
      rd_next_free h.mem b.addr = (b.addr + HDR + rd_size h.mem b.addr) % W64) ↔
    (∃ p r, post = p :: r ∧ p.used = false ∧ b.size = b.cap) := by
  have hd := hr.dll
  rw [frees_mid pre post b hb] at hd
  obtain ⟨-, ht, -, hn⟩ := dll_mid _ _ _ _ hd
  have hf := hr.fields b (by simp) hbk
  have hsp := tiles_split _ _ _ _ _ hr.tiles
  have hlim := hr.limit_le
  have hbl := hr.brk_le
  have hpos := (hd.pos b.addr (by simp)).1
  rw [ht, hn, hf.1]
  simp only [HDR, W64]
  have hsz := hf.2.1
  rw [Nat.mod_eq_of_lt (by omega)]
  rcases post with _ | ⟨p, r⟩
  · simp
  · have htl := hr.tiles
    rw [tiles_append_cons] at htl
    have hp : p.addr = b.addr + 24 + b.cap := htl.2.1
    by_cases hpu : p.used = true
    · rw [frees_cons, if_pos hpu]
      constructor
      · rintro ⟨h1, h2⟩
        exfalso
        have hfb := tiles_frees_bounds _ _ _ htl.2.2
        rcases headOr_mem_or (frees r) 0 with e | e
        · omega
        · have := hfb _ e
          omega
      · rintro ⟨p2, r2, e, h1, -⟩
        simp only [List.cons.injEq] at e
        rw [← e.1, hpu] at h1
        exact absurd h1 (by simp)
    · rw [frees_cons, if_neg hpu]
      simp only [headOr_cons, lastOr_cons]
      have hfb := tiles_frees_bounds _ _ _ htl.2.2
      have hge := lastOr_ge (frees r) p.addr p.addr (le_refl _)
        (fun y hy => by have := hfb y hy; omega)
      constructor
      · rintro ⟨h1, h2⟩
        exact ⟨p, r, rfl, by simpa using hpu, by omega⟩
      · rintro ⟨p2, r2, e, h1, h2⟩
        exact ⟨by omega, by omega⟩

/-- The check of line 249: it holds exactly when the block before `b` is free
and its `size` field ends it where `b` starts. -/
theorem bwd_check (h : Heap) (pre post : List Blk) (b : Blk)
    (hr : RepX h (pre ++ b :: post) 0) (hb : b.used = false) :
    (b.addr ≠ h.head_free ∧
      (rd_prev_free h.mem b.addr + HDR +
        rd_size h.mem (rd_prev_free h.mem b.addr)) % W64 = b.addr) ↔
    (∃ p q, pre = p ++ [q] ∧ q.used = false ∧ q.size = q.cap) := by
  have hd := hr.dll
  rw [frees_mid pre post b hb] at hd
  obtain ⟨hh, -, hp, -⟩ := dll_mid _ _ _ _ hd
  have hsp := tiles_split _ _ _ _ _ hr.tiles
  have hlim := hr.limit_le
  have hbl := hr.brk_le
  have hpos := (hd.pos b.addr (by simp)).1
  have hst := hr.start_pos
  rw [hh, hp]
  simp only [HDR, W64]
  have key : ∀ z ∈ frees pre, ∃ x ∈ pre, x.addr = z ∧ x.used = false ∧
      rd_size h.mem z = x.size ∧ x.size ≤ x.cap := by
    intro z hz
    obtain ⟨x, hx, h1, h2⟩ := (mem_frees _ _).1 hz
    have := hsp.1 x hx
    have hf := hr.fields x (by simp [hx]) (by omega)
    exact ⟨x, hx, h2, h1, by rw [← h2]; exact hf.1, hf.2.1⟩
  rcases List.eq_nil_or_concat pre with rfl | ⟨p, q, rfl⟩
  · simp
  · rw [List.concat_eq_append] at *
    have hq := hsp.1 q (by simp)
    have htl := hr.tiles
    rw [tiles_append_cons, tiles_append_cons] at htl
    have hqa : q.addr + 24 + q.cap = b.addr := htl.1.2
    have hfb := tiles_frees_bounds _ _ _ htl.1.1
    by_cases hqu : q.used = true
    · rw [frees_append, frees_cons, if_pos hqu]
      simp only [frees_nil, List.append_nil]
      constructor
      · rintro ⟨h1, h2⟩
        exfalso
        cases hfp : frees p with
        | nil => rw [hfp] at h1; exact h1 rfl
        | cons u v =>
          have e : lastOr (frees p) 0 ∈ frees p := lastOr_mem _ _ (by rw [hfp]; simp)
          obtain ⟨x, hx, h3, h4, h5, h6⟩ := key (lastOr (frees p) 0)
            (by rw [frees_append]; exact List.mem_append_left _ e)
          have hxp : x ∈ p := by
            rcases List.mem_append.1 hx with h7 | h7
            · exact h7
            · simp only [List.mem_singleton] at h7
              rw [h7, hqu] at h4
              exact absurd h4 (by simp)
          have hx2 := tiles_bounds _ _ _ htl.1.1 x hxp
          rw [h5, ← h3] at h2
          rw [Nat.mod_eq_of_lt (by omega)] at h2
          omega
      · rintro ⟨p2, q2, e, h1, -⟩
        have := List.append_inj_right' e (by simp)
        simp only [List.cons.injEq, and_true] at this
        rw [← this, hqu] at h1
        exact absurd h1 (by simp)
    · have hfq : frees (p ++ [q]) = frees p ++ [q.addr] := by
        rw [frees_append, frees_cons, if_neg hqu]; rfl
      rw [hfq, lastOr_append_cons, headOr_append_cons]
      simp only [lastOr_nil]
      obtain ⟨x, hx, h3, h4, h5, h6⟩ := key q.addr (by rw [hfq]; simp)
      have hxq := same_addr_eq _ _ _ hr.tiles x q
        (List.mem_append_left _ hx) (by simp) h3
      subst hxq
      rw [h5]
      rw [Nat.mod_eq_of_lt (by omega)]
      have hle := headOr_le (frees p) x.addr x.addr (le_refl _)
        (fun y hy => by have := hfb y hy; omega)
      constructor
      · rintro ⟨h1, h2⟩
        exact ⟨p, x, rfl, by simpa using hqu, by omega⟩
      · rintro ⟨p2, q2, e, h1, h2⟩
        have := List.append_inj_right' e (by simp)
        simp only [List.cons.injEq, and_true] at this
        subst this
        exact ⟨by omega, by omega⟩

/-! ## The two coalescing steps on the block sequence -/

theorem mergePrev_snoc (p : List Blk) (q b : Blk) (post : List Blk) :
    mergePrev (p ++ [q]) b post =
      p ++ (if q.used = false ∧ q.size = q.cap then merge q b :: post else q :: b :: post) := by
  induction p with
  | nil => simp only [List.nil_append, mergePrev]
  | cons x r ih =>
    cases r with
    | nil =>
      simp only [List.nil_append, List.cons_append, mergePrev] at ih ⊢
    | cons y r2 =>
      exact congrArg (fun l => x :: l) ih

theorem mergePrev_keep (pre : List Blk) (b : Blk) (post : List Blk)
    (h : ¬ ∃ p q, pre = p ++ [q] ∧ q.used = false ∧ q.size = q.cap) :
    mergePrev pre b post = pre ++ b :: post := by
  rcases List.eq_nil_or_concat pre with rfl | ⟨p, q, rfl⟩
  · rfl
  · rw [List.concat_eq_append, mergePrev_snoc, if_neg]
    · simp
    · intro hq
      exact h ⟨p, q, by rw [List.concat_eq_append], hq⟩

theorem rep_fwd (h : Heap) (pre post : List Blk) (b : Blk) (k : Nat)
    (hr : RepX h (pre ++ b :: post) k) (hb : b.used = false) (hbk : b.addr ≠ k)
    (hpk : ∀ y ∈ post, y.addr ≠ k) :
    RepX (if b.addr ≠ h.tail_free ∧
        rd_next_free h.mem b.addr = (b.addr + HDR + rd_size h.mem b.addr) % W64
      then coalesce h b.addr else h)
      (pre ++ (mergeNext b post).1 :: (mergeNext b post).2) k := by
  have hc := fwd_check h pre post b k hr hb hbk
  by_cases hx : ∃ p r, post = p :: r ∧ p.used = false ∧ b.size = b.cap
  · rw [if_pos (hc.2 hx)]
    obtain ⟨p, r, rfl, hp, he⟩ := hx
    simp only [mergeNext]
    rw [if_pos ⟨hp, he⟩]
    exact rep_coalesce h pre r b p k hr hb hp hbk (hpk p (by simp))
  · rw [if_neg (fun hn => hx (hc.1 hn))]
    have e : mergeNext b post = (b, post) := by
      rcases post with _ | ⟨p, r⟩
      · rfl
      · simp only [mergeNext]
        rw [if_neg]
        intro hq
        exact hx ⟨p, r, rfl, hq.1, hq.2⟩
    rw [e]
    exact hr

theorem rep_bwd (h : Heap) (pre post : List Blk) (b : Blk)
    (hr : RepX h (pre ++ b :: post) 0) (hb : b.used = false) :
    RepX (if b.addr ≠ h.head_free ∧
        (rd_prev_free h.mem b.addr + HDR +
          rd_size h.mem (rd_prev_free h.mem b.addr)) % W64 = b.addr
      then coalesce h (rd_prev_free h.mem b.addr) else h)
      (mergePrev pre b post) 0 := by
  have hc := bwd_check h pre post b hr hb
  by_cases hx : ∃ p q, pre = p ++ [q] ∧ q.used = false ∧ q.size = q.cap
  · rw [if_pos (hc.2 hx)]
    obtain ⟨p, q, rfl, hq, he⟩ := hx
    rw [mergePrev_snoc, if_pos ⟨hq, he⟩]
    have hd := hr.dll
    have hfq : frees (p ++ [q]) = frees p ++ [q.addr] := by
      rw [frees_append, frees_cons, hq]; rfl
    rw [frees_mid _ post b hb, hfq] at hd
    obtain ⟨-, -, hpv, -⟩ := dll_mid _ _ _ _ hd
    rw [lastOr_append_cons] at hpv
    simp only [lastOr_nil] at hpv
    rw [hpv]
    have hr2 : RepX h (p ++ q :: b :: post) 0 := by
      have e : p ++ [q] ++ b :: post = p ++ q :: b :: post := by simp
      rw [← e]; exact hr
    have hpos := hr.start_pos
    have hsp := tiles_split _ _ _ _ _ hr.tiles
    have h1 := hsp.1 q (by simp)
    exact rep_coalesce h p post q b 0 hr2 hq hb (by omega) (by omega)
  · rw [if_neg (fun hn => hx (hc.1 hn)), mergePrev_keep _ _ _ hx]
    exact hr

/-! ## split on the block sequence -/

theorem sext32_small (s : Nat) (h : s < 2147483648) : sext32 s = s := by
  unfold sext32 W32
  rw [Nat.mod_eq_of_lt (by omega), if_pos (by omega)]

theorem tiles_snoc (a e : Nat) (bs : List Blk) (b : Blk) :
    Tiles a (bs ++ [b]) e ↔ Tiles a bs b.addr ∧ b.addr + 24 + b.cap = e := by
  rw [tiles_append_cons]
  rfl

theorem rep_split_finish (h : Heap) (pre rest : List Blk) (c : Blk) (s : Nat)
    (hr : RepX h (pre ++ c :: rest) c.addr) (hu : c.used = true) (hsz : c.size = s)
    (hcap : c.cap = s) (hs : s < 4294967296) :
    RepX (split_finish h c.addr s) (pre ++ c :: rest) 0 := by
  have hua := tiles_used_apart _ _ _ hr.tiles c (by simp) hu
  have hm : ∀ z, (z < c.addr ∨ c.addr + 24 ≤ z) → (split_finish h c.addr s).mem z = h.mem z := by
    intro z hz
    simp (disch := omega) only [split_finish, out_rw]
  refine ⟨hr.start_pos, hr.tiles, hr.brk_le, hr.limit_le, ?_, ?_⟩
  · intro x hx _
    by_cases e : x.addr = c.addr
    · have := same_addr_eq _ _ _ hr.tiles x c hx (by simp) e
      subst this
      refine ⟨?_, by omega, ?_, fun _ => ⟨?_, ?_⟩⟩
      · simp (disch := omega) only [split_finish, hdr_rw, hsz]
        exact Nat.mod_eq_of_lt hs
      · simp (disch := omega) only [split_finish, hdr_rw, hu, if_true]
      · simp (disch := omega) only [split_finish, hdr_rw]
      · simp (disch := omega) only [split_finish, hdr_rw]
    · exact fields_wr_other h.mem _ _ _ _ c.addr hr.tiles ⟨c, by simp, rfl⟩ hm x hx e
        (hr.fields x hx e)
  · refine dll_of_bytes h _ _ c.addr hr.dll ?_ hm rfl rfl
    intro a ha
    have := hua a ha
    unfold Apart at this ⊢
    omega

theorem rep_split (h : Heap) (pre post : List Blk) (b : Blk) (s : Nat)
    (hr : RepX h (pre ++ b :: post) 0) (hb : b.used = false) (hs : s < 2147483648)
    (hbs : s + 24 < b.size) :
    RepX (split h b.addr s) (pre ++ splitAt b s post) 0 := by
  have hpos := hr.start_pos
  have hsp := tiles_split _ _ _ _ _ hr.tiles
  have hb0 : b.addr ≠ 0 := by omega
  have hfb := hr.fields b (by simp) hb0
  have hlt := rd_size_lt h.mem b.addr
  rw [hfb.1] at hlt
  have hcap := hfb.2.1
  have hlim := hr.limit_le
  have hbl := hr.brk_le
  have hfr := frees_mid pre post b hb
  have hd := hr.dll
  rw [hfr] at hd
  -- the address of the new header and the value stored as its size
  have en : (b.addr + HDR + sext32 s) % W64 = b.addr + 24 + s := by
    rw [sext32_small s hs]
    simp only [HDR, W64]
    exact Nat.mod_eq_of_lt (by omega)
  have ev : ((b.size + W32 - s % W32) % W32 + W64 - HDR) % W64 = b.size - s - 24 := by
    simp only [HDR, W64, W32]
    omega
  have htm : Tiles (heapStart h) (pre ++ splitHead b s :: splitRest b s :: post) h.brk := by
    have ht := hr.tiles
    rw [tiles_append_cons] at ht ⊢
    refine ⟨ht.1, rfl, ?_⟩
    have e : b.addr + 24 + s + 24 + (b.cap - s - 24) = b.addr + 24 + b.cap := by omega
    show Tiles (b.addr + 24 + s + 24 + (b.cap - s - 24)) post h.brk
    rw [e]
    exact ht.2
  have hfm : frees (pre ++ splitHead b s :: splitRest b s :: post) =
      frees pre ++ (b.addr + 24 + s) :: frees post := by
    rw [frees_append, frees_cons, frees_cons]; rfl
  have hm : ∀ z, (z < b.addr + 24 + s ∨ b.addr + 24 + s + 24 ≤ z) →
      (wr_size (wr_isUsed h.mem (b.addr + 24 + s) 0) (b.addr + 24 + s)
        (b.size - s - 24)) z = h.mem z := by
    intro z hz
    simp (disch := omega) only [out_rw]
  have hfbp := tiles_frees_bounds _ _ _ ((tiles_append_cons _ _ _ _ _).1 hr.tiles).1
  have hfbq := tiles_frees_bounds _ _ _ ((tiles_append_cons _ _ _ _ _).1 hr.tiles).2
  -- the header of the remainder is written
  have h1 : PreRep { h with
        mem := wr_size (wr_isUsed h.mem (b.addr + 24 + s) 0) (b.addr + 24 + s)
          (b.size - s - 24) }
      (pre ++ splitHead b s :: splitRest b s :: post)
      (frees pre ++ b.addr :: frees post) b.addr := by
    refine ⟨hr.start_pos, htm, hr.brk_le, hr.limit_le, ?_, ?_⟩
    · intro x hx hxb
      by_cases e : x.addr = b.addr + 24 + s
      · have := same_addr_eq _ _ _ htm x (splitRest b s) hx (by simp) e
        subst this
        refine ⟨?_, ?_, ?_, fun hu => absurd hu (by simp [splitRest])⟩
        · show rd_size _ (b.addr + 24 + s) = b.size - s - 24
          simp (disch := omega) only [hdr_rw]
          exact Nat.mod_eq_of_lt (by omega)
        · show b.size - s - 24 ≤ b.cap - s - 24
          omega
        · show rd_isUsed _ (b.addr + 24 + s) = 0
          simp (disch := omega) only [hdr_rw]
      · have hx2 : x ∈ pre ++ b :: post := by
          simp only [List.mem_append, List.mem_cons] at hx ⊢
          rcases hx with hx | rfl | rfl | hx
          · exact Or.inl hx
          · exact absurd rfl hxb
          · exact absurd rfl e
          · exact Or.inr (Or.inr hx)
        have hx0 : x.addr ≠ 0 := by
          have := (tiles_bounds _ _ _ hr.tiles x hx2).1
          omega
        exact fields_wr_other h.mem _ _ _ _ (b.addr + 24 + s) htm
          ⟨splitRest b s, by simp, rfl⟩ hm x hx e (hr.fields x hx2 hx0)
    · refine dll_of_bytes h _ _ (b.addr + 24 + s) hd ?_ hm rfl rfl
      intro a ha
      simp only [List.mem_append, List.mem_cons] at ha
      unfold Apart
      rcases ha with ha | rfl | ha
      · have := hfbp a ha; omega
      · omega
      · have := hfbq a ha; omega
  -- the remainder takes the place of the block in the free list
  obtain ⟨d2, ls⟩ := split_relink_spec _ (frees pre) (frees post) b.addr (b.addr + 24 + s)
    h1.dll (by omega) (fun y hy => by have := hfbq y hy; omega) (by omega)
  have h2 := prerep_linkstep _ _ _ _ _ _ _ _ h1 ls.toX ?_ (by simp) d2
  · rw [← hfm] at h2
    -- the forward coalescing check
    have h3 := rep_fwd _ (pre ++ [splitHead b s]) post (splitRest b s) b.addr
      (by rw [List.append_assoc, List.singleton_append]; exact h2) rfl
      (by show b.addr + 24 + s ≠ b.addr; omega)
      (fun y hy => by have := hsp.2.1 y hy; omega)
    rw [List.append_assoc, List.singleton_append] at h3
    -- the block becomes a used block of `s` bytes
    have h4 := rep_split_finish _ pre _ (splitHead b s) s h3 rfl rfl rfl (by omega)
    have e : split h b.addr s = split_finish (if b.addr + 24 + s ≠
        (split_relink { h with
          mem := wr_size (wr_isUsed h.mem (b.addr + 24 + s) 0) (b.addr + 24 + s)
            (b.size - s - 24) } b.addr (b.addr + 24 + s)).tail_free ∧
        rd_next_free (split_relink { h with
          mem := wr_size (wr_isUsed h.mem (b.addr + 24 + s) 0) (b.addr + 24 + s)
            (b.size - s - 24) } b.addr (b.addr + 24 + s)).mem (b.addr + 24 + s) =
        (b.addr + 24 + s + HDR + rd_size (split_relink { h with
          mem := wr_size (wr_isUsed h.mem (b.addr + 24 + s) 0) (b.addr + 24 + s)
            (b.size - s - 24) } b.addr (b.addr + 24 + s)).mem (b.addr + 24 + s)) % W64
        then coalesce (split_relink { h with
          mem := wr_size (wr_isUsed h.mem (b.addr + 24 + s) 0) (b.addr + 24 + s)
            (b.size - s - 24) } b.addr (b.addr + 24 + s)) (b.addr + 24 + s)
        else (split_relink { h with
          mem := wr_size (wr_isUsed h.mem (b.addr + 24 + s) 0) (b.addr + 24 + s)
            (b.size - s - 24) } b.addr (b.addr + 24 + s))) b.addr s := by
      have e1 : rd_size (wr_isUsed h.mem (b.addr + 24 + s) 0) b.addr = b.size := by
        simp (disch := omega) only [hdr_rw, hfb.1]
      simp only [split, en, e1, ev]
    rw [e]
    exact h4
  · intro t ht
    simp only [List.mem_append, List.mem_cons] at ht
    rcases ht with ht | rfl | rfl | ht
    · obtain ⟨x, hx, h3, h4⟩ := (mem_frees _ _).1 ht
      exact ⟨x, by simp [hx], h4, Or.inl h3⟩
    · exact ⟨splitHead b s, by simp, rfl, Or.inr rfl⟩
    · exact ⟨splitRest b s, by simp, rfl, Or.inl rfl⟩
    · obtain ⟨x, hx, h3, h4⟩ := (mem_frees _ _).1 ht
      exact ⟨x, by simp [hx], h4, Or.inl h3⟩

/-! ## The list operations leave the break alone -/

theorem sameOS_refl (h : Heap) : SameOS h h := ⟨rfl, rfl, rfl, rfl⟩

theorem sameOS_trans (h h2 h3 : Heap) (a : SameOS h h2) (b : SameOS h2 h3) : SameOS h h3 :=
  ⟨b.1.trans a.1, b.2.1.trans a.2.1, b.2.2.1.trans a.2.2.1, b.2.2.2.trans a.2.2.2⟩

theorem coalesce_sameOS (h : Heap) (c : Nat) : SameOS h (coalesce h c) := by
  unfold coalesce SameOS
  simp only
  split <;> exact ⟨rfl, rfl, rfl, rfl⟩

theorem take_unlink_sameOS (h : Heap) (c : Nat) : SameOS h (take_unlink h c) := by
  unfold take_unlink SameOS
  simp only
  split <;> split <;> exact ⟨rfl, rfl, rfl, rfl⟩

theorem malloc_take_sameOS (h : Heap) (c : Nat) : SameOS h (malloc_take h c) := by
  unfold malloc_take
  exact take_unlink_sameOS _ _

theorem split_relink_sameOS (h : Heap) (c n : Nat) : SameOS h (split_relink h c n) := by
  unfold split_relink SameOS
  simp only
  split <;> split <;> exact ⟨rfl, rfl, rfl, rfl⟩

theorem split_sameOS (h : Heap) (c s : Nat) : SameOS h (split h c s) := by
  have key : ∀ h3, SameOS h h3 → SameOS h (split_finish h3 c s) :=
    fun h3 a => sameOS_trans _ _ _ a ⟨rfl, rfl, rfl, rfl⟩
  have k2 : ∀ (m : Mem) (n : Nat), SameOS h (split_relink { h with mem := m } c n) :=
    fun m n => sameOS_trans h { h with mem := m } _ ⟨rfl, rfl, rfl, rfl⟩
      (split_relink_sameOS _ _ _)
  unfold split
  simp only
  apply key
  split
  · exact sameOS_trans _ _ _ (k2 _ _) (coalesce_sameOS _ _)
  · exact k2 _ _

theorem link_before_sameOS (h : Heap) (n c : Nat) : SameOS h (link_before h n c) := by
  unfold link_before SameOS
  simp only
  split <;> exact ⟨rfl, rfl, rfl, rfl⟩

theorem link_last_sameOS (h : Heap) (n : Nat) : SameOS h (link_last h n) :=
  ⟨rfl, rfl, rfl, rfl⟩

/-! ## malloc extends the heap -/

theorem malloc_extend_ok (h : Heap) (s : Nat) (hok : h.brk + 24 + s ≤ h.limit) :
    malloc_extend h s = ({ h with
      mem := wr_prev_free (wr_next_free (wr_isUsed (wr_size h.mem h.brk s) h.brk 1) h.brk 0)
        h.brk 0
      brk := h.brk + 24 + s }, h.brk + 24) := by
  have h1 : h.brk + 24 ≤ h.limit := by omega
  simp [malloc_extend, sbrk, HDR, h1, hok]

theorem malloc_extend_failed (h : Heap) (s : Nat) (hok : ¬ h.brk + 24 + s ≤ h.limit) :
    (malloc_extend h s).1.sbrkFailed = true := by
  by_cases h1 : h.brk + 24 ≤ h.limit
  · simp [malloc_extend, sbrk, HDR, h1, hok]
  · simp only [malloc_extend, sbrk, HDR, h1, if_false]
    split <;> rfl

theorem rep_extend (h : Heap) (bs : List Blk) (s : Nat) (hr : RepX h bs 0)
    (hst : h.startOfHeap ≠ 0) (hs : s < 4294967296) (hok : h.brk + 24 + s ≤ h.limit) :
    RepX (malloc_extend h s).1
      (bs ++ [{ addr := h.brk, cap := s, size := s, used := true }]) 0 ∧
    (malloc_extend h s).2 = h.brk + 24 ∧
    (malloc_extend h s).1.brk = h.brk + 24 + s ∧
    (malloc_extend h s).1.limit = h.limit ∧
    (malloc_extend h s).1.startOfHeap = h.startOfHeap ∧
    (malloc_extend h s).1.sbrkFailed = h.sbrkFailed := by
  rw [malloc_extend_ok h s hok]
  refine ⟨?_, rfl, rfl, rfl, rfl, rfl⟩
  have hstart : heapStart h = h.startOfHeap := by unfold heapStart; rw [if_neg hst]
  have hpos := hr.start_pos
  have hle := tiles_le _ _ _ hr.tiles
  have hlim := hr.limit_le
  have htn : Tiles h.startOfHeap
      (bs ++ [{ addr := h.brk, cap := s, size := s, used := true }]) (h.brk + 24 + s) := by
    rw [tiles_snoc]
    have := hr.tiles
    rw [hstart] at this
    exact ⟨this, rfl⟩
  have hfr : frees (bs ++ [{ addr := h.brk, cap := s, size := s, used := true }]) = frees bs := by
    rw [frees_append, frees_cons]; simp
  have hm : ∀ z, (z < h.brk ∨ h.brk + 24 ≤ z) →
      (wr_prev_free (wr_next_free (wr_isUsed (wr_size h.mem h.brk s) h.brk 1) h.brk 0)
        h.brk 0) z = h.mem z := by
    intro z hz
    simp (disch := omega) only [out_rw]
  unfold RepX
  rw [hfr]
  refine ⟨?_, ?_, hok, hr.limit_le, ?_, ?_⟩
  · show 0 < heapStart { h with mem := _, brk := h.brk + 24 + s }
    unfold heapStart
    simp only
    rw [if_neg hst]
    omega
  · show Tiles (heapStart { h with mem := _, brk := h.brk + 24 + s }) _ (h.brk + 24 + s)
    unfold heapStart
    simp only
    rw [if_neg hst]
    exact htn
  · intro x hx _
    by_cases e : x.addr = h.brk
    · have := same_addr_eq _ _ _ htn x { addr := h.brk, cap := s, size := s, used := true }
        hx (by simp) e
      subst this
      refine ⟨?_, le_refl _, ?_, fun _ => ⟨?_, ?_⟩⟩
      · simp (disch := omega) only [hdr_rw]
        exact Nat.mod_eq_of_lt hs
      · simp (disch := omega) only [hdr_rw, if_true]
      · simp (disch := omega) only [hdr_rw]
      · simp (disch := omega) only [hdr_rw]
    · have hx2 : x ∈ bs := by
        rcases List.mem_append.1 hx with h1 | h1
        · exact h1
        · simp only [List.mem_singleton] at h1
          subst h1
          exact absurd rfl e
      have hx0 : x.addr ≠ 0 := by
        have := (tiles_bounds _ _ _ hr.tiles x hx2).1
        omega
      exact fields_wr_other h.mem _ _ _ _ h.brk htn
        ⟨{ addr := h.brk, cap := s, size := s, used := true }, by simp, rfl⟩ hm x hx e
        (hr.fields x hx2 hx0)
  · refine dll_of_bytes h _ _ h.brk hr.dll ?_ hm rfl rfl
    intro a ha
    have := tiles_frees_bounds _ _ _ hr.tiles a ha
    unfold Apart
    omega

/-! ## The search loop of malloc -/

theorem asc_length (L : List Nat) (lo n : Nat) (h : Asc L)
    (hb : ∀ a ∈ L, lo ≤ a ∧ a < n) : L.length ≤ n - lo := by
  induction L generalizing lo with
  | nil => simp
  | cons a r ih =>
    rw [asc_cons] at h
    have ha := hb a (by simp)
    have := ih (a + 1) h.1 (fun y hy => by
      have h1 := h.2 y hy
      have h2 := hb y (List.mem_cons_of_mem _ hy)
      omega)
    simp only [List.length_cons]
    omega

theorem frees_length_lt (h : Heap) (bs : List Blk) (k : Nat) (hr : RepX h bs k) :
    (frees bs).length < h.brk + 1 := by
  have := asc_length (frees bs) 0 h.brk hr.dll.asc (fun a ha => by
    have := tiles_frees_bounds _ _ _ hr.tiles a ha
    omega)
  omega

theorem frees_length_append (pre suf : List Blk) :
    (frees suf).length ≤ (frees (pre ++ suf)).length := by
  rw [frees_append, List.length_append]
  omega

theorem malloc_scan_spec (h : Heap) (s : Nat) (hs : s < 2147483648) :
    ∀ (suf pre : List Blk) (k : Nat), RepX h (pre ++ suf) 0 → (frees suf).length < k →
      (scanBlocks s suf = none → malloc_scan h s k (headOr (frees suf) 0) = some none) ∧
      (∀ res, scanBlocks s suf = some res → ∃ h2,
        malloc_scan h s k (headOr (frees suf) 0) = some (some (h2, res.2 + 24)) ∧
        RepX h2 (pre ++ res.1) 0 ∧ SameOS h h2) := by
  intro suf
  induction suf with
  | nil =>
    intro pre k hr hk
    rcases k with _ | k
    · simp at hk
    · constructor
      · intro _
        simp [malloc_scan]
      · intro res hres
        simp [scanBlocks] at hres
  | cons b r ih =>
    intro pre k hr hk
    have hr2 : RepX h ((pre ++ [b]) ++ r) 0 := by
      rw [List.append_assoc, List.singleton_append]; exact hr
    by_cases hu : b.used = true
    · have hfr : frees (b :: r) = frees r := by rw [frees_cons, if_pos hu]
      rw [hfr] at hk ⊢
      obtain ⟨i1, i2⟩ := ih (pre ++ [b]) k hr2 hk
      have hsc : scanBlocks s (b :: r) =
          (scanBlocks s r).map (fun res => (b :: res.1, res.2)) := by
        simp [scanBlocks, hu]
      rw [hsc]
      constructor
      · intro hn
        cases hq : scanBlocks s r with
        | none => exact i1 hq
        | some v => rw [hq] at hn; simp at hn
      · intro res hres
        cases hq : scanBlocks s r with
        | none => rw [hq] at hres; simp at hres
        | some v =>
          rw [hq] at hres
          simp only [Option.map_some', Option.some.injEq] at hres
          obtain ⟨h2, e1, e2, e3⟩ := i2 v hq
          subst hres
          refine ⟨h2, e1, ?_, e3⟩
          rw [List.append_assoc, List.singleton_append] at e2
          exact e2
    · have hbf : b.used = false := by simpa using hu
      have hfr : frees (b :: r) = b.addr :: frees r := by rw [frees_cons, if_neg hu]
      rw [hfr] at hk ⊢
      simp only [headOr_cons]
      rcases k with _ | k
      · simp at hk
      simp only [List.length_cons, Nat.add_lt_add_iff_right] at hk
      have hpos := hr.start_pos
      have hsp := tiles_split _ _ _ _ _ hr.tiles
      have hb0 : b.addr ≠ 0 := by omega
      have hfb := hr.fields b (by simp) hb0
      have hlim := hr.limit_le
      have hbl := hr.brk_le
      have hd := hr.dll
      rw [frees_mid pre r b hbf] at hd
      obtain ⟨-, -, -, hnx⟩ := dll_mid _ _ _ _ hd
      have ep : (b.addr + HDR) % W64 = b.addr + 24 := by
        simp only [HDR, W64]
        exact Nat.mod_eq_of_lt (by omega)
      have es : (s + HDR) % W64 = s + 24 := by
        simp only [HDR, W64]
        exact Nat.mod_eq_of_lt (by omega)
      unfold malloc_scan
      rw [if_neg hb0, hfb.1, ep, es, hnx]
      by_cases c1 : b.size = s ∨ (b.size > s ∧ b.size - s < HDR)
      · rw [if_pos c1]
        have hsc : scanBlocks s (b :: r) = some ({ b with used := true } :: r, b.addr) := by
          simp only [scanBlocks]
          rw [if_pos ⟨hbf, by simpa [HDR] using c1⟩]
        rw [hsc]
        constructor
        · intro hn; simp at hn
        · intro res hres
          simp only [Option.some.injEq] at hres
          subst hres
          exact ⟨_, rfl, rep_take h pre r b hr hbf, malloc_take_sameOS _ _⟩
      · rw [if_neg c1]
        have c1b : ¬ (b.used = false ∧ (b.size = s ∨ (b.size > s ∧ b.size - s < 24))) := by
          intro hc
          exact c1 (by simpa [HDR] using hc.2)
        by_cases c2 : b.size > s + 24
        · rw [if_pos c2]
          have hsc : scanBlocks s (b :: r) = some (splitAt b s r, b.addr) := by
            simp only [scanBlocks]
            rw [if_neg c1b, if_pos ⟨hbf, c2⟩]
          rw [hsc]
          constructor
          · intro hn; simp at hn
          · intro res hres
            simp only [Option.some.injEq] at hres
            subst hres
            exact ⟨_, rfl, rep_split h pre r b s hr hbf hs c2, split_sameOS _ _ _⟩
        · rw [if_neg c2]
          have c2b : ¬ (b.used = false ∧ b.size > s + 24) := fun hc => c2 hc.2
          obtain ⟨i1, i2⟩ := ih (pre ++ [b]) k hr2 hk
          have hsc : scanBlocks s (b :: r) =
              (scanBlocks s r).map (fun res => (b :: res.1, res.2)) := by
            simp only [scanBlocks]
            rw [if_neg c1b, if_neg c2b]
          rw [hsc]
          constructor
          · intro hn
            cases hq : scanBlocks s r with
            | none => exact i1 hq
            | some v => rw [hq] at hn; simp at hn
          · intro res hres
            cases hq : scanBlocks s r with
            | none => rw [hq] at hres; simp at hres
            | some v =>
              rw [hq] at hres
              simp only [Option.map_some', Option.some.injEq] at hres
              obtain ⟨h2, e1, e2, e3⟩ := i2 v hq
              subst hres
              refine ⟨h2, e1, ?_, e3⟩
              rw [List.append_assoc, List.singleton_append] at e2
              exact e2

/-! ## malloc on the block sequence -/

theorem rep_init (h : Heap) (bs : List Blk) (hr : RepX h bs 0) :
    RepX (malloc_init h) bs 0 ∧ (malloc_init h).startOfHeap ≠ 0 ∧
    (malloc_init h).brk = h.brk ∧ (malloc_init h).limit = h.limit ∧
    (malloc_init h).sbrkFailed = h.sbrkFailed ∧ (malloc_init h).mem = h.mem ∧
    (malloc_init h).startOfHeap = heapStart h := by
  unfold malloc_init
  by_cases h0 : h.startOfHeap = 0
  · rw [if_pos h0]
    have hle := hr.brk_le
    have hst : heapStart h = h.brk := by unfold heapStart; rw [if_pos h0]
    have hpos := hr.start_pos
    rw [hst] at hpos
    have e : sbrk h 0 = (h, h.brk) := by
      unfold sbrk
      rw [if_pos (by omega)]
      rfl
    rw [e]
    refine ⟨?_, ?_, rfl, rfl, rfl, rfl, hst.symm⟩
    · have hs2 : heapStart { h with startOfHeap := h.brk } = heapStart h := by
        rw [hst]
        unfold heapStart
        simp only
        rw [if_neg (by omega)]
      refine ⟨?_, ?_, hr.brk_le, hr.limit_le, hr.fields, ?_⟩
      · rw [hs2]; exact hr.start_pos
      · rw [hs2]; exact hr.tiles
      · exact ⟨hr.dll.head, hr.dll.tail, hr.dll.seg, hr.dll.asc, hr.dll.pos⟩
    · show h.brk ≠ 0
      omega
  · rw [if_neg h0]
    refine ⟨hr, h0, rfl, rfl, rfl, rfl, ?_⟩
    unfold heapStart
    rw [if_neg h0]

theorem malloc_spec (h : Heap) (bs : List Blk) (s : Nat) (hr : RepX h bs 0)
    (hs : s < 2147483648) :
    ∃ h2 p, malloc h s = some (h2, p) ∧
      (scanBlocks s bs ≠ none ∨ h.brk + 24 + s ≤ h.limit →
        RepX h2 (mallocBlocks s h.brk bs).1 0 ∧ p = (mallocBlocks s h.brk bs).2 + 24 ∧
        h2.sbrkFailed = h.sbrkFailed ∧ h2.limit = h.limit ∧ h2.startOfHeap ≠ 0 ∧
        h2.startOfHeap = heapStart h ∧
        h2.brk = (if (scanBlocks s bs).isSome then h.brk else h.brk + 24 + s)) ∧
      (scanBlocks s bs = none → ¬ h.brk + 24 + s ≤ h.limit → h2.sbrkFailed = true) := by
  obtain ⟨r0, hst, hbrk, hlim, hfl, hmem, hsh⟩ := rep_init h bs hr
  have hk := frees_length_lt _ _ _ r0
  obtain ⟨i1, i2⟩ := malloc_scan_spec (malloc_init h) s hs bs [] (fuel (malloc_init h))
    (by simpa using r0) hk
  have hhead : (malloc_init h).head_free = headOr (frees bs) 0 := r0.dll.head
  unfold malloc
  rw [hhead]
  cases hq : scanBlocks s bs with
  | none =>
    rw [i1 hq]
    refine ⟨(malloc_extend (malloc_init h) s).1, (malloc_extend (malloc_init h) s).2, rfl,
      ?_, ?_⟩
    · intro hok
      have hok2 : h.brk + 24 + s ≤ h.limit := by
        rcases hok with h1 | h1
        · exact absurd rfl h1
        · exact h1
      obtain ⟨e1, e2, e3, e4, e5, e6⟩ := rep_extend (malloc_init h) bs s r0 hst (by omega)
        (by rw [hbrk, hlim]; exact hok2)
      have em : mallocBlocks s h.brk bs =
          (bs ++ [{ addr := h.brk, cap := s, size := s, used := true }], h.brk) := by
        simp only [mallocBlocks, hq]
      rw [em]
      rw [hbrk] at e1 e2 e3
      refine ⟨e1, e2, by rw [e6, hfl], by rw [e4, hlim], by rw [e5]; exact hst,
        by rw [e5]; exact hsh, ?_⟩
      rw [e3]
      rfl
    · intro _ hno
      exact malloc_extend_failed _ _ (by rw [hbrk, hlim]; exact hno)
  | some res =>
    obtain ⟨h2, e1, e2, e3⟩ := i2 res hq
    rw [e1]
    refine ⟨h2, res.2 + 24, rfl, ?_, ?_⟩
    · intro _
      have em : mallocBlocks s h.brk bs = res := by
        simp only [mallocBlocks, hq]
      rw [em]
      refine ⟨by simpa using e2, rfl, by rw [e3.2.2.2, hfl], by rw [e3.2.1, hlim],
        by rw [e3.2.2.1]; exact hst, by rw [e3.2.2.1]; exact hsh, ?_⟩
      rw [e3.1, hbrk]
      rfl
    · intro hn
      simp at hn

/-! ## free on the block sequence -/

theorem sgt64_iff (a b : Nat) (ha : a < 9223372036854775808) (hb : b < 9223372036854775808) :
    sgt64 a b ↔ b < a := by
  unfold sgt64 W64
  omega

theorem free_scan_spec (h : Heap) (meta : Nat) (hm : meta < 9223372036854775808) :
    ∀ (L1 L2 : List Nat) (p k : Nat), Seg h.mem p (L1 ++ L2) 0 →
      (∀ a ∈ L1, 0 < a ∧ a < meta) →
      (∀ y ∈ L2, meta < y ∧ y < 9223372036854775808) → L1.length < k →
      free_scan h meta k (headOr (L1 ++ L2) 0) =
        some (if headOr L2 0 = 0 then (h, false) else (link_before h meta (headOr L2 0), true)) := by
  intro L1
  induction L1 with
  | nil =>
    intro L2 p k hs h1 h2 hk
    rcases k with _ | k
    · simp at hk
    rcases L2 with _ | ⟨y, r⟩
    · simp [free_scan]
    · have hy := h2 y (by simp)
      simp only [List.nil_append, headOr_cons]
      unfold free_scan
      rw [if_neg (by omega), if_pos ((sgt64_iff _ _ hy.2 hm).2 hy.1), if_neg (by omega)]
  | cons a r ih =>
    intro L2 p k hs h1 h2 hk
    rcases k with _ | k
    · simp at hk
    have ha := h1 a (by simp)
    simp only [List.cons_append, headOr_cons]
    unfold free_scan
    rw [if_neg (by omega), if_neg (fun hc => by
      have := (sgt64_iff _ _ (by omega) hm).1 hc
      omega)]
    rw [List.cons_append] at hs
    obtain ⟨-, hn, hs2⟩ := hs
    have e : headOr (r ++ L2) 0 = headOr (r ++ L2) 0 := rfl
    rw [hn]
    exact ih L2 a k hs2 (fun x hx => h1 x (List.mem_cons_of_mem _ hx)) h2
      (by simpa using hk)

theorem mergeNext_addr (b : Blk) (post : List Blk) : (mergeNext b post).1.addr = b.addr := by
  rcases post with _ | ⟨p, r⟩
  · rfl
  · simp only [mergeNext]
    split <;> rfl

theorem mergeNext_used (b : Blk) (post : List Blk) (hb : b.used = false) :
    (mergeNext b post).1.used = false := by
  rcases post with _ | ⟨p, r⟩
  · exact hb
  · simp only [mergeNext]
    split
    · rfl
    · exact hb

/-- The block is marked free and linked into the free list (lines 201-243). -/
theorem rep_free_link (h : Heap) (pre post : List Blk) (b : Blk)
    (hr : RepX h (pre ++ b :: post) 0) (hb : b.used = true) :
    (frees (pre ++ b :: post) = [] →
      RepX { h with
        mem := wr_isUsed h.mem b.addr 0
        head_free := b.addr
        tail_free := b.addr } (pre ++ { b with used := false } :: post) 0) ∧
    (frees (pre ++ b :: post) ≠ [] → ∃ r,
      free_scan { h with mem := wr_isUsed h.mem b.addr 0 } b.addr
        (fuel { h with mem := wr_isUsed h.mem b.addr 0 }) h.head_free = some r ∧
      RepX (if r.2 then r.1 else link_last r.1 b.addr)
        (pre ++ { b with used := false } :: post) 0 ∧
      SameOS h (if r.2 then r.1 else link_last r.1 b.addr)) := by
  have hpos := hr.start_pos
  have hsp := tiles_split _ _ _ _ _ hr.tiles
  have hb0 : b.addr ≠ 0 := by omega
  have hfb := hr.fields b (by simp) hb0
  have hlim := hr.limit_le
  have hbl := hr.brk_le
  have hfr := frees_mid_used pre post b hb
  have hfr1 : frees (pre ++ { b with used := false } :: post) =
      frees pre ++ b.addr :: frees post := frees_mid pre post _ rfl
  have ht1 : Tiles (heapStart h) (pre ++ { b with used := false } :: post) h.brk :=
    (tiles_congr _ _ pre post b { b with used := false } rfl rfl).2 hr.tiles
  have hua := tiles_used_apart _ _ _ hr.tiles b (by simp) hb
  have hfbp := tiles_frees_bounds _ _ _ ((tiles_append_cons _ _ _ _ _).1 hr.tiles).1
  have hfbq := tiles_frees_bounds _ _ _ ((tiles_append_cons _ _ _ _ _).1 hr.tiles).2
  have hmo : ∀ z, (z < b.addr ∨ b.addr + 24 ≤ z) → wr_isUsed h.mem b.addr 0 z = h.mem z :=
    fun z hz => wr_isUsed_out _ _ _ _ hz
  -- the store to `isUsed`
  have h1 : PreRep { h with mem := wr_isUsed h.mem b.addr 0 }
      (pre ++ { b with used := false } :: post) (frees pre ++ frees post) 0 := by
    refine ⟨hr.start_pos, ht1, hr.brk_le, hr.limit_le, ?_, ?_⟩
    · intro x hx hx0
      by_cases e : x.addr = b.addr
      · have := same_addr_eq _ _ _ ht1 x { b with used := false } hx (by simp) e
        subst this
        refine ⟨?_, hfb.2.1, ?_, fun hu => absurd hu (by simp)⟩
        · show rd_size (wr_isUsed h.mem b.addr 0) b.addr = b.size
          simp (disch := omega) only [hdr_rw, hfb.1]
        · show rd_isUsed (wr_isUsed h.mem b.addr 0) b.addr = 0
          simp (disch := omega) only [hdr_rw]
      · have hx2 : x ∈ pre ++ b :: post := by
          simp only [List.mem_append, List.mem_cons] at hx ⊢
          rcases hx with hx | rfl | hx
          · exact Or.inl hx
          · exact absurd rfl e
          · exact Or.inr (Or.inr hx)
        exact fields_wr_other h.mem _ _ _ _ b.addr hr.tiles ⟨b, by simp, rfl⟩ hmo x hx2 e
          (hr.fields x hx2 hx0)
    · have hd := hr.dll
      rw [hfr] at hd hua
      exact dll_of_bytes h _ _ b.addr hd (fun a ha => by
        have := hua a ha
        unfold Apart at this ⊢
        omega) hmo rfl rfl
  have hnx : rd_next_free (wr_isUsed h.mem b.addr 0) b.addr = 0 := by
    simp (disch := omega) only [hdr_rw, (hfb.2.2.2 hb).1]
  have hpv : rd_prev_free (wr_isUsed h.mem b.addr 0) b.addr = 0 := by
    simp (disch := omega) only [hdr_rw, (hfb.2.2.2 hb).2]
  have hT : ∀ t ∈ frees pre ++ b.addr :: frees post,
      ∃ x ∈ pre ++ { b with used := false } :: post, x.addr = t ∧ (x.used = false ∨ x.addr = 0) := by
    intro t ht
    rw [← hfr1] at ht
    obtain ⟨x, hx, h3, h4⟩ := (mem_frees _ _).1 ht
    exact ⟨x, hx, h4, Or.inl h3⟩
  constructor
  · intro he
    rw [hfr] at he
    have hd1 := h1.dll
    rw [he] at hd1
    unfold RepX
    rw [hfr1]
    have e1 : frees pre = [] := (List.append_eq_nil.1 he).1
    have e2 : frees post = [] := (List.append_eq_nil.1 he).2
    rw [e1, e2]
    refine ⟨hr.start_pos, ht1, hr.brk_le, hr.limit_le, h1.fields, ?_⟩
    refine ⟨rfl, rfl, ⟨hpv, hnx, trivial⟩, ?_, ?_⟩
    · simp [Asc]
    · intro a ha
      simp only [List.nil_append, List.mem_singleton] at ha
      subst ha
      omega
  · intro hne
    rw [hfr] at hne
    have hd1 := h1.dll
    have hhead : h.head_free = headOr (frees pre ++ frees post) 0 := hd1.head
    have hk : (frees pre).length < fuel { h with mem := wr_isUsed h.mem b.addr 0 } := by
      have h2 := frees_length_lt _ _ _ hr
      rw [hfr, List.length_append] at h2
      unfold fuel
      show (frees pre).length < h.brk + 1
      omega
    have hsc := free_scan_spec { h with mem := wr_isUsed h.mem b.addr 0 } b.addr (by omega)
      (frees pre) (frees post) 0 _ hd1.seg
      (fun a ha => by have := hfbp a ha; omega)
      (fun y hy => by have := hfbq y hy; omega) hk
    rw [← hhead] at hsc
    refine ⟨_, hsc, ?_⟩
    rcases hq : frees post with _ | ⟨y, r⟩
    · -- appended after the tail
      simp only [headOr_nil, if_true]
      rw [hq, List.append_nil] at hne hd1
      obtain ⟨L0, z, hz⟩ : ∃ L0 z, frees pre = L0 ++ [z] := by
        rcases eq_nil_or_snoc (frees pre) with e | e
        · exact absurd e hne
        · exact e
      rw [hz] at hd1
      obtain ⟨d2, ls⟩ := link_last_spec _ L0 z b.addr hd1
        (fun x hx => by have := hfbp x (by rw [hz]; exact hx); omega) hnx (by omega)
      have hT2 : ∀ t ∈ L0 ++ [z] ++ [b.addr],
          ∃ x ∈ pre ++ { b with used := false } :: post, x.addr = t ∧
            (x.used = false ∨ x.addr = 0) := by
        intro t ht
        exact hT t (by rw [hq, hz]; simpa using ht)
      have h2 := prerep_linkstep _ _ _ _ _ _ _ _ h1 ls.toX hT2 (by simp) d2
      refine ⟨?_, ?_⟩
      · unfold RepX
        rw [hfr1, hq, hz]
        exact h2
      · exact ⟨ls.brk_eq, ls.limit_eq, ls.start_eq, ls.failed_eq⟩
    · -- linked before the first free block behind it
      have hy := hfbq y (by rw [hq]; simp)
      simp only [headOr_cons]
      rw [if_neg (show ¬ (y = 0) by omega)]
      simp only [if_true]
      rw [hq] at hd1
      obtain ⟨d2, ls⟩ := link_before_spec _ (frees pre) r b.addr y hd1
        (fun x hx => by have := hfbp x hx; omega) (by omega) (by omega)
      have hT2 : ∀ t ∈ frees pre ++ b.addr :: y :: r,
          ∃ x ∈ pre ++ { b with used := false } :: post, x.addr = t ∧
            (x.used = false ∨ x.addr = 0) := by
        intro t ht
        exact hT t (by rw [hq]; exact ht)
      have h2 := prerep_linkstep _ _ _ _ _ _ _ _ h1 ls.toX hT2 (by simp) d2
      refine ⟨?_, ?_⟩
      · unfold RepX
        rw [hfr1, hq]
        exact h2
      · exact ⟨ls.brk_eq, ls.limit_eq, ls.start_eq, ls.failed_eq⟩

theorem freeAt_nofree (pre post : List Blk) (b : Blk) (hb : b.used = true)
    (h : frees (pre ++ b :: post) = []) :
    freeAt pre b post = pre ++ { b with used := false } :: post := by
  rw [frees_mid_used pre post b hb] at h
  have e1 : frees pre = [] := (List.append_eq_nil.1 h).1
  have e2 : frees post = [] := (List.append_eq_nil.1 h).2
  have hn : mergeNext { b with used := false } post = ({ b with used := false }, post) := by
    rcases post with _ | ⟨p, r⟩
    · rfl
    · simp only [mergeNext]
      rw [if_neg]
      intro hc
      have : p.addr ∈ frees (p :: r) := (mem_frees _ _).2 ⟨p, by simp, hc.1, rfl⟩
      rw [e2] at this
      simp at this
  unfold freeAt
  rw [hn]
  apply mergePrev_keep
  rintro ⟨p, q, rfl, hq, -⟩
  have : q.addr ∈ frees (p ++ [q]) := (mem_frees _ _).2 ⟨q, by simp, hq, rfl⟩
  rw [e1] at this
  simp at this

theorem coalesce_if_sameOS (h : Heap) (P : Prop) [Decidable P] (c : Nat) :
    SameOS h (if P then coalesce h c else h) := by
  split
  · exact coalesce_sameOS _ _
  · exact sameOS_refl _

theorem free_finish_sameOS (h : Heap) (meta : Nat) (found : Bool) :
    SameOS (if found then h else link_last h meta) (free_finish h meta found) := by
  unfold free_finish
  simp only
  generalize (if found = true then h else link_last h meta) = h2
  have a := coalesce_if_sameOS h2 (meta ≠ h2.tail_free ∧
    rd_next_free h2.mem meta = (meta + HDR + rd_size h2.mem meta) % W64) meta
  revert a
  generalize (if meta ≠ h2.tail_free ∧
    rd_next_free h2.mem meta = (meta + HDR + rd_size h2.mem meta) % W64
    then coalesce h2 meta else h2) = h3
  intro a
  exact sameOS_trans _ _ _ a (coalesce_if_sameOS h3 _ _)

/-- The function `free` returns, and the state it returns represents the block
sequence in which the block is free and merged with its free neighbours. -/
theorem free_spec (h : Heap) (pre post : List Blk) (b : Blk)
    (hr : RepX h (pre ++ b :: post) 0) (hb : b.used = true) :
    ∃ h2, free h (b.addr + 24) = some h2 ∧ RepX h2 (freeAt pre b post) 0 ∧ SameOS h h2 := by
  have hpos := hr.start_pos
  have hsp := tiles_split _ _ _ _ _ hr.tiles
  have hlim := hr.limit_le
  have hbl := hr.brk_le
  have em : (b.addr + 24 + W64 - HDR) % W64 = b.addr := by
    simp only [HDR, W64]
    omega
  obtain ⟨c1, c2⟩ := rep_free_link h pre post b hr hb
  unfold free free_meta
  simp only [em]
  by_cases he : frees (pre ++ b :: post) = []
  · have hh : h.head_free = 0 := by
      have := hr.dll.head
      rw [he] at this
      exact this
    rw [if_pos hh, freeAt_nofree pre post b hb he]
    exact ⟨_, rfl, c1 he, ⟨rfl, rfl, rfl, rfl⟩⟩
  · have hh : h.head_free ≠ 0 := by
      have h1 := hr.dll.head
      have h2 := headOr_mem (frees (pre ++ b :: post)) 0 he
      have h3 := (hr.dll.pos _ h2).1
      omega
    rw [if_neg hh]
    obtain ⟨r, hsc, hrep, hos⟩ := c2 he
    rw [hsc]
    refine ⟨free_finish r.1 b.addr r.2, rfl, ?_, ?_⟩
    · have h3 := rep_fwd _ pre post { b with used := false } 0 hrep rfl
        (by show b.addr ≠ 0; omega)
        (fun y hy => by have := hsp.2.1 y hy; omega)
      have h4 := rep_bwd _ pre (mergeNext { b with used := false } post).2
        (mergeNext { b with used := false } post).1 h3 (mergeNext_used _ _ rfl)
      rw [mergeNext_addr] at h4
      exact h4
    · exact sameOS_trans _ _ _ hos (free_finish_sameOS _ _ _)

/-! ## Block sequences: used blocks and the search of malloc -/

theorem snoc_cases {α : Type} (l : List α) : l = [] ∨ ∃ l0 z, l = l0 ++ [z] := by
  induction l with
  | nil => exact Or.inl rfl
  | cons a r ih =>
    right
    rcases ih with e | ⟨l0, z, e⟩
    · exact ⟨[], a, by rw [e]; rfl⟩
    · exact ⟨a :: l0, z, by rw [e]; rfl⟩

theorem useds_cons (b : Blk) (r : List Blk) :
    useds (b :: r) = if b.used then (b.addr + 24) :: useds r else useds r := rfl

theorem useds_append (p q : List Blk) : useds (p ++ q) = useds p ++ useds q := by
  induction p with
  | nil => rfl
  | cons b r ih =>
    simp only [List.cons_append, useds_cons, ih]
    split <;> rfl

theorem mem_useds (bs : List Blk) (x : Nat) :
    x ∈ useds bs ↔ ∃ b ∈ bs, b.used = true ∧ b.addr + 24 = x := by
  induction bs with
  | nil => simp [useds]
  | cons b r ih =>
    rw [useds_cons]
    by_cases hb : b.used = true
    · rw [if_pos hb, List.mem_cons, ih]
      constructor
      · rintro (e | ⟨c, hc, h1, h2⟩)
        · exact ⟨b, by simp, hb, e.symm⟩
        · exact ⟨c, List.mem_cons_of_mem _ hc, h1, h2⟩
      · rintro ⟨c, hc, h1, h2⟩
        rcases List.mem_cons.1 hc with e | hc
        · left
          rw [← h2, e]
        · exact Or.inr ⟨c, hc, h1, h2⟩
    · rw [if_neg hb, ih]
      constructor
      · rintro ⟨c, hc, h1, h2⟩
        exact ⟨c, List.mem_cons_of_mem _ hc, h1, h2⟩
      · rintro ⟨c, hc, h1, h2⟩
        rcases List.mem_cons.1 hc with e | hc
        · rw [e] at h1
          exact absurd h1 hb
        · exact ⟨c, hc, h1, h2⟩

theorem useds_mid_used (pre post : List Blk) (b : Blk) (hb : b.used = true) :
    useds (pre ++ b :: post) = useds pre ++ (b.addr + 24) :: useds post := by
  rw [useds_append, useds_cons, if_pos hb]

theorem useds_mid_free (pre post : List Blk) (b : Blk) (hb : b.used = false) :
    useds (pre ++ b :: post) = useds pre ++ useds post := by
  rw [useds_append, useds_cons, hb]
  rfl

theorem useds_mergeNext (b : Blk) (post : List Blk) (hb : b.used = false) :
    useds ((mergeNext b post).1 :: (mergeNext b post).2) = useds post := by
  rcases post with _ | ⟨p, r⟩
  · simp [mergeNext, useds_cons, hb, useds]
  · simp only [mergeNext]
    split
    · rename_i h
      simp only [useds_cons, merge, h.1]
      rfl
    · simp only [useds_cons, hb]
      rfl

theorem useds_mergePrev (pre : List Blk) (b : Blk) (rest : List Blk) (hb : b.used = false) :
    useds (mergePrev pre b rest) = useds pre ++ useds rest := by
  rcases snoc_cases pre with e | ⟨p, q, e⟩
  · subst e
    simp [mergePrev, useds_cons, hb, useds]
  · subst e
    rw [mergePrev_snoc]
    split
    · rename_i h
      rw [useds_append, useds_append, useds_cons, useds_cons]
      simp [merge, h.1, useds]
    · rw [useds_append, useds_append, useds_cons, useds_cons, useds_cons]
      simp only [hb, useds]
      split <;> simp

theorem useds_freeAt (pre post : List Blk) (b : Blk) :
    useds (freeAt pre b post) = useds pre ++ useds post := by
  unfold freeAt
  rw [useds_mergePrev _ _ _ (mergeNext_used _ _ rfl)]
  have := useds_mergeNext { b with used := false } post rfl
  rw [useds_cons, mergeNext_used _ _ rfl] at this
  rw [← this]
  rfl

theorem useds_splitAt (b : Blk) (s : Nat) (post : List Blk) :
    useds (splitAt b s post) = (b.addr + 24) :: useds post := by
  unfold splitAt
  rw [useds_cons]
  simp only [splitHead, if_true]
  rw [useds_mergeNext _ _ rfl]

/-- The search of malloc stops at the first free block that fits or can be split. -/
theorem scan_shape (s : Nat) : ∀ (bs : List Blk) (res : List Blk × Nat),
    scanBlocks s bs = some res →
    ∃ pre b post, bs = pre ++ b :: post ∧ b.used = false ∧ res.2 = b.addr ∧
      scanBlocks s pre = none ∧
      (((b.size = s ∨ (b.size > s ∧ b.size - s < 24)) ∧
          res.1 = pre ++ { b with used := true } :: post) ∨
        (¬ (b.size = s ∨ (b.size > s ∧ b.size - s < 24)) ∧ b.size > s + 24 ∧
          res.1 = pre ++ splitAt b s post)) := by
  intro bs
  induction bs with
  | nil =>
    intro res h
    simp [scanBlocks] at h
  | cons b r ih =>
    intro res h
    unfold scanBlocks at h
    by_cases c1 : b.used = false ∧ (b.size = s ∨ (b.size > s ∧ b.size - s < 24))
    · rw [if_pos c1] at h
      injection h with h
      subst h
      exact ⟨[], b, r, rfl, c1.1, rfl, rfl, Or.inl ⟨c1.2, rfl⟩⟩
    · rw [if_neg c1] at h
      by_cases c2 : b.used = false ∧ b.size > s + 24
      · rw [if_pos c2] at h
        injection h with h
        subst h
        exact ⟨[], b, r, rfl, c2.1, rfl, rfl,
          Or.inr ⟨fun hc => c1 ⟨c2.1, hc⟩, c2.2, rfl⟩⟩
      · rw [if_neg c2] at h
        rcases hq : scanBlocks s r with _ | res0
        · rw [hq] at h
          simp at h
        · rw [hq] at h
          simp only [Option.map_some', Option.some.injEq] at h
          subst h
          obtain ⟨pre, x, post, e1, e2, e3, e4, e5⟩ := ih res0 hq
          refine ⟨b :: pre, x, post, by rw [e1]; rfl, e2, e3, ?_, ?_⟩
          · unfold scanBlocks
            rw [if_neg c1, if_neg c2, e4]
            rfl
          · rcases e5 with ⟨h1, h2⟩ | ⟨h1, h2, h3⟩
            · exact Or.inl ⟨h1, by simp [h2]⟩
            · exact Or.inr ⟨h1, h2, by simp [h3]⟩

theorem scan_none_append (s : Nat) : ∀ (pre t : List Blk), scanBlocks s pre = none →
    scanBlocks s (pre ++ t) = (scanBlocks s t).map (fun res => (pre ++ res.1, res.2)) := by
  intro pre
  induction pre with
  | nil =>
    intro t _
    simp
  | cons b r ih =>
    intro t h
    unfold scanBlocks at h
    by_cases c1 : b.used = false ∧ (b.size = s ∨ (b.size > s ∧ b.size - s < 24))
    · rw [if_pos c1] at h
      simp at h
    · rw [if_neg c1] at h
      by_cases c2 : b.used = false ∧ b.size > s + 24
      · rw [if_pos c2] at h
        simp at h
      · rw [if_neg c2] at h
        have h2 : scanBlocks s r = none := by
          rcases hq : scanBlocks s r with _ | res0
          · rfl
          · rw [hq] at h
            simp at h
        rw [List.cons_append]
        conv_lhs => unfold scanBlocks
        rw [if_neg c1, if_neg c2, ih t h2]
        rcases scanBlocks s t with _ | res1
        · rfl
        · rfl

/-- The block handed out by malloc: it is used, holds at least `s` bytes, and
the used blocks are those of before and this one. -/
theorem malloc_blocks_spec (s e : Nat) (bs : List Blk) :
    ∃ pre x post, (mallocBlocks s e bs).1 = pre ++ x :: post ∧
      x.addr = (mallocBlocks s e bs).2 ∧ x.used = true ∧ s ≤ x.size ∧
      useds (mallocBlocks s e bs).1 = useds pre ++ (x.addr + 24) :: useds post ∧
      useds bs = useds pre ++ useds post := by
  unfold mallocBlocks
  rcases hq : scanBlocks s bs with _ | res
  · refine ⟨bs, { addr := e, cap := s, size := s, used := true }, [], rfl, rfl, rfl,
      Nat.le_refl _, ?_, ?_⟩
    · rw [useds_mid_used _ _ _ rfl]
    · simp [useds]
  · obtain ⟨pre, b, post, e1, e2, e3, -, e5⟩ := scan_shape s bs res hq
    rcases e5 with ⟨h1, h2⟩ | ⟨h1, h2, h3⟩
    · refine ⟨pre, { b with used := true }, post, h2, e3.symm, rfl, by
        show s ≤ b.size
        omega, ?_, ?_⟩
      · show useds res.1 = _
        rw [h2, useds_mid_used _ _ _ rfl]
      · rw [e1, useds_mid_free _ _ _ e2]
    · refine ⟨pre, splitHead b s, (mergeNext (splitRest b s) post).1 ::
        (mergeNext (splitRest b s) post).2, h3, e3.symm, rfl, Nat.le_refl _, ?_, ?_⟩
      · show useds res.1 = _
        rw [h3, useds_append, useds_splitAt, useds_mergeNext _ _ rfl]
        rfl
      · rw [e1, useds_mid_free _ _ _ e2, useds_mergeNext _ _ rfl]

/-! ## What the walks of a represented state see -/

theorem freeWalk_seg (m : Mem) : ∀ (L : List Nat) (p k : Nat), Seg m p L 0 →
    (∀ a ∈ L, 0 < a) → L.length < k → freeWalk m k (headOr L 0) = some L := by
  intro L
  induction L with
  | nil =>
    intro p k _ _ hk
    rcases k with _ | k
    · simp at hk
    · simp [freeWalk]
  | cons a r ih =>
    intro p k hs hp hk
    rcases k with _ | k
    · simp at hk
    have ha := hp a (by simp)
    obtain ⟨-, hn, hs2⟩ := hs
    simp only [headOr_cons]
    unfold freeWalk
    rw [if_neg (by omega), hn, ih a k hs2 (fun x hx => hp x (List.mem_cons_of_mem _ hx))
      (by simpa using hk)]
    rfl

theorem freeList_rep (h : Heap) (bs : List Blk) (k : Nat) (hr : RepX h bs k) :
    freeList h = some (frees bs) := by
  unfold freeList
  rw [hr.dll.head]
  exact freeWalk_seg _ _ 0 _ hr.dll.seg (fun a ha => (hr.dll.pos a ha).1)
    (by unfold fuel; exact frees_length_lt h bs k hr)

theorem asc_sorted (L : List Nat) (h : Asc L) : L.Pairwise (fun x y => x < y) :=
  List.Pairwise.imp (fun hxy => by omega) h

theorem asc_nodup (L : List Nat) (h : Asc L) : L.Nodup :=
  List.Pairwise.imp (fun hxy => by omega) h

theorem rep_empty (m : Mem) (base limit : Nat) (hb : 0 < base) (hl : base ≤ limit)
    (hl2 : limit ≤ 9223372036854775808) : Rep (emptyHeap m base limit) [] := by
  refine ⟨hb, rfl, hl, hl2, ?_, ⟨rfl, rfl, trivial, ?_, ?_⟩⟩
  · intro b hb
    simp at hb
  · simp [Asc, frees]
  · intro a ha
    simp [frees] at ha

theorem heapWalk_tiles (m : Mem) (stop : Nat) : ∀ (bs : List Blk) (a k : Nat),
    Tiles a bs stop → (∀ b ∈ bs, rd_size m b.addr = b.cap) → bs.length < k →
    heapWalk m stop k a = some (bs.map (fun b => b.addr)) := by
  intro bs
  induction bs with
  | nil =>
    intro a k ht _ hk
    rcases k with _ | k
    · simp at hk
    · have e : a = stop := ht
      simp [heapWalk, e]
  | cons b r ih =>
    intro a k ht hf hk
    rcases k with _ | k
    · simp at hk
    obtain ⟨h1, h2⟩ := ht
    have h3 := tiles_le _ _ _ h2
    unfold heapWalk
    rw [if_neg (by omega), if_neg (by omega)]
    have h4 := hf b (by simp)
    rw [h1] at h4
    rw [h4]
    show Option.map _ (heapWalk m stop k (a + 24 + b.cap)) = _
    rw [ih _ k h2 (fun x hx => hf x (List.mem_cons_of_mem _ hx)) (by simpa using hk)]
    simp [h1]

theorem tiles_length (a e : Nat) (bs : List Blk) (h : Tiles a bs e) : a + 24 * bs.length ≤ e := by
  induction bs generalizing a with
  | nil =>
    have : a = e := h
    simp [this]
  | cons b r ih =>
    obtain ⟨h1, h2⟩ := h
    have := ih _ h2
    simp only [List.length_cons]
    omega

theorem heapBlocks_rep (h : Heap) (bs : List Blk) (hr : RepX h bs 0) (he : Exact bs) :
    heapBlocks h = some (bs.map (fun b => b.addr)) := by
  unfold heapBlocks
  have hp := hr.start_pos
  have hl := tiles_length _ _ _ hr.tiles
  refine heapWalk_tiles h.mem h.brk bs _ _ hr.tiles (fun b hb => ?_) (by unfold fuel; omega)
  have hb0 : b.addr ≠ 0 := by
    have := (tiles_bounds _ _ _ hr.tiles b hb).1
    omega
  rw [(hr.fields b hb hb0).1, he b hb]

/-! ## The check of the representation is sound -/

theorem tilesB_sound : ∀ (bs : List Blk) (a e : Nat), tilesB a bs e = true → Tiles a bs e := by
  intro bs
  induction bs with
  | nil =>
    intro a e h
    simpa [tilesB, Tiles] using h
  | cons b r ih =>
    intro a e h
    simp only [tilesB, Bool.and_eq_true, decide_eq_true_eq] at h
    exact ⟨h.1, ih _ _ h.2⟩

theorem segB_sound (m : Mem) : ∀ (L : List Nat) (p n : Nat), segB m p L n = true →
    Seg m p L n := by
  intro L
  induction L with
  | nil =>
    intro p n _
    trivial
  | cons a r ih =>
    intro p n h
    simp only [segB, Bool.and_eq_true, decide_eq_true_eq] at h
    exact ⟨h.1.1, h.1.2, ih _ _ h.2⟩

theorem fieldsB_sound (m : Mem) (b : Blk) (h : fieldsB m b = true) : FieldsOK m b := by
  simp only [fieldsB, Bool.and_eq_true, decide_eq_true_eq, Bool.or_eq_true,
    Bool.not_eq_true'] at h
  refine ⟨h.1.1.1, h.1.1.2, h.1.2, fun hu => ?_⟩
  rcases h.2 with h2 | h2
  · rw [hu] at h2
    exact absurd h2 (by simp)
  · exact h2

theorem repCheck_sound (h : Heap) (bs : List Blk) (hc : repCheck h bs = true) : Rep h bs := by
  simp only [repCheck, Bool.and_eq_true, decide_eq_true_eq, List.all_eq_true] at hc
  obtain ⟨⟨⟨⟨⟨⟨⟨h1, h2⟩, h3⟩, h4⟩, h5⟩, h6⟩, h7⟩, h8⟩ := hc
  have ht := tilesB_sound _ _ _ h2
  refine ⟨h1, ht, h3, h4, fun b hb _ => fieldsB_sound _ _ (h5 b hb),
    ⟨h6, h7, segB_sound _ _ _ _ h8, tiles_asc _ _ _ ht, fun a ha => ?_⟩⟩
  have := tiles_frees_bounds _ _ _ ht a ha
  omega

/-! ## Runs of calls keep the invariant -/

theorem run_sat (g : Sys → Op → Bool) (P : Sys → Prop)
    (hstep : ∀ s op, P s → g s op = true →
      ∃ s2, step s op = some s2 ∧ (s2.heap.sbrkFailed = false → P s2)) :
    ∀ (ops : List Op) (s : Sys), P s → (run g s ops).sat P := by
  intro ops
  induction ops with
  | nil =>
    intro s hs
    exact hs
  | cons op r ih =>
    intro s hs
    unfold run
    by_cases c : g s op = true
    · rw [if_pos c]
      obtain ⟨s2, e, h2⟩ := hstep s op hs c
      rw [e]
      by_cases f : s2.heap.sbrkFailed = true
      · simp only [f, if_true]
        trivial
      · simp only [f]
        exact ih s2 (h2 (by simpa using f))
    · rw [if_neg c]
      trivial

theorem sat_mono (P Q : Sys → Prop) (h : ∀ s, P s → Q s) (o : Outcome) (hp : o.sat P) :
    o.sat Q := by
  cases o with
  | done s => exact h s hp
  | refused => trivial
  | stuck => exact hp

theorem heapStart_sameOS (h h2 : Heap) (e : SameOS h h2) : heapStart h2 = heapStart h := by
  unfold heapStart
  rw [e.1, e.2.2.1]

theorem inv_start (Q : List Blk → Prop) (hQ : Q []) (m : Mem) (base limit : Nat)
    (hb : 0 < base) (hl : base ≤ limit) (hl2 : limit ≤ 9223372036854775808) :
    Inv Q (Sys.start m base limit) :=
  ⟨rfl, [], rep_empty m base limit hb hl hl2, List.Perm.refl _, fun _ => hQ⟩

theorem inv_malloc (Q : List Blk → Prop)
    (hQ : ∀ (bs : List Blk) (n a e : Nat), n < 2147483648 → 0 < a → Tiles a bs e →
      e < a + 4294967296 → Q bs → Q (mallocBlocks n e bs).1)
    (s : Sys) (n : Nat) (hn : n < 2147483648) (hi : Inv Q s) :
    ∃ s2, step s (Op.malloc n) = some s2 ∧ (s2.heap.sbrkFailed = false →
      Inv Q s2 ∧ s2.heap.limit = s.heap.limit ∧ heapStart s2.heap = heapStart s.heap) := by
  obtain ⟨hf, bs, hr, hp, hq⟩ := hi
  obtain ⟨h2, p, e, h1, h2f⟩ := malloc_spec s.heap bs n hr hn
  refine ⟨{ heap := h2, live := p :: s.live }, by
    show Option.map _ (malloc s.heap n) = _
    rw [e]
    rfl, fun hf2 => ?_⟩
  by_cases c : scanBlocks n bs ≠ none ∨ s.heap.brk + 24 + n ≤ s.heap.limit
  · obtain ⟨r, hp2, -, hlim, hst0, hst, hbrk⟩ := h1 c
    have hs2 : heapStart h2 = heapStart s.heap := by
      unfold heapStart
      rw [if_neg hst0, hst]
      rfl
    have hle : s.heap.brk ≤ h2.brk := by
      rw [hbrk]
      split <;> omega
    obtain ⟨pre, x, post, q1, q2, -, -, q5, q6⟩ := malloc_blocks_spec n s.heap.brk bs
    refine ⟨⟨hf2, (mallocBlocks n s.heap.brk bs).1, r, ?_, fun hlt => ?_⟩, hlim, hs2⟩
    · show (p :: s.live).Perm _
      rw [q5, hp2, ← q2]
      refine List.Perm.trans (List.Perm.cons _ hp) ?_
      rw [q6]
      exact List.perm_middle.symm
    · have hlt2 : h2.brk < heapStart h2 + 4294967296 := hlt
      rw [hs2] at hlt2
      exact hQ bs n _ _ hn hr.start_pos hr.tiles (by omega) (hq (by omega))
  · have c1 : scanBlocks n bs = none := by
      by_contra hc
      exact c (Or.inl hc)
    have := h2f c1 (fun hc => c (Or.inr hc))
    rw [this] at hf2
    exact absurd hf2 (by simp)

theorem live_block (s : Sys) (bs : List Blk) (p : Nat) (hp : s.live.Perm (useds bs))
    (hm : p ∈ s.live) :
    ∃ pre b post, bs = pre ++ b :: post ∧ b.used = true ∧ b.addr + 24 = p := by
  obtain ⟨b, hb, h1, h2⟩ := (mem_useds bs p).1 ((List.Perm.mem_iff hp).1 hm)
  obtain ⟨pre, post, e⟩ := List.append_of_mem hb
  exact ⟨pre, b, post, e, h1, h2⟩

theorem perm_erase_mid (live A B : List Nat) (p : Nat) (h : live.Perm (A ++ p :: B)) :
    (live.erase p).Perm (A ++ B) := by
  have h1 : live.Perm (p :: (A ++ B)) := List.Perm.trans h List.perm_middle
  have h2 := List.Perm.erase p h1
  rw [List.erase_cons_head] at h2
  exact h2

theorem inv_free (Q : List Blk → Prop)
    (hQ : ∀ (pre post : List Blk) (b : Blk) (a e : Nat), 0 < a →
      Tiles a (pre ++ b :: post) e → e < a + 4294967296 → b.used = true →
      Q (pre ++ b :: post) → Q (freeAt pre b post))
    (s : Sys) (p : Nat) (hm : p ∈ s.live) (hi : Inv Q s) :
    ∃ s2, step s (Op.free p) = some s2 ∧ (s2.heap.sbrkFailed = false →
      Inv Q s2 ∧ s2.heap.limit = s.heap.limit ∧ heapStart s2.heap = heapStart s.heap) := by
  obtain ⟨hf, bs, hr, hp, hq⟩ := hi
  obtain ⟨pre, b, post, e1, e2, e3⟩ := live_block s bs p hp hm
  subst e1
  subst e3
  obtain ⟨h2, e, r, so⟩ := free_spec s.heap pre post b hr e2
  refine ⟨{ heap := h2, live := s.live.erase (b.addr + 24) }, by
    show Option.map _ (free s.heap (b.addr + 24)) = _
    rw [e]
    rfl, fun hf2 => ⟨⟨hf2, freeAt pre b post, r, ?_, fun hlt => ?_⟩, so.2.1,
      heapStart_sameOS _ _ so⟩⟩
  · show (s.live.erase (b.addr + 24)).Perm _
    rw [useds_freeAt]
    rw [useds_mid_used _ _ _ e2] at hp
    exact perm_erase_mid _ _ _ _ hp
  · have hs2 := heapStart_sameOS _ _ so
    have hb2 : h2.brk = s.heap.brk := so.1
    have hlt2 : h2.brk < heapStart h2 + 4294967296 := hlt
    rw [hs2, hb2] at hlt2
    exact hQ pre post b _ _ hr.start_pos hr.tiles hlt2 e2 (hq hlt2)

theorem inv_mf (Q : List Blk → Prop)
    (hQm : ∀ (bs : List Blk) (n a e : Nat), n < 2147483648 → 0 < a → Tiles a bs e →
      e < a + 4294967296 → Q bs → Q (mallocBlocks n e bs).1)
    (hQf : ∀ (pre post : List Blk) (b : Blk) (a e : Nat), 0 < a →
      Tiles a (pre ++ b :: post) e → e < a + 4294967296 → b.used = true →
      Q (pre ++ b :: post) → Q (freeAt pre b post))
    (s : Sys) (op : Op) (hi : Inv Q s) (hg : legalMF s op = true) :
    ∃ s2, step s op = some s2 ∧ (s2.heap.sbrkFailed = false → Inv Q s2) := by
  cases op with
  | malloc n =>
    obtain ⟨s2, e, h2⟩ := inv_malloc Q hQm s n (by simpa [legalMF, legal] using hg) hi
    exact ⟨s2, e, fun hf => (h2 hf).1⟩
  | free p =>
    obtain ⟨s2, e, h2⟩ := inv_free Q hQf s p (by simpa [legalMF, legal] using hg) hi
    exact ⟨s2, e, fun hf => (h2 hf).1⟩
  | realloc p n => simp [legalMF] at hg

/-! ## The order of the free list -/

/-- C5: after any run of `malloc` and `free` calls from the empty heap, under
the conditions of `legalMF` (sizes below `2 ^ 31`, only held pointers freed,
no extension refused), every call has returned and the walk of the free list
from `head_free` along `next_free` visits strictly increasing addresses, ends
at `tail_free` and visits no header twice.  The break starts above address 0
and stays below `2 ^ 63`. -/
theorem free_list_ascending (m : Mem) (base limit : Nat) (ops : List Op) (hb : 0 < base)
    (hl : base ≤ limit) (hl2 : limit ≤ 9223372036854775808) :
    (run legalMF (Sys.start m base limit) ops).sat (fun s =>
      ∃ L, freeList s.heap = some L ∧ L.Pairwise (fun x y => x < y) ∧
        lastOr L 0 = s.heap.tail_free ∧ L.Nodup) := by
  refine sat_mono (Inv (fun _ => True)) _ ?_ _
    (run_sat legalMF (Inv (fun _ => True))
      (fun s op hi hg => inv_mf _ (fun _ _ _ _ _ _ _ _ _ => trivial)
        (fun _ _ _ _ _ _ _ _ _ _ => trivial) s op hi hg) ops _
      (inv_start _ trivial m base limit hb hl hl2))
  rintro s ⟨-, bs, hr, -, -⟩
  exact ⟨frees bs, freeList_rep _ _ _ hr, asc_sorted _ hr.dll.asc, hr.dll.tail.symm,
    asc_nodup _ hr.dll.asc⟩

theorem free_list_ascending_witness :
    0 < 4096 ∧ 4096 ≤ 1099511627776 ∧ 1099511627776 ≤ 9223372036854775808 ∧
    (run legalMF (Sys.start (fun _ => 0) 4096 1099511627776)
      [Op.malloc 16, Op.malloc 16, Op.malloc 16, Op.malloc 16, Op.free 4200,
        Op.free 4120]).sat (fun s =>
      ∃ L, freeList s.heap = some L ∧ L.Pairwise (fun x y => x < y) ∧
        lastOr L 0 = s.heap.tail_free ∧ L.Nodup) ∧
    (run legalMF (Sys.start (fun _ => 0) 4096 1099511627776)
      [Op.malloc 16, Op.malloc 16, Op.malloc 16, Op.malloc 16, Op.free 4200,
        Op.free 4120]).obs (fun s => (s.live, freeList s.heap, s.heap.tail_free)) =
      some ([4240, 4160], some [4096, 4176], 4176) :=
  ⟨by decide, by decide, by decide,
    free_list_ascending (fun _ => 0) 4096 1099511627776 _ (by decide) (by decide) (by decide),
    by with_unfolding_all rfl⟩

/-! ## Exact sizes and adjacent free blocks on block sequences -/

theorem tiles_mergeNext (e : Nat) (x : Blk) (post : List Blk)
    (h : Tiles x.addr (x :: post) e) :
    Tiles x.addr ((mergeNext x post).1 :: (mergeNext x post).2) e := by
  rcases post with _ | ⟨p, r⟩
  · exact h
  · simp only [mergeNext]
    split
    · obtain ⟨-, h2, h3⟩ := h
      refine ⟨rfl, ?_⟩
      show Tiles (x.addr + 24 + (x.cap + 24 + p.cap)) r e
      have e1 : x.addr + 24 + (x.cap + 24 + p.cap) = x.addr + 24 + x.cap + 24 + p.cap := by
        omega
      rw [e1]
      exact h3
    · exact h

theorem tiles_mergePrev (a e : Nat) (pre rest : List Blk) (x : Blk)
    (h : Tiles a (pre ++ x :: rest) e) : Tiles a (mergePrev pre x rest) e := by
  rcases snoc_cases pre with e0 | ⟨p, q, e0⟩
  · subst e0
    exact h
  · subst e0
    rw [mergePrev_snoc]
    split
    · rw [List.append_assoc] at h
      rw [tiles_append_cons]
      have h0 : Tiles a (p ++ q :: x :: rest) e := h
      rw [tiles_append_cons] at h0
      refine ⟨h0.1, ?_⟩
      obtain ⟨h1, h2⟩ := h0.2
      show Tiles (q.addr + 24 + (q.cap + 24 + x.cap)) rest e
      have e1 : q.addr + 24 + (q.cap + 24 + x.cap) = q.addr + 24 + q.cap + 24 + x.cap := by
        omega
      rw [e1]
      exact h2
    · rw [List.append_assoc] at h
      exact h

theorem exact_append (p q : List Blk) : Exact (p ++ q) ↔ Exact p ∧ Exact q := by
  unfold Exact
  simp only [List.mem_append]
  constructor
  · intro h
    exact ⟨fun b hb => h b (Or.inl hb), fun b hb => h b (Or.inr hb)⟩
  · rintro ⟨h1, h2⟩ b (hb | hb)
    · exact h1 b hb
    · exact h2 b hb

theorem exact_cons (b : Blk) (r : List Blk) : Exact (b :: r) ↔ b.size = b.cap ∧ Exact r := by
  unfold Exact
  simp

theorem exact_mergeNext (x : Blk) (post : List Blk) (hx : x.size = x.cap) (hp : Exact post)
    (hc : (mergeNext x post).1.cap < 4294967296) :
    Exact ((mergeNext x post).1 :: (mergeNext x post).2) := by
  rcases post with _ | ⟨p, r⟩
  · rw [exact_cons]
    exact ⟨hx, hp⟩
  · simp only [mergeNext] at hc ⊢
    rw [exact_cons] at hp
    split
    · rename_i c
      rw [if_pos c] at hc
      rw [exact_cons]
      refine ⟨?_, hp.2⟩
      show (x.size + 24 + p.size) % 4294967296 = x.cap + 24 + p.cap
      have : x.cap + 24 + p.cap < 4294967296 := hc
      rw [hx, hp.1]
      omega
    · rw [exact_cons, exact_cons]
      exact ⟨hx, hp⟩

theorem exact_mergePrev (pre rest : List Blk) (x : Blk) (hp : Exact pre)
    (hx : Exact (x :: rest)) (hc : ∀ y ∈ mergePrev pre x rest, y.cap < 4294967296) :
    Exact (mergePrev pre x rest) := by
  rcases snoc_cases pre with e0 | ⟨p, q, e0⟩
  · subst e0
    exact hx
  · subst e0
    rw [mergePrev_snoc] at hc ⊢
    rw [exact_append] at hp ⊢
    rw [exact_cons] at hx
    have hq : q.size = q.cap := hp.2 q (by simp)
    refine ⟨hp.1, ?_⟩
    split
    · rename_i c
      rw [if_pos c] at hc
      rw [exact_cons]
      refine ⟨?_, hx.2⟩
      show (q.size + 24 + x.size) % 4294967296 = q.cap + 24 + x.cap
      have : q.cap + 24 + x.cap < 4294967296 := hc (merge q x) (by simp)
      rw [hq, hx.1]
      omega
    · rw [exact_cons, exact_cons]
      exact ⟨hq, hx⟩

theorem tiles_cap_lt (a e : Nat) (bs : List Blk) (h : Tiles a bs e) (he : e < a + 4294967296) :
    ∀ y ∈ bs, y.cap < 4294967296 := by
  intro y hy
  have := tiles_bounds _ _ _ h y hy
  omega

theorem exact_malloc (bs : List Blk) (n a e : Nat) (ht : Tiles a bs e)
    (he : e < a + 4294967296) (hx : Exact bs) : Exact (mallocBlocks n e bs).1 := by
  unfold mallocBlocks
  rcases hq : scanBlocks n bs with _ | res
  · show Exact (bs ++ [_])
    rw [exact_append]
    refine ⟨hx, ?_⟩
    intro b hb
    simp only [List.mem_singleton] at hb
    subst hb
    rfl
  · obtain ⟨pre, b, post, e1, e2, e3, -, e5⟩ := scan_shape n bs res hq
    subst e1
    rw [exact_append, exact_cons] at hx
    rcases e5 with ⟨h1, h2⟩ | ⟨h1, h2, h3⟩
    · show Exact res.1
      rw [h2, exact_append, exact_cons]
      exact hx
    · show Exact res.1
      rw [h3, exact_append]
      refine ⟨hx.1, ?_⟩
      unfold splitAt
      rw [exact_cons]
      refine ⟨rfl, ?_⟩
      have hb := hx.2.1
      have htp := ((tiles_append_cons _ _ _ _ _).1 ht)
      have hbd := (tiles_split _ _ _ _ _ ht).2.2
      have ht2 : Tiles (splitRest b n).addr (splitRest b n :: post) e := by
        refine ⟨rfl, ?_⟩
        show Tiles (b.addr + 24 + n + 24 + (b.cap - n - 24)) post e
        have e4 : b.addr + 24 + n + 24 + (b.cap - n - 24) = b.addr + 24 + b.cap := by omega
        rw [e4]
        exact htp.2
      have ht3 := tiles_mergeNext _ _ _ ht2
      refine exact_mergeNext _ _ (by
        show b.size - n - 24 = b.cap - n - 24
        rw [hb]) hx.2.2 ?_
      have := tiles_bounds _ _ _ ht3 _ (List.mem_cons_self _ _)
      rw [mergeNext_addr] at this
      have e6 : (splitRest b n).addr = b.addr + 24 + n := rfl
      omega

theorem exact_freeAt (pre post : List Blk) (b : Blk) (a e : Nat)
    (ht : Tiles a (pre ++ b :: post) e) (he : e < a + 4294967296)
    (hx : Exact (pre ++ b :: post)) : Exact (freeAt pre b post) := by
  unfold freeAt
  rw [exact_append, exact_cons] at hx
  have htp := ((tiles_append_cons _ _ _ _ _).1 ht)
  have hbd := (tiles_split _ _ _ _ _ ht).2.2
  have ht2 : Tiles b.addr ({ b with used := false } :: post) e := ⟨rfl, htp.2⟩
  have ht3 := tiles_mergeNext _ _ _ ht2
  have ht4 : Tiles a (pre ++ (mergeNext { b with used := false } post).1 ::
      (mergeNext { b with used := false } post).2) e := by
    rw [tiles_append_cons, mergeNext_addr]
    exact ⟨htp.1, ht3.2⟩
  have ht5 := tiles_mergePrev _ _ _ _ _ ht4
  refine exact_mergePrev _ _ _ hx.1 (exact_mergeNext _ _ hx.2.1 hx.2.2 ?_)
    (tiles_cap_lt _ _ _ ht5 he)
  have := tiles_bounds _ _ _ ht3 _ (List.mem_cons_self _ _)
  rw [mergeNext_addr] at this
  have e6 : ({ b with used := false } : Blk).addr = b.addr := rfl
  omega

/-! ## Adjacent free blocks -/

theorem noAdj_iff (bs : List Blk) :
    NoAdj bs ↔ List.Chain' (fun b c => ¬ (b.used = false ∧ c.used = false)) bs := by
  induction bs with
  | nil => simp [NoAdj]
  | cons b r ih =>
    rcases r with _ | ⟨c, r⟩
    · simp [NoAdj]
    · simp only [NoAdj, List.chain'_cons, ih]

theorem noAdj_split_iff (pre post : List Blk) (b : Blk) :
    NoAdj (pre ++ b :: post) ↔ NoAdj (pre ++ [b]) ∧ NoAdj (b :: post) := by
  simp only [noAdj_iff]
  exact List.chain'_split

theorem noAdj_cons_congr (b c : Blk) (post : List Blk) (h : c.used = b.used)
    (hn : NoAdj (b :: post)) : NoAdj (c :: post) := by
  rcases post with _ | ⟨p, r⟩
  · trivial
  · simp only [NoAdj] at hn ⊢
    rw [h]
    exact hn

theorem noAdj_snoc_congr (pre : List Blk) (b c : Blk) (h : c.used = b.used)
    (hn : NoAdj (pre ++ [b])) : NoAdj (pre ++ [c]) := by
  rcases snoc_cases pre with e | ⟨p, q, e⟩
  · subst e
    trivial
  · subst e
    rw [List.append_assoc] at hn ⊢
    have hn2 : NoAdj (p ++ q :: [b]) := hn
    show NoAdj (p ++ q :: [c])
    rw [noAdj_split_iff] at hn2 ⊢
    refine ⟨hn2.1, ?_⟩
    have := hn2.2
    simp only [NoAdj] at this ⊢
    rw [h]
    exact this

theorem noAdj_cons_used (u : Blk) (post : List Blk) (hu : u.used = true) (h : NoAdj post) :
    NoAdj (u :: post) := by
  rcases post with _ | ⟨p, r⟩
  · trivial
  · simp only [NoAdj]
    exact ⟨by simp [hu], h⟩

theorem noAdj_snoc_used (pre : List Blk) (u : Blk) (hu : u.used = true) (h : NoAdj pre) :
    NoAdj (pre ++ [u]) := by
  rcases snoc_cases pre with e | ⟨p, q, e⟩
  · subst e
    trivial
  · subst e
    rw [List.append_assoc]
    show NoAdj (p ++ q :: [u])
    rw [noAdj_split_iff]
    refine ⟨h, ?_⟩
    simp only [NoAdj]
    exact ⟨by simp [hu], trivial⟩

theorem noAdj_tail (b : Blk) (post : List Blk) (h : NoAdj (b :: post)) : NoAdj post := by
  rcases post with _ | ⟨p, r⟩
  · trivial
  · exact h.2

theorem noAdj_init (pre : List Blk) (b : Blk) (h : NoAdj (pre ++ [b])) : NoAdj pre := by
  rcases snoc_cases pre with e | ⟨p, q, e⟩
  · subst e
    trivial
  · subst e
    rw [List.append_assoc] at h
    have h2 : NoAdj (p ++ q :: [b]) := h
    rw [noAdj_split_iff] at h2
    exact h2.1

theorem noAdj_next_used (b p : Blk) (r : List Blk) (h : NoAdj (b :: p :: r))
    (hb : b.used = false) : p.used = true := by
  have := h.1
  rcases hp : p.used with _ | _
  · exact absurd ⟨hb, hp⟩ this
  · rfl

theorem noAdj_prev_used (p : List Blk) (q b : Blk) (h : NoAdj (p ++ [q] ++ [b]))
    (hb : b.used = false) : q.used = true := by
  rw [List.append_assoc] at h
  have h2 : NoAdj (p ++ q :: [b]) := h
  rw [noAdj_split_iff] at h2
  have := h2.2.1
  rcases hq : q.used with _ | _
  · exact absurd ⟨hq, hb⟩ this
  · rfl

theorem noAdj_mergeNext (x : Blk) (post : List Blk) (hp : NoAdj post)
    (hc : ∀ p r, post = p :: r → p.used = false → x.size = x.cap) :
    NoAdj ((mergeNext x post).1 :: (mergeNext x post).2) := by
  rcases post with _ | ⟨p, r⟩
  · trivial
  · simp only [mergeNext]
    split
    · rename_i c
      exact noAdj_cons_congr p _ r (by rw [c.1]; rfl) hp
    · rename_i c
      show NoAdj (x :: p :: r)
      refine ⟨fun hh => c ⟨hh.2, hc p r rfl hh.2⟩, hp⟩

theorem noAdj_mergePrev (pre rest : List Blk) (x : Blk) (hx : x.used = false)
    (hp : NoAdj pre) (hr : NoAdj (x :: rest))
    (hc : ∀ p q, pre = p ++ [q] → q.used = false → q.size = q.cap) :
    NoAdj (mergePrev pre x rest) := by
  rcases snoc_cases pre with e | ⟨p, q, e⟩
  · subst e
    exact hr
  · subst e
    rw [mergePrev_snoc]
    split
    · rename_i c
      rw [noAdj_split_iff]
      exact ⟨noAdj_snoc_congr p q _ (by rw [c.1]; rfl) hp,
        noAdj_cons_congr x _ rest (by rw [hx]; rfl) hr⟩
    · rename_i c
      rw [noAdj_split_iff]
      refine ⟨hp, ?_⟩
      show NoAdj (q :: x :: rest)
      exact ⟨fun hh => c ⟨hh.1, hc p q rfl hh.1⟩, hr⟩

theorem noAdj_malloc (bs : List Blk) (n e : Nat) (h : NoAdj bs) :
    NoAdj (mallocBlocks n e bs).1 := by
  unfold mallocBlocks
  rcases hq : scanBlocks n bs with _ | res
  · exact noAdj_snoc_used _ _ rfl h
  · obtain ⟨pre, b, post, e1, e2, e3, -, e5⟩ := scan_shape n bs res hq
    subst e1
    rw [noAdj_split_iff] at h
    rcases e5 with ⟨h1, h2⟩ | ⟨h1, h2, h3⟩
    · show NoAdj res.1
      rw [h2, noAdj_split_iff]
      exact ⟨noAdj_snoc_used _ _ rfl (noAdj_init _ _ h.1),
        noAdj_cons_used _ _ rfl (noAdj_tail _ _ h.2)⟩
    · show NoAdj res.1
      rw [h3]
      unfold splitAt
      rw [noAdj_split_iff]
      refine ⟨noAdj_snoc_used _ _ rfl (noAdj_init _ _ h.1), noAdj_cons_used _ _ rfl ?_⟩
      refine noAdj_mergeNext _ _ (noAdj_tail _ _ h.2) ?_
      intro p r hpr hpf
      subst hpr
      have := noAdj_next_used b p r h.2 e2
      rw [this] at hpf
      exact absurd hpf (by simp)

theorem noAdj_freeAt (pre post : List Blk) (b : Blk) (hx : Exact (pre ++ b :: post))
    (h : NoAdj (pre ++ b :: post)) : NoAdj (freeAt pre b post) := by
  unfold freeAt
  rw [noAdj_split_iff] at h
  rw [exact_append, exact_cons] at hx
  refine noAdj_mergePrev _ _ _ (mergeNext_used _ _ rfl) (noAdj_init _ _ h.1)
    (noAdj_mergeNext _ _ (noAdj_tail _ _ h.2) (fun _ _ _ _ => hx.2.1)) ?_
  intro p q hpq _
  exact hx.1 q (by rw [hpq]; simp)

theorem noAdj_all_free (bs : List Blk) (h : NoAdj bs) (hf : useds bs = []) :
    bs = [] ∨ ∃ b, bs = [b] ∧ b.used = false := by
  rcases bs with _ | ⟨b, r⟩
  · exact Or.inl rfl
  · right
    rw [useds_cons] at hf
    have hb : b.used = false := by
      rcases hq : b.used with _ | _
      · rfl
      · rw [hq] at hf
        simp at hf
    rcases r with _ | ⟨c, r⟩
    · exact ⟨b, rfl, hb⟩
    · exfalso
      rw [hb] at hf
      simp only [Bool.false_eq_true, if_false] at hf
      rw [useds_cons] at hf
      have hc : c.used = false := by
        rcases hq : c.used with _ | _
        · rfl
        · rw [hq] at hf
          simp at hf
      exact h.1 ⟨hb, hc⟩

/-! ## Full coalescing once everything is freed -/

/-- C4, counterexample: two blocks of `2 ^ 31 - 1` bytes are allocated and
freed.  No block is allocated afterwards and the free list is one block at the
start of the heap, but its `size` field holds 22, not the 4294967318 bytes
between its header and the heap end: the sum computed by `coalesce` does not
fit the `unsigned int` field. -/
theorem coalesce_all_overflow :
    (run legalMF (Sys.start (fun _ => 0) 4096 1099511627776)
      [Op.malloc 2147483647, Op.malloc 2147483647, Op.free 4120, Op.free 2147487791]).obs
      (fun s => (s.live, s.heap.startOfHeap, s.heap.brk, freeList s.heap,
        rd_size s.heap.mem s.heap.startOfHeap, s.heap.brk - s.heap.startOfHeap - 24)) =
      some ([], 4096, 4294971438, some [4096], 22, 4294967318) := by
  with_unfolding_all rfl

/-- C4, amended: after any run of `malloc` and `free` calls from the empty
heap under the conditions of `legalMF`, every call has returned, and whenever
no block is allocated, the heap is non-empty and shorter than `2 ^ 32` bytes,
the free list is exactly one block at the start of the heap whose size is
heap end minus heap start minus the header size. -/
theorem coalesce_all (m : Mem) (base limit : Nat) (ops : List Op) (hb : 0 < base)
    (hl : base ≤ limit) (hl2 : limit ≤ 9223372036854775808) :
    (run legalMF (Sys.start m base limit) ops).sat (fun s =>
      s.live = [] → s.heap.startOfHeap ≠ 0 → s.heap.startOfHeap < s.heap.brk →
      s.heap.brk < s.heap.startOfHeap + 4294967296 →
        freeList s.heap = some [s.heap.startOfHeap] ∧
        rd_size s.heap.mem s.heap.startOfHeap = s.heap.brk - s.heap.startOfHeap - 24) := by
  refine sat_mono (Inv (fun bs => Exact bs ∧ NoAdj bs)) _ ?_ _
    (run_sat legalMF (Inv (fun bs => Exact bs ∧ NoAdj bs))
      (fun s op hi hg => inv_mf _
        (fun bs n a e _ _ ht he hq => ⟨exact_malloc bs n a e ht he hq.1, noAdj_malloc bs n e hq.2⟩)
        (fun pre post b a e _ ht he _ hq =>
          ⟨exact_freeAt pre post b a e ht he hq.1, noAdj_freeAt pre post b hq.1 hq.2⟩)
        s op hi hg) ops _
      (inv_start _ ⟨fun _ hb => by simp at hb, trivial⟩ m base limit hb hl hl2))
  rintro s ⟨-, bs, hr, hp, hq⟩ hlive h0 hlt hsz
  have hst : heapStart s.heap = s.heap.startOfHeap := by
    unfold heapStart
    rw [if_neg h0]
  rw [← hst] at hsz
  obtain ⟨hx, hn⟩ := hq hsz
  rw [hlive] at hp
  have hu : useds bs = [] := (List.Perm.nil_eq hp).symm
  have ht := hr.tiles
  rw [hst] at ht
  rcases noAdj_all_free bs hn hu with e | ⟨b, e, hbf⟩
  · subst e
    have : s.heap.startOfHeap = s.heap.brk := ht
    omega
  · subst e
    obtain ⟨h1, h2⟩ := ht
    have h3 : s.heap.startOfHeap + 24 + b.cap = s.heap.brk := h2
    have hfr : frees [b] = [s.heap.startOfHeap] := by
      rw [frees_cons, hbf, ← h1]
      rfl
    refine ⟨by rw [freeList_rep _ _ _ hr, hfr], ?_⟩
    have hf := hr.fields b (by simp) (by rw [h1]; exact h0)
    have hf1 := hf.1
    rw [h1] at hf1
    rw [hf1, hx b (by simp)]
    omega

theorem coalesce_all_witness :
    0 < 4096 ∧ 4096 ≤ 1099511627776 ∧ 1099511627776 ≤ 9223372036854775808 ∧
    (run legalMF (Sys.start (fun _ => 0) 4096 1099511627776)
      [Op.malloc 64, Op.free 4120, Op.malloc 16, Op.malloc 40, Op.free 4120,
        Op.free 4208]).sat (fun s =>
      s.live = [] → s.heap.startOfHeap ≠ 0 → s.heap.startOfHeap < s.heap.brk →
      s.heap.brk < s.heap.startOfHeap + 4294967296 →
        freeList s.heap = some [s.heap.startOfHeap] ∧
        rd_size s.heap.mem s.heap.startOfHeap = s.heap.brk - s.heap.startOfHeap - 24) ∧
    (run legalMF (Sys.start (fun _ => 0) 4096 1099511627776)
      [Op.malloc 64, Op.free 4120, Op.malloc 16, Op.malloc 40, Op.free 4120,
        Op.free 4208]).obs
      (fun s => (s.live, s.heap.startOfHeap, s.heap.brk, freeList s.heap,
        rd_size s.heap.mem s.heap.startOfHeap)) = some ([], 4096, 4248, some [4096], 128) :=
  ⟨by decide, by decide, by decide,
    coalesce_all (fun _ => 0) 4096 1099511627776 _ (by decide) (by decide) (by decide),
    by with_unfolding_all rfl⟩

/-! ## Reuse of a released block -/

theorem blk_free_eta (b : Blk) (hb : b.used = false) : ({ b with used := false } : Blk) = b := by
  cases b
  simp only [Blk.mk.injEq, true_and]
  exact hb.symm

theorem mergeNext_keep (x : Blk) (post : List Blk)
    (h : ∀ p r, post = p :: r → p.used = true) : mergeNext x post = (x, post) := by
  rcases post with _ | ⟨p, r⟩
  · rfl
  · simp only [mergeNext]
    rw [if_neg]
    rintro ⟨hp, -⟩
    rw [h p r rfl] at hp
    exact absurd hp (by simp)

theorem noAdj_mid_free (pre post : List Blk) (b : Blk) (hn : NoAdj (pre ++ b :: post))
    (hb : b.used = false) :
    (∀ p r, post = p :: r → p.used = true) ∧
    (¬ ∃ p q, pre = p ++ [q] ∧ q.used = false ∧ q.size = q.cap) := by
  rw [noAdj_split_iff] at hn
  constructor
  · intro p r e
    subst e
    exact noAdj_next_used b p r hn.2 hb
  · rintro ⟨p, q, e, hq, -⟩
    subst e
    have := noAdj_prev_used p q b hn.1 hb
    rw [this] at hq
    exact absurd hq (by simp)

/-- On block sequences: the block that malloc hands out is, once freed, the
block that the same request finds again. -/
theorem reuse_blocks (s e : Nat) (bs : List Blk) (hn : NoAdj bs)
    (hf : ∀ b ∈ bs, b.size ≤ b.cap ∧ b.size < 4294967296)
    (hlast : scanBlocks s bs = none → ∀ q ∈ bs.getLast?, q.used = true) :
    ∃ pre x post, (mallocBlocks s e bs).1 = pre ++ x :: post ∧ x.used = true ∧
      x.addr = (mallocBlocks s e bs).2 ∧
      ∃ res, scanBlocks s (freeAt pre x post) = some res ∧ res.2 = x.addr := by
  unfold mallocBlocks
  rcases hq : scanBlocks s bs with _ | res
  · refine ⟨bs, { addr := e, cap := s, size := s, used := true }, [], rfl, rfl, rfl, ?_⟩
    have hk : freeAt bs { addr := e, cap := s, size := s, used := true } [] =
        bs ++ [{ addr := e, cap := s, size := s, used := false }] := by
      unfold freeAt
      simp only [mergeNext]
      refine mergePrev_keep _ _ _ ?_
      rintro ⟨p, q, e1, hq1, -⟩
      have := hlast hq q (by rw [e1]; simp)
      rw [this] at hq1
      exact absurd hq1 (by simp)
    rw [hk, scan_none_append s bs _ hq]
    refine ⟨_, by
      unfold scanBlocks
      rw [if_pos ⟨rfl, Or.inl rfl⟩]
      rfl, rfl⟩
  · obtain ⟨pre, b, post, e1, e2, e3, -, e5⟩ := scan_shape s bs res hq
    subst e1
    obtain ⟨k1, k2⟩ := noAdj_mid_free pre post b hn e2
    rcases e5 with ⟨h1, h2⟩ | ⟨h1, h2, h3⟩
    · refine ⟨pre, { b with used := true }, post, h2, rfl, e3.symm, res, ?_, e3⟩
      have hk : freeAt pre { b with used := true } post = pre ++ b :: post := by
        unfold freeAt
        have : ({ ({ b with used := true } : Blk) with used := false } : Blk) = b :=
          blk_free_eta b e2
        rw [this, mergeNext_keep b post k1]
        exact mergePrev_keep _ _ _ k2
      rw [hk]
      exact hq
    · have hb := hf b (by simp)
      refine ⟨pre, splitHead b s, (mergeNext (splitRest b s) post).1 ::
        (mergeNext (splitRest b s) post).2, h3, rfl, e3.symm, res, ?_, e3⟩
      have hk : freeAt pre (splitHead b s) ((mergeNext (splitRest b s) post).1 ::
          (mergeNext (splitRest b s) post).2) = pre ++ b :: post := by
        unfold freeAt
        rw [mergeNext_keep (splitRest b s) post k1]
        have hm : mergeNext { splitHead b s with used := false } (splitRest b s :: post) =
            (b, post) := by
          simp only [mergeNext]
          rw [if_pos ⟨rfl, rfl⟩]
          have : merge { splitHead b s with used := false } (splitRest b s) = b := by
            cases b with
            | mk a c z u =>
              simp only [merge, splitHead, splitRest, Blk.mk.injEq, true_and]
              simp only at hb h2 e2
              refine ⟨by omega, by omega, e2.symm⟩
          rw [this]
        rw [hm]
        exact mergePrev_keep _ _ _ k2
      rw [hk]
      exact hq

/-- C2, counterexample: from the empty heap, `x = malloc(8); free(x)` leaves a
well-formed heap holding one free block of 8 bytes.  Then `p = malloc(16)`
extends the heap and returns 4152, `free(p)` merges the block into the free
block before it, and `q = malloc(16)` splits the merged block and returns
4120: `q` differs from `p`. -/
theorem reuse_fails :
    ((malloc (emptyHeap (fun _ => 0) 4096 1099511627776) 8).bind (fun r0 =>
      (free r0.1 r0.2).bind (fun h1 =>
        (malloc h1 16).bind (fun r1 =>
          (free r1.1 r1.2).bind (fun h2 =>
            (malloc h2 16).map (fun r2 => (r0.2, r1.2, r2.2, r2.1.sbrkFailed))))))) =
      some (4120, 4152, 4120, false) := by
  with_unfolding_all rfl

/-- C2, amended: in a state that represents a block sequence without adjacent
free blocks, let `s < 2 ^ 31` be such that some free block serves the request
or else the last block of the heap is not free.  Then `p = malloc(s)` returns,
and unless a heap extension was refused, `free(p)` returns and the next
`malloc(s)` returns `p` again. -/
theorem reuse_same (h : Heap) (bs : List Blk) (s : Nat) (hr : Rep h bs) (hn : NoAdj bs)
    (hs : s < 2147483648)
    (hlast : scanBlocks s bs = none → ∀ q ∈ bs.getLast?, q.used = true) :
    ∃ h1 p, malloc h s = some (h1, p) ∧
      (h1.sbrkFailed = false →
        ∃ h2 h3, free h1 p = some h2 ∧ malloc h2 s = some (h3, p)) := by
  obtain ⟨h1, p, e, c1, c2⟩ := malloc_spec h bs s hr hs
  refine ⟨h1, p, e, fun hf => ?_⟩
  have c : scanBlocks s bs ≠ none ∨ h.brk + 24 + s ≤ h.limit := by
    by_contra hc
    have c3 : scanBlocks s bs = none := by
      by_contra hc2
      exact hc (Or.inl hc2)
    have := c2 c3 (fun hc2 => hc (Or.inr hc2))
    rw [this] at hf
    exact absurd hf (by simp)
  obtain ⟨r1, hp, -⟩ := c1 c
  have hfld : ∀ b ∈ bs, b.size ≤ b.cap ∧ b.size < 4294967296 := by
    intro b hb
    have hb0 : b.addr ≠ 0 := by
      have := (tiles_bounds _ _ _ hr.tiles b hb).1
      have := hr.start_pos
      omega
    have f := hr.fields b hb hb0
    exact ⟨f.2.1, by rw [← f.1]; exact rd_size_lt _ _⟩
  obtain ⟨pre, x, post, q1, q2, q3, res, q4, q5⟩ := reuse_blocks s h.brk bs hn hfld hlast
  rw [q1] at r1
  obtain ⟨h2, e2, r2, -⟩ := free_spec h1 pre post x r1 q2
  have hpx : p = x.addr + 24 := by rw [hp, q3]
  obtain ⟨h3, q, e3, d1, -⟩ := malloc_spec h2 _ s r2 hs
  obtain ⟨-, dq, -⟩ := d1 (Or.inl (by rw [q4]; simp))
  refine ⟨h2, h3, by rw [hpx]; exact e2, ?_⟩
  rw [e3, dq]
  unfold mallocBlocks
  rw [q4]
  simp only [q5, hpx]

theorem reuse_same_witness :
    Rep (emptyHeap (fun _ => 0) 4096 1099511627776) [] ∧ NoAdj [] ∧ 16 < 2147483648 ∧
    (scanBlocks 16 [] = none → ∀ q ∈ ([] : List Blk).getLast?, q.used = true) ∧
    (∃ h1 p, malloc (emptyHeap (fun _ => 0) 4096 1099511627776) 16 = some (h1, p) ∧
      (h1.sbrkFailed = false →
        ∃ h2 h3, free h1 p = some h2 ∧ malloc h2 16 = some (h3, p))) ∧
    ((malloc (emptyHeap (fun _ => 0) 4096 1099511627776) 16).bind (fun r1 =>
      (free r1.1 r1.2).bind (fun h2 =>
        (malloc h2 16).map (fun r2 => (r1.2, r2.2, r1.1.sbrkFailed))))) =
      some (4120, 4120, false) :=
  ⟨rep_empty _ _ _ (by decide) (by decide) (by decide), trivial, by decide,
    fun _ q hq => by simp at hq,
    reuse_same _ [] 16 (rep_empty _ _ _ (by decide) (by decide) (by decide)) trivial
      (by decide) (fun _ q hq => by simp at hq),
    by with_unfolding_all rfl⟩

/-! ## Adjacent free blocks after a shrinking realloc -/

/-- C3, evaluation at the failing input: after `a = malloc(100); c =
malloc(50); free(c); realloc(a, 8)` from the empty heap, the free list holds
the remainder of `a` at 4128 with size 68 and the block of `c` at 4220, and
`4128 + 24 + 68 = 4220`: two free blocks are physically adjacent.  The shrink
path of `realloc` links the remainder without coalescing it; the call that
would do so is commented out at lines 389-391. -/
theorem shrink_leaves_adjacent_free :
    (run legal (Sys.start (fun _ => 0) 4096 1099511627776)
      [Op.malloc 100, Op.malloc 50, Op.free 4244, Op.realloc 4120 8]).obs
      (fun s => (s.live, freeList s.heap, heapBlocks s.heap, rd_size s.heap.mem 4128,
        rd_isUsed s.heap.mem 4128, 4128 + 24 + rd_size s.heap.mem 4128,
        rd_isUsed s.heap.mem 4220)) =
      some ([4120], some [4128, 4220], some [4096, 4128, 4220], 68, 0, 4220, 0) := by
  with_unfolding_all rfl

/-! ## Failure of the heap extension, and the product in calloc -/

/-- C9, evaluation at the failing input: after `malloc(16)` the break is at
4136 and the limit of the break at 4170; no block is free.  `malloc(32)` has
`sbrk(24)` granted and stores a header (size 32, used) at 4136, then
`sbrk(32)` is refused: `malloc` returns `(void *) -1`, which is not null, the
header stays written, the break has moved to 4160, and the walk of the heap
steps from the new header over the break. -/
theorem malloc_ignores_sbrk_failure :
    (run legal (Sys.start (fun _ => 0) 4096 4170) [Op.malloc 16]).obs
      (fun s => (s.heap.brk, s.heap.sbrkFailed, freeList s.heap, heapBlocks s.heap,
        rd_size s.heap.mem 4136, rd_isUsed s.heap.mem 4136,
        (malloc s.heap 32).map (fun r => (r.2, r.1.sbrkFailed, r.1.brk,
          rd_size r.1.mem 4136, rd_isUsed r.1.mem 4136, freeList r.1, heapBlocks r.1)))) =
      some (4136, false, some [], some [4096], 0, 0,
        some (18446744073709551615, true, 4160, 32, 1, some [], none)) := by
  with_unfolding_all rfl

/-- C10, evaluation at the failing input: `calloc(2 ^ 63 + 1, 2)`, whose
product `2 ^ 64 + 2` does not fit `size_t`, returns the non-null pointer 4120
to a block of 2 bytes, the wrapped-around count. -/
theorem calloc_wraps :
    (calloc (emptyHeap (fun _ => 0) 4096 1099511627776) 9223372036854775809 2).map
      (fun r => (r.2, rd_size r.1.mem (r.2 - 24), rd_isUsed r.1.mem (r.2 - 24),
        r.1.sbrkFailed, r.1.brk)) =
      some (4120, 2, 1, false, 4122) := by
  with_unfolding_all rfl

/-! ## realloc shrinks a block in place -/

theorem realloc_scan_spec (h : Heap) (nb e : Nat) (he : e ≤ 9223372036854775808) :
    ∀ (U rest : List Blk) (cur k : Nat), Tiles cur (U ++ rest) e →
      (∀ u ∈ U, rd_isUsed h.mem u.addr = 1 ∧ rd_size h.mem u.addr = u.cap) →
      (∀ y r, rest = y :: r → rd_isUsed h.mem y.addr = 0) → U.length < k →
      (rest = [] → realloc_scan h nb e k cur = some (h, false)) ∧
      (∀ y r, rest = y :: r →
        realloc_scan h nb e k cur = some (link_before h nb y.addr, true)) := by
  intro U
  induction U with
  | nil =>
    intro rest cur k ht _ hy hk
    rcases k with _ | k
    · simp at hk
    constructor
    · intro e0
      subst e0
      have : cur = e := ht
      unfold realloc_scan
      rw [if_neg (by omega)]
    · intro y r e0
      subst e0
      have ht2 : Tiles cur (y :: r) e := ht
      obtain ⟨h1, h2⟩ := ht2
      have := tiles_le _ _ _ h2
      have h3 := hy y r rfl
      rw [h1] at h3
      unfold realloc_scan
      rw [if_pos (by omega), if_pos h3, h1]
  | cons u U ih =>
    intro rest cur k ht hu hy hk
    rcases k with _ | k
    · simp at hk
    have ht2 : Tiles cur (u :: (U ++ rest)) e := ht
    obtain ⟨h1, h2⟩ := ht2
    have h3 := tiles_le _ _ _ h2
    have hu1 := hu u (by simp)
    rw [h1] at hu1
    have hstep : realloc_scan h nb e (k + 1) cur =
        realloc_scan h nb e k (cur + 24 + u.cap) := by
      conv_lhs => unfold realloc_scan
      rw [if_pos (by omega), if_neg (by rw [hu1.1]; omega), hu1.2]
      have e1 : (cur + HDR + u.cap) % W64 = cur + 24 + u.cap := by
        simp only [HDR, W64]
        exact Nat.mod_eq_of_lt (by omega)
      rw [e1]
    rw [hstep]
    exact ih rest _ k h2 (fun x hx => hu x (List.mem_cons_of_mem _ hx)) hy (by simpa using hk)

theorem used_prefix (post : List Blk) :
    ∃ U rest, post = U ++ rest ∧ (∀ u ∈ U, u.used = true) ∧
      (rest = [] ∨ ∃ y r, rest = y :: r ∧ y.used = false) ∧ frees post = frees rest := by
  induction post with
  | nil => exact ⟨[], [], rfl, by simp, Or.inl rfl, rfl⟩
  | cons b r ih =>
    by_cases hb : b.used = true
    · obtain ⟨U, rest, e1, e2, e3, e4⟩ := ih
      refine ⟨b :: U, rest, by rw [e1]; rfl, ?_, e3, ?_⟩
      · intro u hu
        rcases List.mem_cons.1 hu with e | hu
        · rw [e]
          exact hb
        · exact e2 u hu
      · rw [frees_cons, if_pos hb, e4]
    · exact ⟨[], b :: r, rfl, by simp, Or.inr ⟨b, r, rfl, by simpa using hb⟩, rfl⟩

/-- The header of the remainder is written (lines 346-350). -/
theorem rep_carve (h : Heap) (pre post : List Blk) (b : Blk) (n : Nat)
    (hr : RepX h (pre ++ b :: post) 0) (hb : b.used = true) (hn : n + 24 ≤ b.size) :
    PreRep (realloc_carve h b.addr n) (pre ++ shrinkAt b n post)
      (frees pre ++ frees post) b.addr ∧
    rd_next_free (realloc_carve h b.addr n).mem (b.addr + 24 + n) = 0 ∧
    rd_prev_free (realloc_carve h b.addr n).mem (b.addr + 24 + n) = 0 ∧
    (∀ z, (z < b.addr + 24 + n ∨ b.addr + 24 + n + 24 ≤ z) →
      (realloc_carve h b.addr n).mem z = h.mem z) ∧
    SameOS h (realloc_carve h b.addr n) := by
  have hpos := hr.start_pos
  have hsp := tiles_split _ _ _ _ _ hr.tiles
  have hb0 : b.addr ≠ 0 := by omega
  have hfb := hr.fields b (by simp) hb0
  have hlt := rd_size_lt h.mem b.addr
  rw [hfb.1] at hlt
  have hcap := hfb.2.1
  have hlim := hr.limit_le
  have hbl := hr.brk_le
  have hfr := frees_mid_used pre post b hb
  have hd := hr.dll
  rw [hfr] at hd
  have en : (b.addr + HDR + n) % W64 = b.addr + 24 + n := by
    simp only [HDR, W64]
    exact Nat.mod_eq_of_lt (by omega)
  have ev : ((b.size + W64 - n) % W64 + W64 - HDR) % W64 = b.size - n - 24 := by
    simp only [HDR, W64]
    omega
  have e1 : rd_size (wr_isUsed h.mem (b.addr + 24 + n) 0) b.addr = b.size := by
    simp (disch := omega) only [hdr_rw, hfb.1]
  have e : realloc_carve h b.addr n = { h with
      mem := wr_prev_free (wr_next_free (wr_size (wr_isUsed h.mem (b.addr + 24 + n) 0)
        (b.addr + 24 + n) (b.size - n - 24)) (b.addr + 24 + n) 0) (b.addr + 24 + n) 0 } := by
    simp only [realloc_carve, en, e1, ev]
  rw [e]
  have htm : Tiles (heapStart h) (pre ++ splitHead b n :: splitRest b n :: post) h.brk := by
    have ht := hr.tiles
    rw [tiles_append_cons] at ht ⊢
    refine ⟨ht.1, rfl, ?_⟩
    have e : b.addr + 24 + n + 24 + (b.cap - n - 24) = b.addr + 24 + b.cap := by omega
    show Tiles (b.addr + 24 + n + 24 + (b.cap - n - 24)) post h.brk
    rw [e]
    exact ht.2
  have hm : ∀ z, (z < b.addr + 24 + n ∨ b.addr + 24 + n + 24 ≤ z) →
      (wr_prev_free (wr_next_free (wr_size (wr_isUsed h.mem (b.addr + 24 + n) 0)
        (b.addr + 24 + n) (b.size - n - 24)) (b.addr + 24 + n) 0) (b.addr + 24 + n) 0) z =
        h.mem z := by
    intro z hz
    simp (disch := omega) only [out_rw]
  have hfbp := tiles_frees_bounds _ _ _ ((tiles_append_cons _ _ _ _ _).1 hr.tiles).1
  have hfbq := tiles_frees_bounds _ _ _ ((tiles_append_cons _ _ _ _ _).1 hr.tiles).2
  refine ⟨⟨hr.start_pos, htm, hr.brk_le, hr.limit_le, ?_, ?_⟩, ?_, ?_, hm, ⟨rfl, rfl, rfl, rfl⟩⟩
  · intro x hx hxb
    by_cases e : x.addr = b.addr + 24 + n
    · have := same_addr_eq _ _ _ htm x (splitRest b n) hx (by simp) e
      subst this
      refine ⟨?_, ?_, ?_, fun hu => absurd hu (by simp [splitRest])⟩
      · show rd_size _ (b.addr + 24 + n) = b.size - n - 24
        simp (disch := omega) only [hdr_rw]
        exact Nat.mod_eq_of_lt (by omega)
      · show b.size - n - 24 ≤ b.cap - n - 24
        omega
      · show rd_isUsed _ (b.addr + 24 + n) = 0
        simp (disch := omega) only [hdr_rw]
    · have hx2 : x ∈ pre ++ b :: post := by
        simp only [shrinkAt, List.mem_append, List.mem_cons] at hx ⊢
        rcases hx with hx | rfl | rfl | hx
        · exact Or.inl hx
        · exact absurd rfl hxb
        · exact absurd rfl e
        · exact Or.inr (Or.inr hx)
      have hx0 : x.addr ≠ 0 := by
        have := (tiles_bounds _ _ _ hr.tiles x hx2).1
        omega
      exact fields_wr_other h.mem _ _ _ _ (b.addr + 24 + n) htm
        ⟨splitRest b n, by simp, rfl⟩ hm x hx e (hr.fields x hx2 hx0)
  · refine dll_of_bytes h _ _ (b.addr + 24 + n) hd ?_ hm rfl rfl
    intro a ha
    simp only [List.mem_append] at ha
    unfold Apart
    rcases ha with ha | ha
    · have := hfbp a ha; omega
    · have := hfbq a ha; omega
  · show rd_next_free _ (b.addr + 24 + n) = 0
    simp (disch := omega) only [hdr_rw]
  · show rd_prev_free _ (b.addr + 24 + n) = 0
    simp (disch := omega) only [hdr_rw]

/-- The remainder is linked into the free list (lines 352-388). -/
theorem rep_link (h : Heap) (pre post : List Blk) (hd nbk : Blk)
    (hr : PreRep h (pre ++ hd :: nbk :: post) (frees pre ++ frees post) hd.addr)
    (hf : nbk.used = false) (hxn : nbk.size = nbk.cap) (hxp : Exact post)
    (hnx : rd_next_free h.mem nbk.addr = 0) (hpv : rd_prev_free h.mem nbk.addr = 0) :
    ∃ h2, realloc_link h nbk.addr = some h2 ∧
      PreRep h2 (pre ++ hd :: nbk :: post) (frees pre ++ nbk.addr :: frees post) hd.addr ∧
      (∀ z, hd.addr ≤ z → z < hd.addr + 24 → h2.mem z = h.mem z) ∧ SameOS h h2 := by
  have hpos := hr.start_pos
  have hlim := hr.limit_le
  have hbl := hr.brk_le
  have ht := hr.tiles
  have ht1 := (tiles_append_cons _ _ _ _ _).1 ht
  have ht2 : Tiles (heapStart h) ((pre ++ [hd]) ++ nbk :: post) h.brk := by
    rw [List.append_assoc]
    exact ht
  have ht3 := (tiles_append_cons _ _ _ _ _).1 ht2
  have hsp := tiles_split _ _ _ _ _ ht
  have hsp2 := tiles_split _ _ _ _ _ ht2
  have hnb : nbk.addr = hd.addr + 24 + hd.cap := ht1.2.1
  have hfbp := tiles_frees_bounds _ _ _ ht1.1
  have hfbq := tiles_frees_bounds _ _ _ ht3.2
  have hfn := hr.fields nbk (by simp) (by omega)
  have hd0 := hr.dll
  have hT : ∀ t ∈ frees pre ++ nbk.addr :: frees post,
      ∃ x ∈ pre ++ hd :: nbk :: post, x.addr = t ∧ (x.used = false ∨ x.addr = hd.addr) := by
    intro t ht
    simp only [List.mem_append, List.mem_cons] at ht
    rcases ht with ht | rfl | ht
    · obtain ⟨x, hx, h3, h4⟩ := (mem_frees _ _).1 ht
      exact ⟨x, by simp [hx], h4, Or.inl h3⟩
    · exact ⟨nbk, by simp, rfl, Or.inl hf⟩
    · obtain ⟨x, hx, h3, h4⟩ := (mem_frees _ _).1 ht
      exact ⟨x, by simp [hx], h4, Or.inl h3⟩
  have hoff : ∀ z, hd.addr ≤ z → z < hd.addr + 24 →
      Off z (frees pre ++ nbk.addr :: frees post) := by
    intro z hz1 hz2 a ha
    simp only [List.mem_append, List.mem_cons] at ha
    rcases ha with ha | rfl | ha
    · obtain ⟨x, hx, -, h4⟩ := (mem_frees _ _).1 ha
      have := hsp.1 x hx
      omega
    · omega
    · have := hfbq a ha
      omega
  by_cases hL : frees pre ++ frees post = []
  · have e1 : frees pre = [] := (List.append_eq_nil.1 hL).1
    have e2 : frees post = [] := (List.append_eq_nil.1 hL).2
    have hh : h.head_free = 0 := by
      rw [hd0.head, hL]
      rfl
    refine ⟨{ h with head_free := nbk.addr, tail_free := nbk.addr }, by
      unfold realloc_link
      rw [if_pos hh], ?_, fun _ _ _ => rfl, ⟨rfl, rfl, rfl, rfl⟩⟩
    rw [e1, e2]
    refine ⟨hr.start_pos, hr.tiles, hr.brk_le, hr.limit_le, hr.fields, ?_⟩
    refine ⟨rfl, rfl, ⟨hpv, hnx, trivial⟩, ?_, ?_⟩
    · simp [Asc]
    · intro a ha
      simp only [List.nil_append, List.mem_singleton] at ha
      subst ha
      omega
  · have hh : h.head_free ≠ 0 := by
      rw [hd0.head]
      have := headOr_mem _ 0 hL
      have := (hd0.pos _ this).1
      omega
    obtain ⟨U, rest, p1, p2, p3, p4⟩ := used_prefix post
    have hcur : (nbk.addr + HDR + rd_size h.mem nbk.addr) % W64 = nbk.addr + 24 + nbk.cap := by
      rw [hfn.1, hxn]
      simp only [HDR, W64]
      exact Nat.mod_eq_of_lt (by omega)
    have hsb : (sbrk h 0).2 = h.brk := by
      unfold sbrk
      rw [if_pos (by omega)]
    have htp : Tiles (nbk.addr + 24 + nbk.cap) (U ++ rest) h.brk := by
      rw [← p1]
      exact ht3.2
    have hlen : U.length < fuel h := by
      have := tiles_length _ _ _ htp
      rw [List.length_append] at this
      unfold fuel
      omega
    have hfU : ∀ u ∈ U, rd_isUsed h.mem u.addr = 1 ∧ rd_size h.mem u.addr = u.cap := by
      intro u hu
      have hup : u ∈ post := by rw [p1]; simp [hu]
      have := hsp2.2.1 u hup
      have f := hr.fields u (by simp [hup]) (by omega)
      exact ⟨by rw [f.2.2.1, if_pos (p2 u hu)], by rw [f.1, hxp u hup]⟩
    have hfy : ∀ y r, rest = y :: r → rd_isUsed h.mem y.addr = 0 := by
      intro y r e
      rcases p3 with e0 | ⟨y2, r2, e3, e4⟩
      · rw [e0] at e
        exact absurd e (by simp)
      · rw [e] at e3
        injection e3 with e5 e6
        subst e5
        have hyp : y ∈ post := by rw [p1, e]; simp
        have := hsp2.2.1 y hyp
        have f := hr.fields y (by simp [hyp]) (by omega)
        rw [f.2.2.1, e4]
        rfl
    obtain ⟨s1, s2⟩ := realloc_scan_spec h nbk.addr h.brk (by omega) U rest _ _ htp hfU hfy hlen
    rcases hq : rest with _ | ⟨y, r⟩
    · -- appended after the tail
      have e2 : frees post = [] := by rw [p4, hq]; rfl
      rw [e2, List.append_nil] at hL hd0
      obtain ⟨L0, z, hz⟩ : ∃ L0 z, frees pre = L0 ++ [z] := by
        rcases eq_nil_or_snoc (frees pre) with e | e
        · exact absurd e hL
        · exact e
      rw [hz] at hd0
      obtain ⟨d2, ls⟩ := link_last_spec _ L0 z nbk.addr hd0
        (fun x hx => by have := hfbp x (by rw [hz]; exact hx); omega) hnx (by omega)
      have hT2 : ∀ t ∈ L0 ++ [z] ++ [nbk.addr],
          ∃ x ∈ pre ++ hd :: nbk :: post, x.addr = t ∧ (x.used = false ∨ x.addr = hd.addr) := by
        intro t ht
        exact hT t (by rw [e2, hz]; simpa using ht)
      have h2 := prerep_linkstep _ _ _ _ _ _ _ _ hr ls.toX hT2 (by simp) d2
      refine ⟨link_last h nbk.addr, by
        unfold realloc_link
        rw [if_neg hh, hsb, hcur, s1 hq]
        rfl, ?_, ?_, ⟨ls.brk_eq, ls.limit_eq, ls.start_eq,
          ls.failed_eq⟩⟩
      · rw [e2, hz]
        exact h2
      · intro z1 hz1 hz2
        refine ls.bytes_eq z1 ?_
        have := hoff z1 hz1 hz2
        rw [e2, hz] at this
        exact this
    · -- linked before the first free block behind it
      have e2 : frees post = y.addr :: frees r := by
        rw [p4, hq, frees_cons]
        rcases p3 with e0 | ⟨y2, r2, e3, e4⟩
        · rw [e0] at hq
          exact absurd hq (by simp)
        · rw [hq] at e3
          injection e3 with e5 e6
          subst e5
          rw [e4]
          rfl
      have hy := hfbq y.addr (by rw [e2]; simp)
      rw [e2] at hd0
      obtain ⟨d2, ls⟩ := link_before_spec _ (frees pre) (frees r) nbk.addr y.addr hd0
        (fun x hx => by have := hfbp x hx; omega) (by omega) (by omega)
      have hT2 : ∀ t ∈ frees pre ++ nbk.addr :: y.addr :: frees r,
          ∃ x ∈ pre ++ hd :: nbk :: post, x.addr = t ∧ (x.used = false ∨ x.addr = hd.addr) := by
        intro t ht
        exact hT t (by rw [e2]; exact ht)
      have h2 := prerep_linkstep _ _ _ _ _ _ _ _ hr ls.toX hT2 (by simp) d2
      refine ⟨link_before h nbk.addr y.addr, by
        unfold realloc_link
        rw [if_neg hh, hsb, hcur, s2 y r hq]
        rfl, ?_, ?_, ⟨ls.brk_eq, ls.limit_eq, ls.start_eq,
          ls.failed_eq⟩⟩
      · rw [e2]
        exact h2
      · intro z1 hz1 hz2
        refine ls.bytes_eq z1 ?_
        have := hoff z1 hz1 hz2
        rw [e2] at this
        exact this

/-- The shrink in place of `realloc` (lines 346-396) on the block sequence. -/
theorem rep_shrink (h : Heap) (pre post : List Blk) (b : Blk) (n : Nat)
    (hr : RepX h (pre ++ b :: post) 0) (hb : b.used = true) (hx : Exact (b :: post))
    (hn : n + 24 ≤ b.size) :
    ∃ h2, realloc_shrink h b.addr n = some h2 ∧ RepX h2 (pre ++ shrinkAt b n post) 0 ∧
      SameOS h h2 := by
  have hpos := hr.start_pos
  have hsp := tiles_split _ _ _ _ _ hr.tiles
  have hb0 : b.addr ≠ 0 := by omega
  have hfb := hr.fields b (by simp) hb0
  have hlt := rd_size_lt h.mem b.addr
  rw [hfb.1] at hlt
  have hlim := hr.limit_le
  have hbl := hr.brk_le
  rw [exact_cons] at hx
  have en : (b.addr + HDR + n) % W64 = b.addr + 24 + n := by
    simp only [HDR, W64]
    exact Nat.mod_eq_of_lt (by omega)
  obtain ⟨c1, c2, c3, c4, c5⟩ := rep_carve h pre post b n hr hb hn
  obtain ⟨h2, l1, l2, l3, l4⟩ := rep_link (realloc_carve h b.addr n) pre post
    (splitHead b n) (splitRest b n) c1 rfl (by
      show b.size - n - 24 = b.cap - n - 24
      rw [hx.1]) hx.2 c2 c3
  have l1b : realloc_link (realloc_carve h b.addr n) (b.addr + 24 + n) = some h2 := l1
  refine ⟨{ h2 with mem := wr_size h2.mem b.addr n }, by
    unfold realloc_shrink
    rw [en, l1b], ?_, sameOS_trans _ _ _ c5 l4⟩
  have hfm : frees (pre ++ shrinkAt b n post) = frees pre ++ (b.addr + 24 + n) :: frees post := by
    unfold shrinkAt
    rw [frees_append, frees_cons, frees_cons]
    rfl
  have hbytes : ∀ z, b.addr ≤ z → z < b.addr + 24 → h2.mem z = h.mem z := by
    intro z hz1 hz2
    rw [l3 z hz1 hz2]
    exact c4 z (by omega)
  have hl := links_of_bytes h.mem h2.mem b.addr hbytes
  have hs := su_of_bytes h.mem h2.mem b.addr hbytes
  have hm : ∀ z, (z < b.addr ∨ b.addr + 24 ≤ z) → wr_size h2.mem b.addr n z = h2.mem z :=
    fun z hz => wr_size_out _ _ _ _ hz
  have hfbp := tiles_frees_bounds _ _ _ ((tiles_append_cons _ _ _ _ _).1 hr.tiles).1
  have hfbq := tiles_frees_bounds _ _ _ ((tiles_append_cons _ _ _ _ _).1 hr.tiles).2
  unfold RepX
  rw [hfm]
  refine ⟨l2.start_pos, l2.tiles, l2.brk_le, l2.limit_le, ?_, ?_⟩
  · intro x hx2 _
    by_cases e : x.addr = b.addr
    · have := same_addr_eq _ _ _ l2.tiles x (splitHead b n) hx2 (by simp [shrinkAt]) e
      subst this
      refine ⟨?_, Nat.le_refl _, ?_, fun _ => ⟨?_, ?_⟩⟩
      · show rd_size (wr_size h2.mem b.addr n) b.addr = n
        simp (disch := omega) only [hdr_rw]
        exact Nat.mod_eq_of_lt (by omega)
      · show rd_isUsed (wr_size h2.mem b.addr n) b.addr = 1
        simp (disch := omega) only [hdr_rw, hs.2, hfb.2.2.1, hb, if_true]
      · show rd_next_free (wr_size h2.mem b.addr n) b.addr = 0
        simp (disch := omega) only [hdr_rw, hl.1, (hfb.2.2.2 hb).1]
      · show rd_prev_free (wr_size h2.mem b.addr n) b.addr = 0
        simp (disch := omega) only [hdr_rw, hl.2, (hfb.2.2.2 hb).2]
    · exact fields_wr_other h2.mem _ _ _ _ b.addr l2.tiles
        ⟨splitHead b n, by simp [shrinkAt], rfl⟩ hm x hx2 e (l2.fields x hx2 e)
  · refine dll_of_bytes h2 _ _ b.addr l2.dll ?_ hm rfl rfl
    intro a ha
    simp only [List.mem_append, List.mem_cons] at ha
    unfold Apart
    rcases ha with ha | rfl | ha
    · have := hfbp a ha; omega
    · omega
    · have := hfbq a ha; omega

/-! ## realloc: the shrink in place -/

theorem rep_one (m : Mem) (base limit s : Nat) (hb : 0 < base) (hok : base + 24 + s ≤ limit)
    (hl2 : limit ≤ 9223372036854775808) (hs : s < 4294967296) :
    Rep (oneBlock m base limit s) [{ addr := base, cap := s, size := s, used := true }] := by
  have hst : heapStart (oneBlock m base limit s) = base := by
    unfold heapStart oneBlock
    rw [if_neg]
    show ¬ base = 0
    omega
  refine ⟨by rw [hst]; exact hb, by rw [hst]; exact ⟨rfl, rfl⟩, hok, hl2, ?_,
    ⟨rfl, rfl, trivial, ?_, ?_⟩⟩
  · intro b hb _
    simp only [List.mem_singleton] at hb
    subst hb
    refine ⟨?_, Nat.le_refl _, ?_, fun _ => ⟨?_, ?_⟩⟩
    · show rd_size (wr_prev_free (wr_next_free (wr_isUsed (wr_size m base s) base 1) base 0)
        base 0) base = s
      simp (disch := omega) only [hdr_rw]
      exact Nat.mod_eq_of_lt hs
    · show rd_isUsed (wr_prev_free (wr_next_free (wr_isUsed (wr_size m base s) base 1) base 0)
        base 0) base = 1
      simp (disch := omega) only [hdr_rw]
    · show rd_next_free (wr_prev_free (wr_next_free (wr_isUsed (wr_size m base s) base 1)
        base 0) base 0) base = 0
      simp (disch := omega) only [hdr_rw]
    · show rd_prev_free (wr_prev_free (wr_next_free (wr_isUsed (wr_size m base s) base 1)
        base 0) base 0) base = 0
      simp (disch := omega) only [hdr_rw]
  · simp [Asc, frees]
  · intro a ha
    simp [frees] at ha

/-- C8: in a state that represents a block sequence with exact sizes, let `p`
be an allocated pointer whose header holds the size `old`, and let `0 < n`
with `old ≥ n + 24`.  Then `realloc(p, n)` returns `p`; afterwards the header
of `p` holds the size `n` and is still marked used, and the free list is the
previous one with one more entry, the header at `p + n`, which is marked free
and holds the size `old - n - 24`; the list is in ascending address order. -/
theorem realloc_shrinks_in_place (h : Heap) (bs : List Blk) (p n : Nat) (hr : Rep h bs)
    (hx : Exact bs) (hp : p ∈ useds bs) (hn0 : 0 < n)
    (hn : n + 24 ≤ rd_size h.mem (p - 24)) :
    ∃ h2 L1 L2, realloc h p n = some (h2, p) ∧
      rd_size h2.mem (p - 24) = n ∧ rd_isUsed h2.mem (p - 24) = 1 ∧
      freeList h = some (L1 ++ L2) ∧ freeList h2 = some (L1 ++ (p + n) :: L2) ∧
      (L1 ++ (p + n) :: L2).Pairwise (fun x y => x < y) ∧
      rd_size h2.mem (p + n) = rd_size h.mem (p - 24) - n - 24 ∧
      rd_isUsed h2.mem (p + n) = 0 := by
  obtain ⟨b, hb, hbu, hbp⟩ := (mem_useds bs p).1 hp
  obtain ⟨pre, post, e⟩ := List.append_of_mem hb
  subst e
  subst hbp
  have hpos := hr.start_pos
  have hsp := tiles_split _ _ _ _ _ hr.tiles
  have hlim := hr.limit_le
  have hbl := hr.brk_le
  have hb0 : b.addr ≠ 0 := by omega
  have hfb := hr.fields b (by simp) hb0
  have hlt := rd_size_lt h.mem b.addr
  have e1 : b.addr + 24 - 24 = b.addr := by omega
  rw [e1] at hn ⊢
  rw [hfb.1] at hn hlt ⊢
  rw [exact_append] at hx
  obtain ⟨h2, q1, q2, q3⟩ := rep_shrink h pre post b n hr hbu hx.2 hn
  have em : (b.addr + 24 + W64 - HDR) % W64 = b.addr := by
    simp only [HDR, W64]
    omega
  have es : (n + HDR) % W64 = n + 24 := by
    simp only [HDR, W64]
    omega
  have hre : realloc h (b.addr + 24) n = some (h2, b.addr + 24) := by
    unfold realloc
    rw [if_neg (by omega), if_neg (by omega)]
    simp only [em, es, hfb.1]
    rw [if_neg (by omega), if_pos (by omega), q1]
  have hfm : frees (pre ++ shrinkAt b n post) = frees pre ++ (b.addr + 24 + n) :: frees post := by
    unfold shrinkAt
    rw [frees_append, frees_cons, frees_cons]
    rfl
  have f1 := q2.fields (splitHead b n) (by simp [shrinkAt]) hb0
  have f2 := q2.fields (splitRest b n) (by simp [shrinkAt]) (by
    show b.addr + 24 + n ≠ 0
    omega)
  have ha := q2.dll.asc
  rw [hfm] at ha
  refine ⟨h2, frees pre, frees post, hre, f1.1, ?_, ?_, ?_, asc_sorted _ ha, f2.1, ?_⟩
  · exact f1.2.2.1
  · rw [freeList_rep _ _ _ hr, frees_mid_used _ _ _ hbu]
  · rw [freeList_rep _ _ _ q2, hfm]
  · exact f2.2.2.1

theorem realloc_shrinks_in_place_witness :
    Rep (oneBlock (fun _ => 0) 4096 1099511627776 100)
      [{ addr := 4096, cap := 100, size := 100, used := true }] ∧
    Exact [{ addr := 4096, cap := 100, size := 100, used := true }] ∧
    4120 ∈ useds [{ addr := 4096, cap := 100, size := 100, used := true }] ∧ 0 < 8 ∧
    8 + 24 ≤ rd_size (oneBlock (fun _ => 0) 4096 1099511627776 100).mem (4120 - 24) ∧
    (∃ h2 L1 L2, realloc (oneBlock (fun _ => 0) 4096 1099511627776 100) 4120 8 =
        some (h2, 4120) ∧
      rd_size h2.mem (4120 - 24) = 8 ∧ rd_isUsed h2.mem (4120 - 24) = 1 ∧
      freeList (oneBlock (fun _ => 0) 4096 1099511627776 100) = some (L1 ++ L2) ∧
      freeList h2 = some (L1 ++ (4120 + 8) :: L2) ∧
      (L1 ++ (4120 + 8) :: L2).Pairwise (fun x y => x < y) ∧
      rd_size h2.mem (4120 + 8) =
        rd_size (oneBlock (fun _ => 0) 4096 1099511627776 100).mem (4120 - 24) - 8 - 24 ∧
      rd_isUsed h2.mem (4120 + 8) = 0) ∧
    malloc (emptyHeap (fun _ => 0) 4096 1099511627776) 100 =
      some (oneBlock (fun _ => 0) 4096 1099511627776 100, 4120) ∧
    (realloc (oneBlock (fun _ => 0) 4096 1099511627776 100) 4120 8).map
      (fun r => (r.2, rd_size r.1.mem 4096, freeList r.1, rd_size r.1.mem 4128)) =
      some (4120, 8, some [4128], 68) :=
  ⟨rep_one _ _ _ _ (by decide) (by decide) (by decide) (by decide),
    fun b hb => by
      simp only [List.mem_singleton] at hb
      subst hb
      rfl,
    by simp [useds], by decide,
    le_of_le_of_eq (show 8 + 24 ≤ 100 by decide) (by with_unfolding_all rfl),
    realloc_shrinks_in_place _ _ 4120 8
      (rep_one _ _ _ _ (by decide) (by decide) (by decide) (by decide))
      (fun b hb => by
        simp only [List.mem_singleton] at hb
        subst hb
        rfl)
      (by simp [useds]) (by decide)
      (le_of_le_of_eq (show 8 + 24 ≤ 100 by decide) (by with_unfolding_all rfl)),
    by with_unfolding_all rfl, by with_unfolding_all rfl⟩

/-! ## realloc moves a block -/

theorem tiles_useds_ge (a e : Nat) (bs : List Blk) (h : Tiles a bs e) :
    ∀ x ∈ useds bs, a + 24 ≤ x := by
  intro x hx
  obtain ⟨b, hb, -, h2⟩ := (mem_useds bs x).1 hx
  have := (tiles_bounds _ _ _ h b hb).1
  omega

theorem tiles_useds_nodup (a e : Nat) (bs : List Blk) (h : Tiles a bs e) :
    (useds bs).Nodup := by
  induction bs generalizing a with
  | nil => simp [useds]
  | cons b r ih =>
    obtain ⟨h1, h2⟩ := h
    rw [useds_cons]
    split
    · rw [List.nodup_cons]
      refine ⟨fun hc => ?_, ih _ h2⟩
      have := tiles_useds_ge _ _ _ h2 _ hc
      omega
    · exact ih _ h2

theorem mem_mergeNext_used (x b : Blk) (post : List Blk) (hb : b ∈ post) (hu : b.used = true) :
    b ∈ (mergeNext x post).2 := by
  rcases post with _ | ⟨p, r⟩
  · exact hb
  · simp only [mergeNext]
    split
    · rename_i c
      rcases List.mem_cons.1 hb with e | hb
      · rw [e, c.1] at hu
        exact absurd hu (by simp)
      · exact hb
    · exact hb

theorem malloc_keeps_used (n e : Nat) (bs : List Blk) (b : Blk) (hb : b ∈ bs)
    (hu : b.used = true) : b ∈ (mallocBlocks n e bs).1 := by
  unfold mallocBlocks
  rcases hq : scanBlocks n bs with _ | res
  · show b ∈ bs ++ [_]
    simp [hb]
  · obtain ⟨pre, f, post, e1, e2, e3, -, e5⟩ := scan_shape n bs res hq
    subst e1
    have hb2 : b ∈ pre ∨ b ∈ post := by
      simp only [List.mem_append, List.mem_cons] at hb
      rcases hb with hb | hb | hb
      · exact Or.inl hb
      · rw [hb, e2] at hu
        exact absurd hu (by simp)
      · exact Or.inr hb
    rcases e5 with ⟨h1, h2⟩ | ⟨h1, h2, h3⟩
    · show b ∈ res.1
      rw [h2]
      simp only [List.mem_append, List.mem_cons]
      rcases hb2 with hb | hb
      · exact Or.inl hb
      · exact Or.inr (Or.inr hb)
    · show b ∈ res.1
      rw [h3]
      unfold splitAt
      simp only [List.mem_append, List.mem_cons]
      rcases hb2 with hb | hb
      · exact Or.inl hb
      · exact Or.inr (Or.inr (Or.inr (mem_mergeNext_used _ _ _ hb hu)))

/-- A state keeps representing its block sequence when bytes outside the
headers change. -/
theorem rep_of_bytes (h h2 : Heap) (bs : List Blk) (k : Nat) (hr : RepX h bs k)
    (hm : ∀ b ∈ bs, ∀ z, b.addr ≤ z → z < b.addr + 24 → h2.mem z = h.mem z)
    (e1 : h2.head_free = h.head_free) (e2 : h2.tail_free = h.tail_free)
    (e3 : h2.startOfHeap = h.startOfHeap) (e4 : h2.brk = h.brk) (e5 : h2.limit = h.limit) :
    RepX h2 bs k := by
  have hs : heapStart h2 = heapStart h := by
    unfold heapStart
    rw [e3, e4]
  refine ⟨by rw [hs]; exact hr.start_pos, by rw [hs, e4]; exact hr.tiles,
    by rw [e4, e5]; exact hr.brk_le, by rw [e5]; exact hr.limit_le, ?_, ?_⟩
  · intro b hb hbk
    exact fields_of_bytes h.mem h2.mem b (hm b hb) (hr.fields b hb hbk)
  · refine ⟨by rw [e1]; exact hr.dll.head, by rw [e2]; exact hr.dll.tail, ?_, hr.dll.asc,
      hr.dll.pos⟩
    refine seg_congr h.mem h2.mem _ _ _ ?_ hr.dll.seg
    intro a ha
    obtain ⟨b, hb, -, h4⟩ := (mem_frees _ _).1 ha
    subst h4
    exact links_of_bytes h.mem h2.mem b.addr (hm b hb)

theorem dll_frame (h h2 : Heap) (L : List Nat) (hd : DLL h L)
    (hm : ∀ a ∈ L, ∀ z, a ≤ z → z < a + 24 → h2.mem z = h.mem z)
    (e1 : h2.head_free = h.head_free) (e2 : h2.tail_free = h.tail_free) : DLL h2 L :=
  ⟨by rw [e1]; exact hd.head, by rw [e2]; exact hd.tail,
    seg_congr h.mem h2.mem _ _ _ (fun a ha => links_of_bytes h.mem h2.mem a (hm a ha)) hd.seg,
    hd.asc, hd.pos⟩

/-- The call `free` returns whenever the free list is well linked around the
header freed. -/
theorem free_returns (h : Heap) (L1 L2 : List Nat) (meta : Nat) (hd : DLL h (L1 ++ L2))
    (h1 : ∀ a ∈ L1, a + 24 ≤ meta) (h2 : ∀ y ∈ L2, meta + 24 ≤ y ∧ y < 9223372036854775808)
    (hm : meta + 24 ≤ 9223372036854775808) (hk : L1.length < h.brk + 1) :
    ∃ h3, free h (meta + 24) = some h3 ∧ h3.sbrkFailed = h.sbrkFailed := by
  have em : (meta + 24 + W64 - HDR) % W64 = meta := by
    simp only [HDR, W64]
    omega
  unfold free free_meta
  simp only [em]
  by_cases hh : h.head_free = 0
  · rw [if_pos hh]
    exact ⟨_, rfl, rfl⟩
  · rw [if_neg hh]
    have hsep : SepAll meta (L1 ++ L2) := by
      intro x hx
      simp only [List.mem_append] at hx
      rcases hx with hx | hx
      · have := h1 x hx
        omega
      · have := h2 x hx
        omega
    have hd0 := dll_wr_isUsed h _ meta 0 hd hsep
    have hsc := free_scan_spec { h with mem := wr_isUsed h.mem meta 0 } meta (by omega)
      L1 L2 0 (fuel { h with mem := wr_isUsed h.mem meta 0 }) hd0.seg
      (fun a ha => by
        have := h1 a ha
        have := (hd.pos a (by simp [ha])).1
        omega)
      (fun y hy => by
        have := h2 y hy
        omega) hk
    have hhead : h.head_free = headOr (L1 ++ L2) 0 := hd.head
    rw [← hhead] at hsc
    have hsc2 : free_scan { h with mem := wr_isUsed h.mem meta 0 } meta
        (fuel { h with mem := wr_isUsed h.mem meta 0 })
        ({ h with mem := wr_isUsed h.mem meta 0 } : Heap).head_free = _ := hsc
    rw [hsc2]
    refine ⟨_, rfl, ?_⟩
    have q := free_finish_sameOS
      (if headOr L2 0 = 0 then ({ h with mem := wr_isUsed h.mem meta 0 }, false)
        else (link_before { h with mem := wr_isUsed h.mem meta 0 } meta (headOr L2 0), true)).1
      meta
      (if headOr L2 0 = 0 then ({ h with mem := wr_isUsed h.mem meta 0 }, false)
        else (link_before { h with mem := wr_isUsed h.mem meta 0 } meta (headOr L2 0), true)).2
    rw [q.2.2.2]
    by_cases c : headOr L2 0 = 0
    · simp only [c, if_true]
      rfl
    · simp only [c, if_false, if_true]
      exact (link_before_sameOS _ _ _).2.2.2

/-! ## realloc on the block sequence -/

theorem malloc_extend_frame (h : Heap) (n : Nat) (hb : h.brk ≤ 9223372036854775808) :
    (malloc_extend h n).1.head_free = h.head_free ∧
    (malloc_extend h n).1.tail_free = h.tail_free ∧
    (∀ z, z < h.brk → (malloc_extend h n).1.mem z = h.mem z) ∧
    h.brk ≤ (malloc_extend h n).2 ∧ h.brk ≤ (malloc_extend h n).1.brk := by
  by_cases h1 : h.brk + 24 ≤ h.limit
  · by_cases h2 : h.brk + 24 + n ≤ h.limit
    · rw [malloc_extend_ok h n h2]
      refine ⟨rfl, rfl, fun z hz => ?_, by show h.brk ≤ h.brk + 24; omega,
        by show h.brk ≤ h.brk + 24 + n; omega⟩
      show wr_prev_free _ _ _ z = _
      simp (disch := omega) only [out_rw]
    · have e : malloc_extend h n = ({ h with
          mem := wr_prev_free (wr_next_free (wr_isUsed (wr_size h.mem h.brk n) h.brk 1)
            h.brk 0) h.brk 0
          brk := h.brk + 24
          sbrkFailed := true }, W64 - 1) := by
        simp [malloc_extend, sbrk, HDR, h1, h2]
      rw [e]
      refine ⟨rfl, rfl, fun z hz => ?_, by show h.brk ≤ W64 - 1; simp only [W64]; omega,
        by show h.brk ≤ h.brk + 24; omega⟩
      show wr_prev_free _ _ _ z = _
      simp (disch := omega) only [out_rw]
  · by_cases h2 : h.brk + n ≤ h.limit
    · have e : malloc_extend h n = ({ h with
          mem := wr_prev_free (wr_next_free (wr_isUsed (wr_size h.mem (W64 - 1) n) (W64 - 1) 1)
            (W64 - 1) 0) (W64 - 1) 0
          brk := h.brk + n
          sbrkFailed := true }, h.brk) := by
        simp [malloc_extend, sbrk, HDR, h1, h2]
      rw [e]
      refine ⟨rfl, rfl, fun z hz => ?_, Nat.le_refl _, by show h.brk ≤ h.brk + n; omega⟩
      show wr_prev_free _ _ _ z = _
      have : z < W64 - 1 := by simp only [W64]; omega
      simp (disch := omega) only [out_rw]
    · have e : malloc_extend h n = ({ h with
          mem := wr_prev_free (wr_next_free (wr_isUsed (wr_size h.mem (W64 - 1) n) (W64 - 1) 1)
            (W64 - 1) 0) (W64 - 1) 0
          sbrkFailed := true }, W64 - 1) := by
        simp [malloc_extend, sbrk, HDR, h1, h2]
      rw [e]
      refine ⟨rfl, rfl, fun z hz => ?_, by show h.brk ≤ W64 - 1; simp only [W64]; omega,
        Nat.le_refl _⟩
      show wr_prev_free _ _ _ z = _
      have : z < W64 - 1 := by simp only [W64]; omega
      simp (disch := omega) only [out_rw]

theorem malloc_init_links (h : Heap) :
    (malloc_init h).head_free = h.head_free ∧ (malloc_init h).tail_free = h.tail_free := by
  unfold malloc_init
  split
  · unfold sbrk
    split <;> exact ⟨rfl, rfl⟩
  · exact ⟨rfl, rfl⟩

/-- The call `malloc` with a refused heap extension: it returns, and the free
list and the bytes below the break are as before. -/
theorem malloc_refused (h : Heap) (bs : List Blk) (n : Nat) (hr : RepX h bs 0)
    (hn : n < 2147483648) (hq : scanBlocks n bs = none)
    (hno : ¬ h.brk + 24 + n ≤ h.limit) :
    ∃ h1 q, malloc h n = some (h1, q) ∧ h1.sbrkFailed = true ∧
      h1.head_free = h.head_free ∧ h1.tail_free = h.tail_free ∧
      (∀ z, z < h.brk → h1.mem z = h.mem z) ∧ h.brk ≤ q ∧ h.brk ≤ h1.brk := by
  obtain ⟨r0, hst, hbrk, hlim, hfl, hmem, hsh⟩ := rep_init h bs hr
  have hk := frees_length_lt _ _ _ r0
  obtain ⟨i1, -⟩ := malloc_scan_spec (malloc_init h) n hn bs [] (fuel (malloc_init h))
    (by simpa using r0) hk
  have hhead : (malloc_init h).head_free = headOr (frees bs) 0 := r0.dll.head
  have hbl := hr.brk_le
  have hll := hr.limit_le
  obtain ⟨f1, f2, f3, f4, f5⟩ := malloc_extend_frame (malloc_init h) n (by rw [hbrk]; omega)
  have hl := malloc_init_links h
  refine ⟨(malloc_extend (malloc_init h) n).1, (malloc_extend (malloc_init h) n).2, ?_,
    malloc_extend_failed _ _ (by rw [hbrk, hlim]; exact hno), by rw [f1, hl.1],
    by rw [f2, hl.2], fun z hz => by rw [f3 z (by rw [hbrk]; exact hz), hmem],
    by rw [← hbrk]; exact f4, by rw [← hbrk]; exact f5⟩
  unfold malloc
  rw [hhead, i1 hq]

theorem realloc_eq_move (h : Heap) (a n : Nat) (ha : a + 24 ≤ 9223372036854775808)
    (hn0 : n ≠ 0) (hn : n < 2147483648) (hlt : rd_size h.mem a < n) :
    realloc h (a + 24) n =
      match malloc h n with
      | none => none
      | some r =>
        match free { r.1 with mem := memcpy r.1.mem r.2 (a + 24) (rd_size r.1.mem a) }
            (a + 24) with
        | none => none
        | some h3 => some (h3, r.2) := by
  have em : (a + 24 + W64 - HDR) % W64 = a := by
    simp only [HDR, W64]
    omega
  have es : (n + HDR) % W64 = n + 24 := by
    simp only [HDR, W64]
    omega
  unfold realloc
  rw [if_neg (by omega), if_neg hn0]
  simp only [em, es]
  rw [if_neg (by omega)]
  exact if_neg (show ¬ rd_size h.mem a ≥ n + 24 by omega)

/-- The moving `realloc` to a larger size, no heap extension refused. -/
theorem realloc_move_ok (h : Heap) (pre post : List Blk) (b : Blk) (n : Nat)
    (hr : RepX h (pre ++ b :: post) 0) (hb : b.used = true) (hn : n < 2147483648)
    (hlt : b.size < n)
    (hc : scanBlocks n (pre ++ b :: post) ≠ none ∨ h.brk + 24 + n ≤ h.limit) :
    ∃ h3 pre1 post1,
      realloc h (b.addr + 24) n = some (h3, (mallocBlocks n h.brk (pre ++ b :: post)).2 + 24) ∧
      (mallocBlocks n h.brk (pre ++ b :: post)).1 = pre1 ++ b :: post1 ∧
      RepX h3 (freeAt pre1 b post1) 0 ∧ h3.sbrkFailed = h.sbrkFailed ∧
      h3.limit = h.limit ∧ heapStart h3 = heapStart h ∧
      Tiles (heapStart h) (pre1 ++ b :: post1) h3.brk := by
  have hpos := hr.start_pos
  have hsp := tiles_split _ _ _ _ _ hr.tiles
  have hlim := hr.limit_le
  have hbl := hr.brk_le
  have hb0 : b.addr ≠ 0 := by omega
  have hfb := hr.fields b (by simp) hb0
  obtain ⟨h1, q, e, c1, -⟩ := malloc_spec h _ n hr hn
  obtain ⟨r1, hq, k1, k2, k3, k4, k5⟩ := c1 hc
  obtain ⟨A, x, B, q1, q2, q3, q4, -, -⟩ := malloc_blocks_spec n h.brk (pre ++ b :: post)
  have hbm := malloc_keeps_used n h.brk (pre ++ b :: post) b (by simp) hb
  obtain ⟨pre1, post1, eb⟩ := List.append_of_mem hbm
  have hs1 : heapStart h1 = heapStart h := by
    unfold heapStart
    rw [if_neg k3, k4]
    rfl
  have hpos1 := r1.start_pos
  have hx : x ∈ (mallocBlocks n h.brk (pre ++ b :: post)).1 := by rw [q1]; simp
  have hx0 : x.addr ≠ 0 := by
    have := (tiles_bounds _ _ _ r1.tiles x hx).1
    omega
  have hfx := r1.fields x hx hx0
  have hfb1 := r1.fields b hbm hb0
  have ht1 := r1.tiles
  rw [q1] at ht1
  have hspx := tiles_split _ _ _ _ _ ht1
  have hre := realloc_eq_move h b.addr n (by omega) (by omega) hn (by rw [hfb.1]; exact hlt)
  rw [e] at hre
  simp only [hfb1.1] at hre
  -- the copy stays inside the payload of the new block
  have r2 : RepX { h1 with mem := memcpy h1.mem q (b.addr + 24) b.size }
      (mallocBlocks n h.brk (pre ++ b :: post)).1 0 := by
    refine rep_of_bytes h1 _ _ 0 r1 ?_ rfl rfl rfl rfl rfl
    intro y hy z hz1 hz2
    refine memcpy_out _ _ _ _ _ ?_
    rw [hq, ← q2]
    have hy2 := hy
    rw [q1] at hy2
    simp only [List.mem_append, List.mem_cons] at hy2
    have hxc := hfx.2.1
    rcases hy2 with hy2 | hy2 | hy2
    · have := hspx.1 y hy2
      omega
    · subst hy2
      omega
    · have := hspx.2.1 y hy2
      omega
  rw [eb] at r2
  obtain ⟨h3, e3, r3, so⟩ := free_spec _ pre1 post1 b r2 hb
  rw [e3] at hre
  refine ⟨h3, pre1, post1, by rw [hre, hq], eb, r3, by rw [so.2.2.2]; exact k1,
    by rw [so.2.1]; exact k2, ?_, ?_⟩
  · rw [heapStart_sameOS _ _ so]
    exact hs1
  · have := r2.tiles
    rw [so.1]
    have hs2 : heapStart { h1 with mem := memcpy h1.mem q (b.addr + 24) b.size } =
        heapStart h := hs1
    rw [hs2] at this
    exact this

/-- The moving `realloc` with a refused heap extension returns. -/
theorem realloc_move_refused (h : Heap) (pre post : List Blk) (b : Blk) (n : Nat)
    (hr : RepX h (pre ++ b :: post) 0) (hb : b.used = true) (hn : n < 2147483648)
    (hlt : b.size < n)
    (hc : ¬ (scanBlocks n (pre ++ b :: post) ≠ none ∨ h.brk + 24 + n ≤ h.limit)) :
    ∃ h3 q, realloc h (b.addr + 24) n = some (h3, q) ∧ h3.sbrkFailed = true := by
  have hpos := hr.start_pos
  have hsp := tiles_split _ _ _ _ _ hr.tiles
  have hlim := hr.limit_le
  have hbl := hr.brk_le
  have hb0 : b.addr ≠ 0 := by omega
  have hfb := hr.fields b (by simp) hb0
  have hq : scanBlocks n (pre ++ b :: post) = none := by
    by_contra hc2
    exact hc (Or.inl hc2)
  obtain ⟨h1, q, e, f0, f1, f2, f3, f4, f5⟩ := malloc_refused h _ n hr hn hq
    (fun hc2 => hc (Or.inr hc2))
  have hre := realloc_eq_move h b.addr n (by omega) (by omega) hn (by rw [hfb.1]; exact hlt)
  rw [e] at hre
  have hd := hr.dll
  rw [frees_mid_used pre post b hb] at hd
  have hfbp := tiles_frees_bounds _ _ _ ((tiles_append_cons _ _ _ _ _).1 hr.tiles).1
  have hfbq := tiles_frees_bounds _ _ _ ((tiles_append_cons _ _ _ _ _).1 hr.tiles).2
  have hd2 : DLL { h1 with mem := memcpy h1.mem q (b.addr + 24) (rd_size h1.mem b.addr) }
      (frees pre ++ frees post) := by
    refine dll_frame h _ _ hd ?_ f1 f2
    intro a ha z hz1 hz2
    have hab : a + 24 ≤ h.brk := by
      simp only [List.mem_append] at ha
      rcases ha with ha | ha
      · have := hfbp a ha
        omega
      · have := hfbq a ha
        omega
    show memcpy h1.mem q (b.addr + 24) (rd_size h1.mem b.addr) z = h.mem z
    rw [memcpy_out _ _ _ _ _ (by omega)]
    exact f3 z (by omega)
  have hk : (frees pre).length <
      ({ h1 with mem := memcpy h1.mem q (b.addr + 24) (rd_size h1.mem b.addr) } : Heap).brk
        + 1 := by
    have h2 := frees_length_lt _ _ _ hr
    rw [frees_mid_used pre post b hb, List.length_append] at h2
    show (frees pre).length < h1.brk + 1
    omega
  obtain ⟨h3, e3, s3⟩ := free_returns _ (frees pre) (frees post) b.addr hd2
    (fun a ha => by have := hfbp a ha; omega)
    (fun y hy => by have := hfbq y hy; omega) (by omega) hk
  dsimp only at hre
  rw [e3] at hre
  exact ⟨h3, q, hre, by rw [s3]; exact f0⟩

/-! ## Runs with realloc keep the invariant -/

theorem step_realloc (s : Sys) (p n : Nat) (r : Heap × Nat)
    (h : realloc s.heap p n = some r) :
    step s (Op.realloc p n) =
      some { heap := r.1, live := if n = 0 then s.live.erase p else r.2 :: s.live.erase p } := by
  show Option.map _ (realloc s.heap p n) = _
  rw [h]
  rfl

theorem useds_shrinkAt (pre post : List Blk) (b : Blk) (n : Nat) :
    useds (pre ++ shrinkAt b n post) = useds pre ++ (b.addr + 24) :: useds post := by
  unfold shrinkAt
  rw [useds_append, useds_cons, useds_cons]
  simp [splitHead, splitRest]

theorem exact_shrinkAt (pre post : List Blk) (b : Blk) (n : Nat)
    (hx : Exact (pre ++ b :: post)) : Exact (pre ++ shrinkAt b n post) := by
  unfold shrinkAt
  rw [exact_append, exact_cons] at hx
  rw [exact_append, exact_cons, exact_cons]
  refine ⟨hx.1, rfl, ?_, hx.2.2⟩
  show b.size - n - 24 = b.cap - n - 24
  rw [hx.2.1]

theorem invR_realloc (s : Sys) (p n : Nat) (hm : p ∈ s.live) (hn : n < 2147483648)
    (hnm : ¬ (n ≠ 0 ∧ n < rd_size s.heap.mem (p - 24) ∧ rd_size s.heap.mem (p - 24) < n + 24))
    (hi : InvR s) :
    ∃ s2, step s (Op.realloc p n) = some s2 ∧ (s2.heap.sbrkFailed = false → InvR s2) := by
  obtain ⟨⟨hf, bs, hr, hp, hq⟩, hlimit⟩ := hi
  have hbl := hr.brk_le
  have hlim := hr.limit_le
  have hpos := hr.start_pos
  have hx : Exact bs := hq (by omega)
  obtain ⟨pre, b, post, e1, e2, e3⟩ := live_block s bs p hp hm
  subst e1
  subst e3
  have hsp := tiles_split _ _ _ _ _ hr.tiles
  have hb0 : b.addr ≠ 0 := by omega
  have hfb := hr.fields b (by simp) hb0
  have e0 : b.addr + 24 - 24 = b.addr := by omega
  rw [e0, hfb.1] at hnm
  have em : (b.addr + 24 + W64 - HDR) % W64 = b.addr := by
    simp only [HDR, W64]
    omega
  have es : (n + HDR) % W64 = n + 24 := by
    simp only [HDR, W64]
    omega
  have hpu := hp
  rw [useds_mid_used _ _ _ e2] at hpu
  by_cases hn0 : n = 0
  · -- the call is a call of free
    subst hn0
    obtain ⟨h2, e, r, so⟩ := free_spec s.heap pre post b hr e2
    have hre : realloc s.heap (b.addr + 24) 0 = some (h2, 0) := by
      unfold realloc
      rw [if_neg (by omega), if_pos rfl, e]
    refine ⟨_, step_realloc s _ _ _ hre, fun hf2 => ?_⟩
    have hs2 := heapStart_sameOS _ _ so
    refine ⟨⟨hf2, freeAt pre b post, r, ?_, fun _ => ?_⟩, ?_⟩
    · show (if 0 = 0 then s.live.erase (b.addr + 24)
        else 0 :: s.live.erase (b.addr + 24)).Perm _
      rw [if_pos rfl, useds_freeAt]
      exact perm_erase_mid _ _ _ _ hpu
    · exact exact_freeAt pre post b _ _ hr.tiles (by omega) hx
    · show h2.limit < heapStart h2 + 4294967296
      rw [hs2, so.2.1]
      exact hlimit
  · by_cases hsz : b.size = n
    · -- nothing to do
      have hre : realloc s.heap (b.addr + 24) n = some (s.heap, b.addr + 24) := by
        unfold realloc
        rw [if_neg (by omega), if_neg hn0]
        simp only [em]
        rw [if_pos (hfb.1.trans hsz)]
      refine ⟨_, step_realloc s _ _ _ hre, fun hf2 => ?_⟩
      refine ⟨⟨hf2, pre ++ b :: post, hr, ?_, fun _ => hx⟩, hlimit⟩
      show (if n = 0 then s.live.erase (b.addr + 24)
          else (b.addr + 24) :: s.live.erase (b.addr + 24)).Perm _
      rw [if_neg hn0]
      exact List.Perm.trans (List.perm_cons_erase hm).symm hp
    · by_cases hsh : n + 24 ≤ b.size
      · -- the shrink in place
        rw [exact_append] at hx
        obtain ⟨h2, q1, q2, q3⟩ := rep_shrink s.heap pre post b n hr e2 hx.2 hsh
        have hre : realloc s.heap (b.addr + 24) n = some (h2, b.addr + 24) := by
          unfold realloc
          rw [if_neg (by omega), if_neg hn0]
          simp only [em, es, hfb.1]
          rw [if_neg hsz, if_pos (by omega), q1]
        refine ⟨_, step_realloc s _ _ _ hre, fun hf2 => ?_⟩
        have hs2 := heapStart_sameOS _ _ q3
        refine ⟨⟨hf2, pre ++ shrinkAt b n post, q2, ?_, fun _ =>
          exact_shrinkAt pre post b n ((exact_append _ _).2 hx)⟩, ?_⟩
        · show (if n = 0 then s.live.erase (b.addr + 24)
          else (b.addr + 24) :: s.live.erase (b.addr + 24)).Perm _
          rw [if_neg hn0, useds_shrinkAt, ← useds_mid_used _ _ _ e2]
          exact List.Perm.trans (List.perm_cons_erase hm).symm hp
        · show h2.limit < heapStart h2 + 4294967296
          rw [hs2, q3.2.1]
          exact hlimit
      · -- the block moves to a larger one
        have hlt : b.size < n := by omega
        by_cases hc : scanBlocks n (pre ++ b :: post) ≠ none ∨
            s.heap.brk + 24 + n ≤ s.heap.limit
        · obtain ⟨h3, pre1, post1, m1, m2, m3, m4, m5, m6, m7⟩ :=
            realloc_move_ok s.heap pre post b n hr e2 hn hlt hc
          refine ⟨_, step_realloc s _ _ _ m1, fun hf2 => ?_⟩
          obtain ⟨A, x, B, q1, q2, q3, q4, q5, q6⟩ :=
            malloc_blocks_spec n s.heap.brk (pre ++ b :: post)
          have hbrk3 := m3.brk_le
          have ht1 : Tiles (heapStart s.heap) (mallocBlocks n s.heap.brk (pre ++ b :: post)).1
              h3.brk := by
            rw [m2]
            exact m7
          have hnd := tiles_useds_nodup _ _ _ ht1
          have hxe := exact_malloc (pre ++ b :: post) n _ _ hr.tiles (by omega) hx
          refine ⟨⟨hf2, freeAt pre1 b post1, m3, ?_, fun _ => ?_⟩, ?_⟩
          · show (if n = 0 then _ else
              ((mallocBlocks n s.heap.brk (pre ++ b :: post)).2 + 24) ::
                s.live.erase (b.addr + 24)).Perm _
            rw [if_neg hn0, useds_freeAt, ← q2]
            -- the used blocks after malloc, seen in two ways
            have k1 : useds (mallocBlocks n s.heap.brk (pre ++ b :: post)).1 =
                useds pre1 ++ (b.addr + 24) :: useds post1 := by
              rw [m2, useds_mid_used _ _ _ e2]
            have k2 : ((x.addr + 24) :: useds (pre ++ b :: post)).Perm
                (useds pre1 ++ (b.addr + 24) :: useds post1) := by
              rw [← k1, q5, q6]
              exact List.perm_middle.symm
            have hne : x.addr + 24 ≠ b.addr + 24 := by
              intro hc2
              rw [q5, List.nodup_append] at hnd
              have h1 := (List.nodup_cons.1 hnd.2.1).1
              have h2 := hnd.2.2
              have hb3 : b.addr + 24 ∈ useds A ++ useds B := by
                rw [← q6, useds_mid_used _ _ _ e2]
                simp
              rw [List.mem_append] at hb3
              rcases hb3 with hb3 | hb3
              · exact h2 hb3 (by rw [hc2]; simp)
              · exact h1 (by rw [hc2]; exact hb3)
            have k3 := perm_erase_mid _ _ _ _ k2
            rw [List.erase_cons_tail (by simpa using hne)] at k3
            refine List.Perm.trans (List.Perm.cons _ ?_) k3
            exact List.Perm.erase _ hp
          · rw [m2] at hxe ht1
            exact exact_freeAt pre1 post1 b _ _ ht1 (by omega) hxe
          · show h3.limit < heapStart h3 + 4294967296
            rw [m6, m5]
            exact hlimit
        · obtain ⟨h3, q, m1, m2⟩ := realloc_move_refused s.heap pre post b n hr e2 hn hlt hc
          refine ⟨_, step_realloc s _ _ _ m1, fun hf2 => ?_⟩
          have hf3 : h3.sbrkFailed = false := hf2
          rw [m2] at hf3
          exact absurd hf3 (by simp)

theorem invR_step (s : Sys) (op : Op) (hi : InvR s) (hg : legalNM s op = true) :
    ∃ s2, step s op = some s2 ∧ (s2.heap.sbrkFailed = false → InvR s2) := by
  have hbl : s.heap.brk ≤ s.heap.limit := by
    obtain ⟨⟨-, bs, hr, -, -⟩, -⟩ := hi
    exact hr.brk_le
  cases op with
  | malloc n =>
    obtain ⟨s2, e, h2⟩ := inv_malloc Exact
      (fun bs n a e _ _ ht he hq => exact_malloc bs n a e ht he hq) s n
      (by simpa [legalNM, legal, shrinkMove] using hg) hi.1
    refine ⟨s2, e, fun hf => ⟨(h2 hf).1, ?_⟩⟩
    rw [(h2 hf).2.1, (h2 hf).2.2]
    exact hi.2
  | free p =>
    obtain ⟨s2, e, h2⟩ := inv_free Exact
      (fun pre post b a e _ ht he _ hq => exact_freeAt pre post b a e ht he hq) s p
      (by simpa [legalNM, legal, shrinkMove] using hg) hi.1
    refine ⟨s2, e, fun hf => ⟨(h2 hf).1, ?_⟩⟩
    rw [(h2 hf).2.1, (h2 hf).2.2]
    exact hi.2
  | realloc p n =>
    simp only [legalNM, legal, shrinkMove, Bool.and_eq_true, decide_eq_true_eq,
      Bool.not_eq_true', decide_eq_false_iff_not] at hg
    exact invR_realloc s p n hg.1.1 hg.1.2 hg.2 hi

theorem invR_start (m : Mem) (base limit : Nat) (hb : 0 < base) (hl : base ≤ limit)
    (hl2 : limit ≤ 9223372036854775808) (hl3 : limit < base + 4294967296) :
    InvR (Sys.start m base limit) :=
  ⟨inv_start Exact (fun _ hb => by simp at hb) m base limit hb hl hl2, hl3⟩

/-! ## The walk over the heap -/

/-- C6, counterexample: on memory holding the byte 255 everywhere, two blocks
of `2 ^ 31 - 1` bytes are allocated and freed.  `coalesce` stores the size 22
in the header at 4096, so the walk steps from 4096 to 4142, where it reads a
size of `2 ^ 32 - 1` out of the payload and steps over the heap end
4294971438: the walk does not reach the heap end. -/
theorem heap_walk_overruns :
    (run legal (Sys.start (fun _ => 255) 4096 1099511627776)
      [Op.malloc 2147483647, Op.malloc 2147483647, Op.free 4120, Op.free 2147487791]).obs
      (fun s => (heapBlocks s.heap, s.heap.startOfHeap, s.heap.brk, rd_size s.heap.mem 4096,
        rd_size s.heap.mem 4142)) =
      some (none, 4096, 4294971438, 22, 4294967295) := by
  with_unfolding_all rfl

/-- C6, amended: after any run of `malloc`, `free` and `realloc` calls from
the empty heap under the conditions of `legalNM` (sizes below `2 ^ 31`, only
held pointers passed, no extension refused, no `realloc` to a size `n` with
`n < old < n + 24`), the break limited to less than `2 ^ 32` bytes above the
start of the heap, every call has returned and the walk from the start of the
heap by header size plus stored size reaches exactly the heap end; the
addresses it visits are the headers of the blocks held by the client and of
the blocks on the free list. -/
theorem heap_walk_exact (m : Mem) (base limit : Nat) (ops : List Op) (hb : 0 < base)
    (hl : base ≤ limit) (hl2 : limit ≤ 9223372036854775808)
    (hl3 : limit < base + 4294967296) :
    (run legalNM (Sys.start m base limit) ops).sat (fun s =>
      ∃ L F, heapBlocks s.heap = some L ∧ freeList s.heap = some F ∧
        ∀ a, a ∈ L ↔ (a + 24 ∈ s.live ∨ a ∈ F)) := by
  refine sat_mono InvR _ ?_ _
    (run_sat legalNM InvR invR_step ops _ (invR_start m base limit hb hl hl2 hl3))
  rintro s ⟨⟨-, bs, hr, hp, hq⟩, hlim⟩
  have hbl := hr.brk_le
  have hx : Exact bs := hq (by omega)
  refine ⟨bs.map (fun b => b.addr), frees bs, heapBlocks_rep _ _ hr hx,
    freeList_rep _ _ _ hr, fun a => ?_⟩
  rw [List.mem_map, List.Perm.mem_iff hp, mem_useds, mem_frees]
  constructor
  · rintro ⟨b, hb1, hb2⟩
    rcases hu : b.used with _ | _
    · exact Or.inr ⟨b, hb1, hu, hb2⟩
    · exact Or.inl ⟨b, hb1, hu, by rw [hb2]⟩
  · rintro (⟨b, hb1, -, hb2⟩ | ⟨b, hb1, -, hb2⟩)
    · exact ⟨b, hb1, by omega⟩
    · exact ⟨b, hb1, hb2⟩

theorem heap_walk_exact_witness :
    0 < 4096 ∧ 4096 ≤ 1048576 ∧ 1048576 ≤ 9223372036854775808 ∧
    1048576 < 4096 + 4294967296 ∧
    (run legalNM (Sys.start (fun _ => 0) 4096 1048576)
      [Op.malloc 100, Op.malloc 50, Op.free 4244, Op.realloc 4120 8,
        Op.realloc 4120 200]).sat (fun s =>
      ∃ L F, heapBlocks s.heap = some L ∧ freeList s.heap = some F ∧
        ∀ a, a ∈ L ↔ (a + 24 ∈ s.live ∨ a ∈ F)) ∧
    (run legalNM (Sys.start (fun _ => 0) 4096 1048576)
      [Op.malloc 100, Op.malloc 50, Op.free 4244, Op.realloc 4120 8,
        Op.realloc 4120 200]).obs
      (fun s => (s.live, heapBlocks s.heap, s.heap.brk, freeList s.heap)) =
      some ([4318], some [4096, 4220, 4294], 4518, some [4096, 4220]) :=
  ⟨by decide, by decide, by decide, by decide,
    heap_walk_exact (fun _ => 0) 4096 1048576 _ (by decide) (by decide) (by decide)
      (by decide),
    by with_unfolding_all rfl⟩

/-! ## The content of a block moved by realloc -/

/-- C7, evaluation at the failing input: from the empty heap, `f =
malloc(100); p = malloc(40); free(f)`; the client stores three words into the
payload of `p`, which starts with the word 72340172838076673; then `q =
realloc(p, 20)`.  The block moves to 4120 and `memcpy` copies the old size, 40
bytes, into the block of 20 bytes, over the header of the free remainder
behind it; the following `free(p)` walks the overwritten link and stores a
pointer into the payload of `q`.  The first 8 bytes of `q` then hold 4220, not
the first 8 bytes `p` held before the call. -/
theorem realloc_loses_content :
    ((malloc (emptyHeap (fun _ => 0) 4096 1099511627776) 100).bind (fun r0 =>
      (malloc r0.1 40).bind (fun r1 =>
        (free r1.1 r0.2).bind (fun h2 =>
          (realloc (clientStore (clientStore (clientStore h2 r1.2 8 72340172838076673)
              (r1.2 + 16) 8 4112) (r1.2 + 28) 8 4244) r1.2 20).map (fun r3 =>
            (r0.2, r1.2, rd_size h2.mem (r1.2 - 24), rd_isUsed h2.mem (r1.2 - 24),
              rd (clientStore (clientStore (clientStore h2 r1.2 8 72340172838076673)
                (r1.2 + 16) 8 4112) (r1.2 + 28) 8 4244).mem r1.2 8,
              r3.2, rd r3.1.mem r3.2 8, r3.1.sbrkFailed)))))) =
      some (4120, 4244, 40, 1, 72340172838076673, 4120, 4220, false) := by
  with_unfolding_all rfl

/-! ## free of a null pointer, the length of the copy in realloc, the exact-fit-plus-header case -/

/-- C13, evaluation at the failing input: after `f = malloc(100); p =
malloc(40); free(f)` the client stores the word 2864434397 at `p + 20`.  A
plain `malloc(20)` in this state returns 4120 and leaves the header of the
free remainder at 4140 with size 56.  `realloc(p, 20)` takes the copy-and-move
branch (40 < 20 + 24), returns the same 4120, and copies 40 bytes, not
min(40, 20) = 20: the size field of the header at 4140, which physically
follows the new block, then holds the client's word 2864434397. -/
theorem realloc_copies_old_size :
    (run legal (Sys.start (fun _ => 0) 4096 1099511627776)
      [Op.malloc 100, Op.malloc 40, Op.free 4120]).obs
      (fun s => ((malloc s.heap 20).map (fun r => (r.2, rd_size r.1.mem 4140)),
        (realloc (clientStore s.heap (4244 + 20) 4 2864434397) 4244 20).map
          (fun r => (r.2, rd_size r.1.mem 4140, rd_size r.1.mem 4096)))) =
      some (some (4120, 56), some (4120, 2864434397, 20)) := by
  with_unfolding_all rfl

/-- C14, evaluation at the failing input: after `a = malloc(40); free(a)` the
first free block with size at least 16 is the block at 4096, of size
40 = 16 + 24.  `malloc(16)` neither takes it whole (40 - 16 is not below 24)
nor splits it (40 is not above 16 + 24): it extends the heap from 4160 to
4200 and returns 4184, and the block at 4096 stays free with size 40. -/
theorem malloc_skips_exact_header_fit :
    (run legal (Sys.start (fun _ => 0) 4096 1099511627776)
      [Op.malloc 40, Op.free 4120]).obs
      (fun s => (s.heap.brk, freeList s.heap, rd_size s.heap.mem 4096,
        (malloc s.heap 16).map (fun r => (r.2, r.1.brk, freeList r.1, rd_size r.1.mem 4096,
          rd_isUsed r.1.mem 4096)))) =
      some (4160, some [4096], 40, some (4184, 4200, some [4096], 40, 0)) := by
  with_unfolding_all rfl

/-! ## The links of the free list -/

theorem dll_links (h : Heap) (L : List Nat) (hd : DLL h L) :
    (h.head_free = 0 ↔ h.tail_free = 0) ∧
    (h.head_free ≠ 0 → rd_prev_free h.mem h.head_free = 0) ∧
    (h.tail_free ≠ 0 → rd_next_free h.mem h.tail_free = 0) ∧
    (∀ n ∈ L, rd_next_free h.mem n ≠ 0 →
      rd_prev_free h.mem (rd_next_free h.mem n) = n) := by
  have hnode : ∀ n ∈ L, rd_next_free h.mem n ≠ 0 →
      rd_prev_free h.mem (rd_next_free h.mem n) = n := by
    intro n hn hne
    obtain ⟨L1, L2, e⟩ := List.append_of_mem hn
    subst e
    obtain ⟨-, -, -, h4⟩ := dll_mid h L1 L2 n hd
    rcases L2 with _ | ⟨y, L3⟩
    · rw [h4] at hne
      exact absurd rfl hne
    · rw [h4, headOr_cons]
      have hd2 : DLL h ((L1 ++ [n]) ++ y :: L3) := by
        rw [List.append_assoc]
        exact hd
      obtain ⟨-, -, h5, -⟩ := dll_mid h (L1 ++ [n]) L3 y hd2
      rw [h5, lastOr_append_cons]
      rfl
  rcases L with _ | ⟨c, L2⟩
  · have e1 : h.head_free = 0 := hd.head
    have e2 : h.tail_free = 0 := hd.tail
    exact ⟨by rw [e1, e2], fun hc => absurd e1 hc, fun hc => absurd e2 hc, hnode⟩
  · have e1 : h.head_free = c := hd.head
    have hc := (hd.pos c (by simp)).1
    have e2 : h.tail_free = lastOr (c :: L2) 0 := hd.tail
    have ht := (hd.pos _ (lastOr_mem (c :: L2) 0 (by simp))).1
    have hp : rd_prev_free h.mem c = 0 := (dll_mid h [] L2 c hd).2.2.1
    obtain ⟨L0, z, ez⟩ : ∃ L0 z, c :: L2 = L0 ++ [z] := by
      rcases eq_nil_or_snoc (c :: L2) with e | e
      · exact absurd e (by simp)
      · exact e
    have hd3 : DLL h (L0 ++ z :: []) := by
      rw [← ez]
      exact hd
    have hz := dll_mid h L0 [] z hd3
    refine ⟨?_, fun _ => by rw [e1]; exact hp, fun _ => ?_, hnode⟩
    · constructor
      · intro h0
        omega
      · intro h0
        rw [← e2] at ht
        omega
    · rw [hz.2.1]
      exact hz.2.2.2

/-- C20: after any run of `malloc` and `free` calls from the empty heap under
the conditions of `legalMF`, every call has returned and the free list is
link-consistent: `head_free` is null exactly when `tail_free` is; the header
at `head_free` has a null `prev_free` and the header at `tail_free` a null
`next_free`; every node `n` of the list with a non-null `next_free` is the
`prev_free` of that next node; and the header of every block held by the
client is marked used and has both links null. -/
theorem free_list_links (m : Mem) (base limit : Nat) (ops : List Op) (hb : 0 < base)
    (hl : base ≤ limit) (hl2 : limit ≤ 9223372036854775808) :
    (run legalMF (Sys.start m base limit) ops).sat (fun s =>
      ∃ L, freeList s.heap = some L ∧
        (s.heap.head_free = 0 ↔ s.heap.tail_free = 0) ∧
        (s.heap.head_free ≠ 0 → rd_prev_free s.heap.mem s.heap.head_free = 0) ∧
        (s.heap.tail_free ≠ 0 → rd_next_free s.heap.mem s.heap.tail_free = 0) ∧
        (∀ n ∈ L, rd_next_free s.heap.mem n ≠ 0 →
          rd_prev_free s.heap.mem (rd_next_free s.heap.mem n) = n) ∧
        (∀ p ∈ s.live, rd_isUsed s.heap.mem (p - 24) = 1 ∧
          rd_next_free s.heap.mem (p - 24) = 0 ∧ rd_prev_free s.heap.mem (p - 24) = 0)) := by
  refine sat_mono (Inv (fun _ => True)) _ ?_ _
    (run_sat legalMF (Inv (fun _ => True))
      (fun s op hi hg => inv_mf _ (fun _ _ _ _ _ _ _ _ _ => trivial)
        (fun _ _ _ _ _ _ _ _ _ _ => trivial) s op hi hg) ops _
      (inv_start _ trivial m base limit hb hl hl2))
  rintro s ⟨-, bs, hr, hp, -⟩
  obtain ⟨k1, k2, k3, k4⟩ := dll_links s.heap (frees bs) hr.dll
  refine ⟨frees bs, freeList_rep _ _ _ hr, k1, k2, k3, k4, fun p hpl => ?_⟩
  obtain ⟨b, hb1, hb2, hb3⟩ := (mem_useds bs p).1 ((List.Perm.mem_iff hp).1 hpl)
  have hb0 : b.addr ≠ 0 := by
    have := (tiles_bounds _ _ _ hr.tiles b hb1).1
    have := hr.start_pos
    omega
  have f := hr.fields b hb1 hb0
  have e : p - 24 = b.addr := by omega
  rw [e]
  exact ⟨by rw [f.2.2.1, if_pos hb2], f.2.2.2 hb2⟩

theorem free_list_links_witness :
    0 < 4096 ∧ 4096 ≤ 1099511627776 ∧ 1099511627776 ≤ 9223372036854775808 ∧
    (run legalMF (Sys.start (fun _ => 0) 4096 1099511627776)
      [Op.malloc 16, Op.malloc 16, Op.malloc 16, Op.malloc 16, Op.malloc 16, Op.free 4200,
        Op.free 4120, Op.free 4280]).sat (fun s =>
      ∃ L, freeList s.heap = some L ∧
        (s.heap.head_free = 0 ↔ s.heap.tail_free = 0) ∧
        (s.heap.head_free ≠ 0 → rd_prev_free s.heap.mem s.heap.head_free = 0) ∧
        (s.heap.tail_free ≠ 0 → rd_next_free s.heap.mem s.heap.tail_free = 0) ∧
        (∀ n ∈ L, rd_next_free s.heap.mem n ≠ 0 →
          rd_prev_free s.heap.mem (rd_next_free s.heap.mem n) = n) ∧
        (∀ p ∈ s.live, rd_isUsed s.heap.mem (p - 24) = 1 ∧
          rd_next_free s.heap.mem (p - 24) = 0 ∧ rd_prev_free s.heap.mem (p - 24) = 0)) ∧
    (run legalMF (Sys.start (fun _ => 0) 4096 1099511627776)
      [Op.malloc 16, Op.malloc 16, Op.malloc 16, Op.malloc 16, Op.malloc 16, Op.free 4200,
        Op.free 4120, Op.free 4280]).obs
      (fun s => (s.live, freeList s.heap, s.heap.head_free, s.heap.tail_free,
        rd_next_free s.heap.mem 4096, rd_prev_free s.heap.mem 4176,
        rd_next_free s.heap.mem 4176, rd_prev_free s.heap.mem 4256)) =
      some ([4240, 4160], some [4096, 4176, 4256], 4096, 4256, 4176, 4096, 4256, 4176) :=
  ⟨by decide, by decide, by decide,
    free_list_links (fun _ => 0) 4096 1099511627776 _ (by decide) (by decide) (by decide),
    by with_unfolding_all rfl⟩

/-! ## The payloads of the allocated blocks -/

theorem tiles_sep (a e : Nat) (bs : List Blk) (h : Tiles a bs e) :
    ∀ x ∈ bs, ∀ y ∈ bs,
      x = y ∨ x.addr + 24 + x.cap ≤ y.addr ∨ y.addr + 24 + y.cap ≤ x.addr := by
  intro x hx y hy
  obtain ⟨pre, post, e1⟩ := List.append_of_mem hx
  subst e1
  have hsp := tiles_split _ _ _ _ _ h
  simp only [List.mem_append, List.mem_cons] at hy
  rcases hy with hy | hy | hy
  · exact Or.inr (Or.inr (hsp.1 y hy).2)
  · exact Or.inl hy.symm
  · exact Or.inr (Or.inl (hsp.2.1 y hy).1)

/-- C19, counterexample: on memory that holds the words 100 at 4120,
4294967180 at 4244 and 32 at 4294971448 (bytes that `malloc` never writes and
that a client may equally store into its blocks), blocks of `2 ^ 31 - 1`,
`2 ^ 31 - 23` and 64 bytes are allocated and the first two are freed.
`coalesce` stores the size 0 in the header at 4096, so the heap walk goes
4096, 4120, 4244, 4294971448 and ends at the heap end: the address 4294971448
it takes for a header lies inside the payload `[4294971440, 4294971504)` of
the block that is still allocated. -/
theorem heap_walk_enters_payload :
    (run legalMF
      (Sys.start (wr (wr (wr (fun _ => 0) 4120 4 100) 4244 4 4294967180) 4294971448 4 32)
        4096 1099511627776)
      [Op.malloc 2147483647, Op.malloc 2147483625, Op.malloc 64, Op.free 4120,
        Op.free 2147487791]).obs
      (fun s => (s.live, rd_size s.heap.mem (4294971440 - 24), s.heap.brk,
        heapBlocks s.heap, freeList s.heap, rd_size s.heap.mem 4096)) =
      some ([4294971440], 64, 4294971504, some [4096, 4120, 4244, 4294971448],
        some [4096], 0) := by
  with_unfolding_all rfl

/-- C19, amended: after any run of `malloc` and `free` calls from the empty
heap under the conditions of `legalMF`, every call has returned, and while the
heap is shorter than `2 ^ 32` bytes the payload ranges `[p, p + stored size)`
of the blocks held by the client lie inside the heap region, are pairwise
disjoint, and share no byte with the 24 bytes of a header visited by the heap
walk or by the walk of the free list; the heap walk reaches the heap end. -/
theorem payloads_disjoint (m : Mem) (base limit : Nat) (ops : List Op) (hb : 0 < base)
    (hl : base ≤ limit) (hl2 : limit ≤ 9223372036854775808) :
    (run legalMF (Sys.start m base limit) ops).sat (fun s =>
      s.heap.brk < s.heap.startOfHeap + 4294967296 →
      (∀ p ∈ s.live, s.heap.startOfHeap + 24 ≤ p ∧
        p + rd_size s.heap.mem (p - 24) ≤ s.heap.brk) ∧
      (∀ p ∈ s.live, ∀ q ∈ s.live, p ≠ q →
        p + rd_size s.heap.mem (p - 24) ≤ q ∨ q + rd_size s.heap.mem (q - 24) ≤ p) ∧
      ∃ L F, heapBlocks s.heap = some L ∧ freeList s.heap = some F ∧
        ∀ a, a ∈ L ∨ a ∈ F → ∀ p ∈ s.live,
          a + 24 ≤ p ∨ p + rd_size s.heap.mem (p - 24) ≤ a) := by
  refine sat_mono (Inv Exact) _ ?_ _
    (run_sat legalMF (Inv Exact)
      (fun s op hi hg => inv_mf _
        (fun bs n a e _ _ ht he hq => exact_malloc bs n a e ht he hq)
        (fun pre post b a e _ ht he _ hq => exact_freeAt pre post b a e ht he hq)
        s op hi hg) ops _
      (inv_start _ (fun _ hb => by simp at hb) m base limit hb hl hl2))
  rintro s ⟨-, bs, hr, hp, hq⟩ hsz
  have hge : s.heap.startOfHeap ≤ heapStart s.heap := by
    unfold heapStart
    split <;> omega
  have hx : Exact bs := hq (by omega)
  have hpos := hr.start_pos
  -- every pointer held is the payload address of a used block with exact size
  have hblk : ∀ p ∈ s.live, ∃ b ∈ bs, p = b.addr + 24 ∧ p - 24 = b.addr ∧
      rd_size s.heap.mem b.addr = b.cap := by
    intro p hpl
    obtain ⟨b, hb1, -, hb3⟩ := (mem_useds bs p).1 ((List.Perm.mem_iff hp).1 hpl)
    have hb0 : b.addr ≠ 0 := by
      have := (tiles_bounds _ _ _ hr.tiles b hb1).1
      omega
    have f := hr.fields b hb1 hb0
    exact ⟨b, hb1, hb3.symm, by omega, by rw [f.1, hx b hb1]⟩
  refine ⟨fun p hpl => ?_, fun p hpl q hql hne => ?_,
    bs.map (fun b => b.addr), frees bs, heapBlocks_rep _ _ hr hx, freeList_rep _ _ _ hr,
    fun a ha p hpl => ?_⟩
  · obtain ⟨b, hb1, e1, e2, e3⟩ := hblk p hpl
    have := tiles_bounds _ _ _ hr.tiles b hb1
    rw [e2, e3]
    omega
  · obtain ⟨b, hb1, e1, e2, e3⟩ := hblk p hpl
    obtain ⟨c, hc1, f1, f2, f3⟩ := hblk q hql
    rw [e2, e3, f2, f3]
    rcases tiles_sep _ _ _ hr.tiles b hb1 c hc1 with e | h1 | h1
    · exact absurd (by rw [e1, f1, e]) hne
    · omega
    · omega
  · obtain ⟨b, hb1, e1, e2, e3⟩ := hblk p hpl
    have hy : ∃ y ∈ bs, y.addr = a := by
      rcases ha with ha | ha
      · obtain ⟨y, hy1, hy2⟩ := List.mem_map.1 ha
        exact ⟨y, hy1, hy2⟩
      · obtain ⟨y, hy1, -, hy2⟩ := (mem_frees _ _).1 ha
        exact ⟨y, hy1, hy2⟩
    obtain ⟨y, hy1, hy2⟩ := hy
    rw [e2, e3]
    rcases tiles_sep _ _ _ hr.tiles y hy1 b hb1 with e | h1 | h1
    · rw [e] at hy2
      omega
    · omega
    · omega

theorem payloads_disjoint_witness :
    0 < 4096 ∧ 4096 ≤ 1099511627776 ∧ 1099511627776 ≤ 9223372036854775808 ∧
    (run legalMF (Sys.start (fun _ => 0) 4096 1099511627776)
      [Op.malloc 16, Op.malloc 32, Op.malloc 8, Op.free 4160, Op.malloc 4]).sat (fun s =>
      s.heap.brk < s.heap.startOfHeap + 4294967296 →
      (∀ p ∈ s.live, s.heap.startOfHeap + 24 ≤ p ∧
        p + rd_size s.heap.mem (p - 24) ≤ s.heap.brk) ∧
      (∀ p ∈ s.live, ∀ q ∈ s.live, p ≠ q →
        p + rd_size s.heap.mem (p - 24) ≤ q ∨ q + rd_size s.heap.mem (q - 24) ≤ p) ∧
      ∃ L F, heapBlocks s.heap = some L ∧ freeList s.heap = some F ∧
        ∀ a, a ∈ L ∨ a ∈ F → ∀ p ∈ s.live,
          a + 24 ≤ p ∨ p + rd_size s.heap.mem (p - 24) ≤ a) ∧
    (run legalMF (Sys.start (fun _ => 0) 4096 1099511627776)
      [Op.malloc 16, Op.malloc 32, Op.malloc 8, Op.free 4160, Op.malloc 4]).obs
      (fun s => (s.live, s.heap.startOfHeap, s.heap.brk, heapBlocks s.heap,
        freeList s.heap, rd_size s.heap.mem 4136)) =
      some ([4160, 4216, 4120], 4096, 4224, some [4096, 4136, 4164, 4192],
        some [4164], 4) :=
  ⟨by decide, by decide, by decide,
    payloads_disjoint (fun _ => 0) 4096 1099511627776 _ (by decide) (by decide) (by decide),
    by with_unfolding_all rfl⟩

/-! ## The size stored for a block at the end of the heap -/

/-- The search of `malloc` for a request below `2 ^ 32` that no free block
serves ends without a result. -/
theorem malloc_scan_none (h : Heap) (s : Nat) (hs : s < 4294967296) :
    ∀ (suf pre : List Blk) (k : Nat), RepX h (pre ++ suf) 0 → (frees suf).length < k →
      scanBlocks s suf = none → malloc_scan h s k (headOr (frees suf) 0) = some none := by
  intro suf
  induction suf with
  | nil =>
    intro pre k _ hk _
    rcases k with _ | k
    · simp at hk
    · simp [malloc_scan]
  | cons b r ih =>
    intro pre k hr hk hq
    have hr2 : RepX h ((pre ++ [b]) ++ r) 0 := by
      rw [List.append_assoc, List.singleton_append]; exact hr
    by_cases hu : b.used = true
    · have hfr : frees (b :: r) = frees r := by rw [frees_cons, if_pos hu]
      rw [hfr] at hk ⊢
      have hsc : scanBlocks s (b :: r) =
          (scanBlocks s r).map (fun res => (b :: res.1, res.2)) := by
        simp [scanBlocks, hu]
      rw [hsc] at hq
      refine ih (pre ++ [b]) k hr2 hk ?_
      cases hq2 : scanBlocks s r with
      | none => rfl
      | some v => rw [hq2] at hq; simp at hq
    · have hbf : b.used = false := by simpa using hu
      have hfr : frees (b :: r) = b.addr :: frees r := by rw [frees_cons, if_neg hu]
      rw [hfr] at hk ⊢
      simp only [headOr_cons]
      rcases k with _ | k
      · simp at hk
      simp only [List.length_cons, Nat.add_lt_add_iff_right] at hk
      have hpos := hr.start_pos
      have hsp := tiles_split _ _ _ _ _ hr.tiles
      have hb0 : b.addr ≠ 0 := by omega
      have hfb := hr.fields b (by simp) hb0
      have hd := hr.dll
      rw [frees_mid pre r b hbf] at hd
      obtain ⟨-, -, -, hnx⟩ := dll_mid _ _ _ _ hd
      have es : (s + HDR) % W64 = s + 24 := by
        simp only [HDR, W64]
        exact Nat.mod_eq_of_lt (by omega)
      unfold malloc_scan
      rw [if_neg hb0, hfb.1, es, hnx]
      by_cases c1 : b.size = s ∨ (b.size > s ∧ b.size - s < HDR)
      · have hsc : scanBlocks s (b :: r) = some ({ b with used := true } :: r, b.addr) := by
          simp only [scanBlocks]
          rw [if_pos ⟨hbf, by simpa [HDR] using c1⟩]
        rw [hsc] at hq
        exact absurd hq (by simp)
      · rw [if_neg c1]
        have c1b : ¬ (b.used = false ∧ (b.size = s ∨ (b.size > s ∧ b.size - s < 24))) := by
          intro hc
          exact c1 (by simpa [HDR] using hc.2)
        by_cases c2 : b.size > s + 24
        · have hsc : scanBlocks s (b :: r) = some (splitAt b s r, b.addr) := by
            simp only [scanBlocks]
            rw [if_neg c1b, if_pos ⟨hbf, c2⟩]
          rw [hsc] at hq
          exact absurd hq (by simp)
        · rw [if_neg c2]
          have c2b : ¬ (b.used = false ∧ b.size > s + 24) := fun hc => c2 hc.2
          have hsc : scanBlocks s (b :: r) =
              (scanBlocks s r).map (fun res => (b :: res.1, res.2)) := by
            simp only [scanBlocks]
            rw [if_neg c1b, if_neg c2b]
          rw [hsc] at hq
          refine ih (pre ++ [b]) k hr2 hk ?_
          cases hq2 : scanBlocks s r with
          | none => rfl
          | some v => rw [hq2] at hq; simp at hq

/-- C17, counterexample: `malloc(2 ^ 32)` on the empty heap extends the heap
by a header and `2 ^ 32` payload bytes and returns 4120, and the size field of
the new header holds 0, not the `2 ^ 32` bytes of the payload: the field is an
`unsigned int`. -/
theorem extend_truncates_size :
    (malloc (emptyHeap (fun _ => 0) 4096 1099511627776) 4294967296).map
      (fun r => (r.2, rd_size r.1.mem 4096, rd_isUsed r.1.mem 4096, r.1.brk,
        r.1.brk - 4096 - 24, r.1.sbrkFailed)) =
      some (4120, 0, 1, 4294971416, 4294967296, false) := by
  with_unfolding_all rfl

/-- C17, amended: in a state that represents a block sequence, let
`s < 2 ^ 32` be a request that no free block serves and for which the break
can rise by a header and `s` bytes, so that `malloc(s)` satisfies it by
extending the heap.  Then `malloc(s)` returns the payload address of a new
last block whose header lies at the old break, is marked used and holds the
size `s`, and the heap has grown by exactly the header and `s` payload bytes:
the stored size is the room of the new block. -/
theorem extend_size_exact (h : Heap) (bs : List Blk) (s : Nat) (hr : Rep h bs)
    (hs : s < 4294967296) (hq : scanBlocks s bs = none)
    (hroom : h.brk + 24 + s ≤ h.limit) :
    ∃ h2, malloc h s = some (h2, h.brk + 24) ∧
      Rep h2 (bs ++ [{ addr := h.brk, cap := s, size := s, used := true }]) ∧
      rd_size h2.mem h.brk = s ∧ rd_isUsed h2.mem h.brk = 1 ∧
      h2.brk = h.brk + 24 + s ∧ h2.brk - h.brk - 24 = rd_size h2.mem h.brk ∧
      h2.sbrkFailed = h.sbrkFailed := by
  obtain ⟨r0, hst, hbrk, hlim, hfl, -, -⟩ := rep_init h bs hr
  have hk := frees_length_lt _ _ _ r0
  have hhead : (malloc_init h).head_free = headOr (frees bs) 0 := r0.dll.head
  have hsc := malloc_scan_none (malloc_init h) s hs bs [] (fuel (malloc_init h)) r0 hk hq
  obtain ⟨e1, e2, e3, -, -, e6⟩ := rep_extend (malloc_init h) bs s r0 hst hs
    (by rw [hbrk, hlim]; exact hroom)
  rw [hbrk] at e1 e2 e3
  have hpos := hr.start_pos
  have hle := tiles_le _ _ _ hr.tiles
  have f := e1.fields { addr := h.brk, cap := s, size := s, used := true } (by simp)
    (by show h.brk ≠ 0; omega)
  have f1 : rd_size (malloc_extend (malloc_init h) s).1.mem h.brk = s := f.1
  refine ⟨(malloc_extend (malloc_init h) s).1, ?_, e1, f1, f.2.2.1, e3, ?_, by rw [e6, hfl]⟩
  · unfold malloc
    rw [hhead, hsc, ← e2]
  · rw [f1, e3]
    omega

theorem extend_size_exact_witness :
    Rep (heapAfter (fun _ => 0) 4096 1099511627776 [Op.malloc 16, Op.malloc 8, Op.free 4120])
      [{ addr := 4096, cap := 16, size := 16, used := false },
        { addr := 4136, cap := 8, size := 8, used := true }] ∧
    3000000000 < 4294967296 ∧
    scanBlocks 3000000000 [{ addr := 4096, cap := 16, size := 16, used := false },
        { addr := 4136, cap := 8, size := 8, used := true }] = none ∧
    (heapAfter (fun _ => 0) 4096 1099511627776
        [Op.malloc 16, Op.malloc 8, Op.free 4120]).brk + 24 + 3000000000 ≤
      (heapAfter (fun _ => 0) 4096 1099511627776
        [Op.malloc 16, Op.malloc 8, Op.free 4120]).limit ∧
    (∃ h2,
      malloc (heapAfter (fun _ => 0) 4096 1099511627776
          [Op.malloc 16, Op.malloc 8, Op.free 4120]) 3000000000 =
        some (h2, (heapAfter (fun _ => 0) 4096 1099511627776
          [Op.malloc 16, Op.malloc 8, Op.free 4120]).brk + 24) ∧
      Rep h2 ([{ addr := 4096, cap := 16, size := 16, used := false },
          { addr := 4136, cap := 8, size := 8, used := true }] ++
        [{ addr := (heapAfter (fun _ => 0) 4096 1099511627776
              [Op.malloc 16, Op.malloc 8, Op.free 4120]).brk
           cap := 3000000000
           size := 3000000000
           used := true }]) ∧
      rd_size h2.mem (heapAfter (fun _ => 0) 4096 1099511627776
          [Op.malloc 16, Op.malloc 8, Op.free 4120]).brk = 3000000000 ∧
      rd_isUsed h2.mem (heapAfter (fun _ => 0) 4096 1099511627776
          [Op.malloc 16, Op.malloc 8, Op.free 4120]).brk = 1 ∧
      h2.brk = (heapAfter (fun _ => 0) 4096 1099511627776
          [Op.malloc 16, Op.malloc 8, Op.free 4120]).brk + 24 + 3000000000 ∧
      h2.brk - (heapAfter (fun _ => 0) 4096 1099511627776
          [Op.malloc 16, Op.malloc 8, Op.free 4120]).brk - 24 =
        rd_size h2.mem (heapAfter (fun _ => 0) 4096 1099511627776
          [Op.malloc 16, Op.malloc 8, Op.free 4120]).brk ∧
      h2.sbrkFailed = (heapAfter (fun _ => 0) 4096 1099511627776
          [Op.malloc 16, Op.malloc 8, Op.free 4120]).sbrkFailed) ∧
    ((heapAfter (fun _ => 0) 4096 1099511627776
        [Op.malloc 16, Op.malloc 8, Op.free 4120]).brk,
      (malloc (heapAfter (fun _ => 0) 4096 1099511627776
          [Op.malloc 16, Op.malloc 8, Op.free 4120]) 3000000000).map
        (fun r => (r.2, rd_size r.1.mem 4168, rd_isUsed r.1.mem 4168, r.1.brk,
          r.1.sbrkFailed, freeList r.1, heapBlocks r.1))) =
      (4168, some (4192, 3000000000, 1, 3000004192, false, some [4096],
        some [4096, 4136, 4168])) :=
  ⟨repCheck_sound _ _ (by with_unfolding_all rfl), by decide, by with_unfolding_all rfl,
    by with_unfolding_all decide,
    extend_size_exact _
      [{ addr := 4096, cap := 16, size := 16, used := false },
        { addr := 4136, cap := 8, size := 8, used := true }] 3000000000
      (repCheck_sound _ _ (by with_unfolding_all rfl)) (by decide)
      (by with_unfolding_all rfl) (by with_unfolding_all decide),
    by with_unfolding_all rfl⟩

/-! ## Where split puts the remainder -/

/-- C18, counterexample: after the five calls the heap holds a used block of
0 bytes at 4096 and a free block `B` of 4294967286 bytes at 4120 (payload
4144); every `size` field holds the room of its block.  `malloc(2 ^ 32 - 48)`
splits `B` (4294967286 > 2 ^ 32 - 48 + 24) and returns 4144, and `split`
receives the request as the `int` `-48`: the header of the remainder, the new
`head_free`, is written at `4120 + 24 - 48 = 4096`, over the header of the
used block, and not at the payload address of `B` plus the request,
`4144 + (2 ^ 32 - 48) = 4294971392`, an address inside the heap whose break is
at 4294971430.  Its size is 14. -/
theorem split_misplaces_remainder :
    (run legal (Sys.start (fun _ => 0) 4096 1099511627776)
      [Op.malloc 0, Op.malloc 2147483647, Op.malloc 2147483615, Op.free 4144,
        Op.free 2147487815]).obs
      (fun s => (s.live, s.heap.brk, heapBlocks s.heap, freeList s.heap,
        repCheck s.heap [{ addr := 4096, cap := 0, size := 0, used := true },
          { addr := 4120, cap := 4294967286, size := 4294967286, used := false }],
        (malloc s.heap 4294967248).map (fun r => (r.2, r.1.head_free, freeList r.1,
          rd_isUsed r.1.mem 4096, rd_size r.1.mem 4096, rd_size r.1.mem 4120,
          4144 + 4294967248, r.1.brk)))) =
      some ([4120], 4294971430, some [4096, 4120], some [4120], true,
        some (4144, 4096, some [4096], 0, 14, 4294967248, 4294971392, 4294971430)) := by
  with_unfolding_all rfl

/-- C18, amended: in a state that represents a block sequence, let `b` be a
free block that no free block follows directly, and let `s < 2 ^ 31` with
`b.size > s + 24` be a request that no free block before `b` serves.  Then
`malloc(s)` returns the payload address of `b`, whose header then holds the
size `s`; the header of the remainder lies at the payload address of `b` plus
`s`, is marked free, is on the free list, and holds the size
`b.size - s - 24`. -/
theorem split_places_remainder (h : Heap) (pre post : List Blk) (b : Blk) (s : Nat)
    (hr : Rep h (pre ++ b :: post)) (hb : b.used = false) (hs : s < 2147483648)
    (hbs : s + 24 < b.size) (hfirst : scanBlocks s pre = none)
    (hnext : ∀ y r, post = y :: r → y.used = true) :
    ∃ h2 F, malloc h s = some (h2, b.addr + 24) ∧
      rd_size h.mem b.addr = b.size ∧ rd_size h2.mem b.addr = s ∧
      rd_isUsed h2.mem (b.addr + 24 + s) = 0 ∧
      rd_size h2.mem (b.addr + 24 + s) = b.size - s - 24 ∧
      freeList h2 = some F ∧ b.addr + 24 + s ∈ F := by
  have hpos := hr.start_pos
  have hsp := tiles_split _ _ _ _ _ hr.tiles
  have hb0 : b.addr ≠ 0 := by omega
  have hfb := hr.fields b (by simp) hb0
  have hscan : scanBlocks s (pre ++ b :: post) =
      some (pre ++ splitHead b s :: splitRest b s :: post, b.addr) := by
    rw [scan_none_append s pre _ hfirst]
    have e : scanBlocks s (b :: post) = some (splitAt b s post, b.addr) := by
      unfold scanBlocks
      rw [if_neg (by
        rintro ⟨-, h1 | h1⟩
        · omega
        · omega), if_pos ⟨hb, by omega⟩]
    rw [e]
    unfold splitAt
    rw [mergeNext_keep _ _ hnext]
    rfl
  obtain ⟨h2, p, e, c1, -⟩ := malloc_spec h _ s hr hs
  obtain ⟨r, hp, -⟩ := c1 (Or.inl (by rw [hscan]; simp))
  have em : mallocBlocks s h.brk (pre ++ b :: post) =
      (pre ++ splitHead b s :: splitRest b s :: post, b.addr) := by
    simp only [mallocBlocks, hscan]
  rw [em] at r hp
  have f1 := r.fields (splitHead b s) (by simp) hb0
  have f2 := r.fields (splitRest b s) (by simp) (by
    show b.addr + 24 + s ≠ 0
    omega)
  have hfm : frees (pre ++ splitHead b s :: splitRest b s :: post) =
      frees pre ++ (b.addr + 24 + s) :: frees post := by
    rw [frees_append, frees_cons, frees_cons]
    rfl
  refine ⟨h2, _, by rw [e, hp], hfb.1, f1.1, f2.2.2.1, f2.1, freeList_rep _ _ _ r, ?_⟩
  rw [hfm]
  simp

theorem split_places_remainder_witness :
    Rep (heapAfter (fun _ => 0) 4096 1099511627776 [Op.malloc 100, Op.malloc 8, Op.free 4120])
      ([] ++ { addr := 4096, cap := 100, size := 100, used := false } ::
        [{ addr := 4220, cap := 8, size := 8, used := true }]) ∧
    ({ addr := 4096, cap := 100, size := 100, used := false } : Blk).used = false ∧
    16 < 2147483648 ∧
    16 + 24 < ({ addr := 4096, cap := 100, size := 100, used := false } : Blk).size ∧
    scanBlocks 16 [] = none ∧
    (∀ y r, [({ addr := 4220, cap := 8, size := 8, used := true } : Blk)] = y :: r →
      y.used = true) ∧
    (∃ h2 F, malloc (heapAfter (fun _ => 0) 4096 1099511627776
          [Op.malloc 100, Op.malloc 8, Op.free 4120]) 16 =
        some (h2, ({ addr := 4096, cap := 100, size := 100, used := false } : Blk).addr + 24) ∧
      rd_size (heapAfter (fun _ => 0) 4096 1099511627776
          [Op.malloc 100, Op.malloc 8, Op.free 4120]).mem
        ({ addr := 4096, cap := 100, size := 100, used := false } : Blk).addr =
        ({ addr := 4096, cap := 100, size := 100, used := false } : Blk).size ∧
      rd_size h2.mem ({ addr := 4096, cap := 100, size := 100, used := false } : Blk).addr =
        16 ∧
      rd_isUsed h2.mem
        (({ addr := 4096, cap := 100, size := 100, used := false } : Blk).addr + 24 + 16) = 0 ∧
      rd_size h2.mem
        (({ addr := 4096, cap := 100, size := 100, used := false } : Blk).addr + 24 + 16) =
        ({ addr := 4096, cap := 100, size := 100, used := false } : Blk).size - 16 - 24 ∧
      freeList h2 = some F ∧
      ({ addr := 4096, cap := 100, size := 100, used := false } : Blk).addr + 24 + 16 ∈ F) ∧
    (malloc (heapAfter (fun _ => 0) 4096 1099511627776
        [Op.malloc 100, Op.malloc 8, Op.free 4120]) 16).map
      (fun r => (r.2, rd_size r.1.mem 4096, rd_size r.1.mem 4136, freeList r.1)) =
      some (4120, 16, 60, some [4136]) :=
  ⟨repCheck_sound _ _ (by with_unfolding_all rfl), rfl, by decide, by decide, rfl,
    fun y r e => by
      injection e with e1 e2
      rw [← e1],
    split_places_remainder _ [] [{ addr := 4220, cap := 8, size := 8, used := true }]
      { addr := 4096, cap := 100, size := 100, used := false } 16
      (repCheck_sound _ _ (by with_unfolding_all rfl)) rfl
      (by decide) (by decide) rfl
      (fun y r e => by
        injection e with e1 e2
        rw [← e1]),
    by with_unfolding_all rfl⟩

/-! ## The remainder of a split and its predecessor in the free list -/

/-- C16, counterexample: after the seven calls the heap holds a free block of
16 bytes at 4096, a used block of 0 bytes at 4136 and a free block of
4294967286 bytes at 4160; the walk of the heap ends at the break, the free
list is in address order and every `size` field holds the room of its block.
`malloc(2 ^ 32 - 48)` splits the block at 4160 (4294967286 > 2 ^ 32 - 48 + 24)
and hands `split` the `int` `-48`: the remainder is placed at
`4160 + 24 - 48 = 4136`, its free-list predecessor is the block at 4096, and
`4096 + 24 + 16 = 4136`: the remainder is physically adjacent to its
predecessor. -/
theorem split_remainder_adjacent :
    (run legal (Sys.start (fun _ => 0) 4096 1099511627776)
      [Op.malloc 16, Op.malloc 0, Op.malloc 2147483647, Op.malloc 2147483615,
        Op.free 4120, Op.free 4184, Op.free 2147487855]).obs
      (fun s => (heapBlocks s.heap, freeList s.heap,
        repCheck s.heap [{ addr := 4096, cap := 16, size := 16, used := false },
          { addr := 4136, cap := 0, size := 0, used := true },
          { addr := 4160, cap := 4294967286, size := 4294967286, used := false }],
        (malloc s.heap 4294967248).map (fun r => (r.2, freeList r.1,
          rd_isUsed r.1.mem 4136, rd_prev_free r.1.mem 4136,
          4096 + 24 + rd_size r.1.mem 4096)))) =
      some (some [4096, 4136, 4160], some [4096, 4160], true,
        some (4184, some [4096, 4136], 0, 4096, 4136)) := by
  with_unfolding_all rfl

/-- C16, amended: in a state that represents a block sequence (no gaps, the
free list holds the free blocks in address order, no stored size exceeds the
room of its block), let `b` be a free block and `s < 2 ^ 31` a size with
`b.size > s + 24`.  After `split(b, s)` the header at the payload address of
`b` plus `s` is a free block on the free list, and when it has a predecessor
in the free list, that predecessor ends at or before the address of `b`: it
is not physically adjacent to the remainder. -/
theorem split_remainder_apart (h : Heap) (pre post : List Blk) (b : Blk) (s : Nat)
    (hr : Rep h (pre ++ b :: post)) (hb : b.used = false) (hs : s < 2147483648)
    (hbs : s + 24 < b.size) :
    rd_isUsed (split h b.addr s).mem (b.addr + 24 + s) = 0 ∧
    (∃ F, freeList (split h b.addr s) = some F ∧ b.addr + 24 + s ∈ F) ∧
    (rd_prev_free (split h b.addr s).mem (b.addr + 24 + s) ≠ 0 →
      rd_prev_free (split h b.addr s).mem (b.addr + 24 + s) + 24 +
          rd_size (split h b.addr s).mem
            (rd_prev_free (split h b.addr s).mem (b.addr + 24 + s)) ≤ b.addr ∧
      rd_prev_free (split h b.addr s).mem (b.addr + 24 + s) + 24 +
          rd_size (split h b.addr s).mem
            (rd_prev_free (split h b.addr s).mem (b.addr + 24 + s)) ≠ b.addr + 24 + s) := by
  have hpos := hr.start_pos
  have hsp := tiles_split _ _ _ _ _ hr.tiles
  have r := rep_split h pre post b s hr hb hs hbs
  have ha := mergeNext_addr (splitRest b s) post
  have hu := mergeNext_used (splitRest b s) post rfl
  have ha2 : (mergeNext (splitRest b s) post).1.addr = b.addr + 24 + s := ha
  have hfm : frees (pre ++ splitAt b s post) =
      frees pre ++ (b.addr + 24 + s) :: frees (mergeNext (splitRest b s) post).2 := by
    rw [frees_append]
    unfold splitAt
    rw [frees_cons, frees_cons, hu, ha2]
    rfl
  have hd := r.dll
  rw [hfm] at hd
  have hmid := dll_mid _ _ _ _ hd
  have hf := r.fields (mergeNext (splitRest b s) post).1 (by simp [splitAt]) (by omega)
  have hiu : rd_isUsed (split h b.addr s).mem (b.addr + 24 + s) = 0 := by
    have := hf.2.2.1
    rw [ha2, hu] at this
    exact this
  refine ⟨hiu, ⟨_, freeList_rep _ _ _ r, by rw [hfm]; simp⟩, ?_⟩
  rw [hmid.2.2.1]
  intro hne
  rcases lastOr_mem_or (frees pre) 0 with e | hm
  · exact absurd e hne
  · obtain ⟨c, hc, -, hca⟩ := (mem_frees _ _).1 hm
    have hcb := hsp.1 c hc
    have hfc := r.fields c (by simp [hc]) (by omega)
    rw [← hca, hfc.1]
    have := hfc.2.1
    omega

theorem split_remainder_apart_witness :
    Rep (heapAfter (fun _ => 0) 4096 1099511627776
        [Op.malloc 16, Op.malloc 8, Op.malloc 100, Op.malloc 8, Op.free 4120, Op.free 4192])
      ([{ addr := 4096, cap := 16, size := 16, used := false },
          { addr := 4136, cap := 8, size := 8, used := true }] ++
        { addr := 4168, cap := 100, size := 100, used := false } ::
        [{ addr := 4292, cap := 8, size := 8, used := true }]) ∧
    ({ addr := 4168, cap := 100, size := 100, used := false } : Blk).used = false ∧
    20 < 2147483648 ∧
    20 + 24 < ({ addr := 4168, cap := 100, size := 100, used := false } : Blk).size ∧
    (rd_isUsed (split (heapAfter (fun _ => 0) 4096 1099511627776
          [Op.malloc 16, Op.malloc 8, Op.malloc 100, Op.malloc 8, Op.free 4120, Op.free 4192])
        ({ addr := 4168, cap := 100, size := 100, used := false } : Blk).addr 20).mem
        (({ addr := 4168, cap := 100, size := 100, used := false } : Blk).addr + 24 + 20) = 0 ∧
      (∃ F, freeList (split (heapAfter (fun _ => 0) 4096 1099511627776
            [Op.malloc 16, Op.malloc 8, Op.malloc 100, Op.malloc 8, Op.free 4120, Op.free 4192])
          ({ addr := 4168, cap := 100, size := 100, used := false } : Blk).addr 20) = some F ∧
        ({ addr := 4168, cap := 100, size := 100, used := false } : Blk).addr + 24 + 20 ∈ F) ∧
      (rd_prev_free (split (heapAfter (fun _ => 0) 4096 1099511627776
            [Op.malloc 16, Op.malloc 8, Op.malloc 100, Op.malloc 8, Op.free 4120, Op.free 4192])
          ({ addr := 4168, cap := 100, size := 100, used := false } : Blk).addr 20).mem
          (({ addr := 4168, cap := 100, size := 100, used := false } : Blk).addr + 24 + 20) ≠ 0 →
        rd_prev_free (split (heapAfter (fun _ => 0) 4096 1099511627776
              [Op.malloc 16, Op.malloc 8, Op.malloc 100, Op.malloc 8, Op.free 4120,
                Op.free 4192])
            ({ addr := 4168, cap := 100, size := 100, used := false } : Blk).addr 20).mem
            (({ addr := 4168, cap := 100, size := 100, used := false } : Blk).addr + 24 + 20) +
            24 +
            rd_size (split (heapAfter (fun _ => 0) 4096 1099511627776
              [Op.malloc 16, Op.malloc 8, Op.malloc 100, Op.malloc 8, Op.free 4120,
                Op.free 4192])
            ({ addr := 4168, cap := 100, size := 100, used := false } : Blk).addr 20).mem
              (rd_prev_free (split (heapAfter (fun _ => 0) 4096 1099511627776
                [Op.malloc 16, Op.malloc 8, Op.malloc 100, Op.malloc 8, Op.free 4120,
                  Op.free 4192])
              ({ addr := 4168, cap := 100, size := 100, used := false } : Blk).addr 20).mem
              (({ addr := 4168, cap := 100, size := 100, used := false } : Blk).addr + 24 +
                20)) ≤
          ({ addr := 4168, cap := 100, size := 100, used := false } : Blk).addr ∧
        rd_prev_free (split (heapAfter (fun _ => 0) 4096 1099511627776
              [Op.malloc 16, Op.malloc 8, Op.malloc 100, Op.malloc 8, Op.free 4120,
                Op.free 4192])
            ({ addr := 4168, cap := 100, size := 100, used := false } : Blk).addr 20).mem
            (({ addr := 4168, cap := 100, size := 100, used := false } : Blk).addr + 24 + 20) +
            24 +
            rd_size (split (heapAfter (fun _ => 0) 4096 1099511627776
              [Op.malloc 16, Op.malloc 8, Op.malloc 100, Op.malloc 8, Op.free 4120,
                Op.free 4192])
            ({ addr := 4168, cap := 100, size := 100, used := false } : Blk).addr 20).mem
              (rd_prev_free (split (heapAfter (fun _ => 0) 4096 1099511627776
                [Op.malloc 16, Op.malloc 8, Op.malloc 100, Op.malloc 8, Op.free 4120,
                  Op.free 4192])
              ({ addr := 4168, cap := 100, size := 100, used := false } : Blk).addr 20).mem
              (({ addr := 4168, cap := 100, size := 100, used := false } : Blk).addr + 24 +
                20)) ≠
          ({ addr := 4168, cap := 100, size := 100, used := false } : Blk).addr + 24 + 20)) ∧
    (malloc (heapAfter (fun _ => 0) 4096 1099511627776
        [Op.malloc 16, Op.malloc 8, Op.malloc 100, Op.malloc 8, Op.free 4120,
          Op.free 4192]) 20).map
      (fun r => (r.2, freeList r.1, rd_isUsed r.1.mem 4212, rd_prev_free r.1.mem 4212,
        4096 + 24 + rd_size r.1.mem 4096)) =
      some (4192, some [4096, 4212], 0, 4096, 4136) :=
  ⟨repCheck_sound _ _ (by with_unfolding_all rfl), rfl, by decide, by decide,
    split_remainder_apart _
      [{ addr := 4096, cap := 16, size := 16, used := false },
        { addr := 4136, cap := 8, size := 8, used := true }]
      [{ addr := 4292, cap := 8, size := 8, used := true }]
      { addr := 4168, cap := 100, size := 100, used := false } 20
      (repCheck_sound _ _ (by with_unfolding_all rfl)) rfl (by decide) (by decide),
    by with_unfolding_all rfl⟩

/-! ## realloc to a larger size -/

theorem mergeNext_cap (x : Blk) (post : List Blk) : x.cap ≤ (mergeNext x post).1.cap := by
  rcases post with _ | ⟨p, r⟩
  · exact Nat.le_refl _
  · simp only [mergeNext]
    split
    · show x.cap ≤ x.cap + 24 + p.cap
      omega
    · exact Nat.le_refl _

theorem mergePrev_cover (a e : Nat) (pre rest : List Blk) (x : Blk)
    (ht : Tiles a (pre ++ x :: rest) e) (hx : x.used = false) :
    ∃ f ∈ mergePrev pre x rest, f.used = false ∧ f.addr ≤ x.addr ∧
      x.addr + 24 + x.cap ≤ f.addr + 24 + f.cap := by
  rcases snoc_cases pre with e0 | ⟨p, q, e0⟩
  · subst e0
    exact ⟨x, List.mem_cons_self _ _, hx, Nat.le_refl _, Nat.le_refl _⟩
  · subst e0
    rw [mergePrev_snoc]
    rw [List.append_assoc] at ht
    have h0 : Tiles a (p ++ q :: x :: rest) e := ht
    rw [tiles_append_cons] at h0
    obtain ⟨h1, -⟩ := h0.2
    split
    · refine ⟨merge q x, by simp, rfl, ?_, ?_⟩
      · show q.addr ≤ x.addr
        omega
      · show x.addr + 24 + x.cap ≤ q.addr + 24 + (q.cap + 24 + x.cap)
        omega
    · exact ⟨x, by simp, hx, Nat.le_refl _, Nat.le_refl _⟩

theorem mem_mergePrev (pre rest : List Blk) (x y : Blk)
    (hy : (y ∈ pre ∧ y.used = true) ∨ y ∈ rest) : y ∈ mergePrev pre x rest := by
  rcases snoc_cases pre with e0 | ⟨p, q, e0⟩
  · subst e0
    rcases hy with hy | hy
    · exact absurd hy.1 (List.not_mem_nil _)
    · exact List.mem_cons_of_mem _ hy
  · subst e0
    rw [mergePrev_snoc]
    split
    · rename_i c
      rcases hy with ⟨hy, hu⟩ | hy
      · rcases List.mem_append.1 hy with h1 | h1
        · exact List.mem_append_left _ h1
        · rw [List.mem_singleton] at h1
          rw [h1, c.1] at hu
          exact absurd hu (by simp)
      · exact List.mem_append_right _ (List.mem_cons_of_mem _ hy)
    · rcases hy with ⟨hy, -⟩ | hy
      · rcases List.mem_append.1 hy with h1 | h1
        · exact List.mem_append_left _ h1
        · rw [List.mem_singleton] at h1
          subst h1
          exact List.mem_append_right _ (List.mem_cons_self _ _)
      · exact List.mem_append_right _
          (List.mem_cons_of_mem _ (List.mem_cons_of_mem _ hy))

/-- A used block other than the released one is a block of the sequence after
the release. -/
theorem mem_freeAt_used (pre post : List Blk) (b y : Blk) (hy : y ∈ pre ++ b :: post)
    (hu : y.used = true) (hne : y ≠ b) : y ∈ freeAt pre b post := by
  unfold freeAt
  apply mem_mergePrev
  simp only [List.mem_append, List.mem_cons] at hy
  rcases hy with hy | hy | hy
  · exact Or.inl ⟨hy, hu⟩
  · exact absurd hy hne
  · exact Or.inr (mem_mergeNext_used _ _ _ hy hu)

/-- After the release of `b` a free block covers the room of `b`. -/
theorem freeAt_cover (a e : Nat) (pre post : List Blk) (b : Blk)
    (ht : Tiles a (pre ++ b :: post) e) :
    ∃ f ∈ freeAt pre b post, f.used = false ∧ f.addr ≤ b.addr ∧
      b.addr + 24 + b.cap ≤ f.addr + 24 + f.cap := by
  unfold freeAt
  have htp := ((tiles_append_cons _ _ _ _ _).1 ht)
  have ht2 : Tiles b.addr ({ b with used := false } :: post) e := ⟨rfl, htp.2⟩
  have ht3 := tiles_mergeNext _ _ _ ht2
  have ht4 : Tiles a (pre ++ (mergeNext { b with used := false } post).1 ::
      (mergeNext { b with used := false } post).2) e := by
    rw [tiles_append_cons, mergeNext_addr]
    exact ⟨htp.1, ht3.2⟩
  obtain ⟨f, hf, hu, h1, h2⟩ := mergePrev_cover _ _ _ _ _ ht4 (mergeNext_used _ _ rfl)
  rw [mergeNext_addr] at h1 h2
  have hc := mergeNext_cap { b with used := false } post
  have e6 : ({ b with used := false } : Blk).addr = b.addr := rfl
  have e7 : ({ b with used := false } : Blk).cap = b.cap := rfl
  exact ⟨f, hf, hu, by omega, by omega⟩

/-- C15, counterexample: blocks of `2 ^ 31 - 1`, `2 ^ 31 - 100`, 16 and 200
bytes are allocated, and all but the third are released: the heap then holds
a free block of `2 ^ 32 - 77` bytes at 4096, the used block of 16 bytes at
4294971339 (payload 4294971363) and a free block of 200 bytes at 4294971379,
every `size` field holding the room of its block.  `realloc(4294971363, 32)`
returns 4120, a block of size 32, and no extension was refused; but the
release of the old block merges it with both neighbours into the block at
4152, whose 32-bit `size` field wraps to 131: the free list is `[4152]`, and
the bytes of the old block, from 4294971339 on, lie far behind
`4152 + 24 + 131`. -/
theorem realloc_old_block_lost :
    (run legal (Sys.start (fun _ => 0) 4096 1099511627776)
      [Op.malloc 2147483647, Op.malloc 2147483548, Op.malloc 16, Op.malloc 200,
        Op.free 4120, Op.free 2147487791, Op.free 4294971403]).obs
      (fun s => (s.live, heapBlocks s.heap, freeList s.heap,
        repCheck s.heap [{ addr := 4096, cap := 4294967219, size := 4294967219, used := false },
          { addr := 4294971339, cap := 16, size := 16, used := true },
          { addr := 4294971379, cap := 200, size := 200, used := false }],
        (realloc s.heap 4294971363 32).map (fun r => (r.2, r.1.sbrkFailed,
          rd_size r.1.mem (r.2 - 24), freeList r.1, 4152 + 24 + rd_size r.1.mem 4152)))) =
      some ([4294971363], some [4096, 4294971339, 4294971379], some [4096, 4294971379], true,
        some (4120, false, 32, some [4152], 4307)) := by
  with_unfolding_all rfl

/-- C15, amended: in a state that represents a block sequence in which every
`size` field holds the room of its block, and whose heap cannot grow to
`2 ^ 32` bytes, let `b` be a used block of stored size `old`, let
`old < n < 2 ^ 31`, and let the request `n` be one that a free block serves
or for which the break can rise by a header and `n` bytes.  Then
`realloc(p, n)` for the payload address `p` of `b` returns a pointer `q != p`:
`q` is the payload address of a used block `x` of the block sequence that the
new state represents, inside the heap region and of stored size at least `n`,
and the bytes of the old block lie within a free block `f` of that sequence,
which is on the free list. -/
theorem realloc_grow_moves (h : Heap) (pre post : List Blk) (b : Blk) (n : Nat)
    (hr : Rep h (pre ++ b :: post)) (hx : Exact (pre ++ b :: post))
    (hlim : h.limit < heapStart h + 4294967296)
    (hb : b.used = true) (hlt : b.size < n) (hn : n < 2147483648)
    (hc : scanBlocks n (pre ++ b :: post) ≠ none ∨ h.brk + 24 + n ≤ h.limit) :
    rd_size h.mem b.addr = b.size ∧
    ∃ h3 q bs3 x f F, realloc h (b.addr + 24) n = some (h3, q) ∧
      h3.sbrkFailed = h.sbrkFailed ∧ Rep h3 bs3 ∧ Exact bs3 ∧
      q ≠ b.addr + 24 ∧
      x ∈ bs3 ∧ q = x.addr + 24 ∧ x.used = true ∧ n ≤ x.size ∧
      heapStart h3 ≤ x.addr ∧ x.addr + 24 + x.cap ≤ h3.brk ∧
      rd_isUsed h3.mem x.addr = 1 ∧ rd_size h3.mem x.addr = x.size ∧
      f ∈ bs3 ∧ f.used = false ∧ freeList h3 = some F ∧ f.addr ∈ F ∧
      rd_isUsed h3.mem f.addr = 0 ∧ rd_size h3.mem f.addr = f.size ∧
      f.addr ≤ b.addr ∧ b.addr + 24 + b.size ≤ f.addr + 24 + f.size := by
  have hpos := hr.start_pos
  have hbl := hr.brk_le
  have hsp := tiles_split _ _ _ _ _ hr.tiles
  have hfb := hr.fields b (by simp) (by omega)
  obtain ⟨h3, pre1, post1, e, em, r3, k1, k2, k3, ht⟩ :=
    realloc_move_ok h pre post b n hr hb hn hlt hc
  obtain ⟨A, x, B, q1, q2, q3, q4, -, -⟩ := malloc_blocks_spec n h.brk (pre ++ b :: post)
  have hxm : x ∈ pre1 ++ b :: post1 := by
    rw [← em, q1]
    simp
  have hxb : x ≠ b := by
    intro e0
    rw [e0] at q4
    omega
  have hxf := mem_freeAt_used pre1 post1 b x hxm q3 hxb
  have hxa : x.addr ≠ b.addr := fun e0 => hxb (same_addr_eq _ _ _ ht x b hxm (by simp) e0)
  have hxbd := tiles_bounds _ _ _ r3.tiles x hxf
  have hx0 : x.addr ≠ 0 := by
    have := (tiles_bounds _ _ _ ht x hxm).1
    omega
  have hfx := r3.fields x hxf hx0
  have hbrk : h3.brk < heapStart h + 4294967296 := by
    have := r3.brk_le
    rw [k2] at this
    omega
  have hx1 : Exact (pre1 ++ b :: post1) := by
    rw [← em]
    exact exact_malloc _ n _ _ hr.tiles (by omega) hx
  have hx2 := exact_freeAt pre1 post1 b _ _ ht hbrk hx1
  obtain ⟨f, hf, hfu, hf1, hf2⟩ := freeAt_cover _ _ pre1 post1 b ht
  have hf0 : f.addr ≠ 0 := by
    have := (tiles_bounds _ _ _ r3.tiles f hf).1
    rw [k3] at this
    omega
  have hff := r3.fields f hf hf0
  have hfe := hx2 f hf
  have hbc := hfb.2.1
  refine ⟨hfb.1, h3, _, freeAt pre1 b post1, x, f, frees (freeAt pre1 b post1), e, k1, r3,
    hx2, by rw [← q2]; omega, hxf, by rw [q2], q3, q4, hxbd.1, hxbd.2,
    by rw [hfx.2.2.1, q3]; rfl, hfx.1, hf, hfu, freeList_rep _ _ _ r3,
    (mem_frees _ _).2 ⟨f, hf, hfu, rfl⟩, by rw [hff.2.2.1, hfu]; rfl, hff.1, hf1, by omega⟩

theorem realloc_grow_moves_witness :
    Rep (heapAfter (fun _ => 0) 4096 1048576
        [Op.malloc 16, Op.malloc 16, Op.malloc 8, Op.free 4120])
      ([{ addr := 4096, cap := 16, size := 16, used := false }] ++
        { addr := 4136, cap := 16, size := 16, used := true } ::
        [{ addr := 4176, cap := 8, size := 8, used := true }]) ∧
    Exact ([{ addr := 4096, cap := 16, size := 16, used := false }] ++
        { addr := 4136, cap := 16, size := 16, used := true } ::
        [{ addr := 4176, cap := 8, size := 8, used := true }]) ∧
    (heapAfter (fun _ => 0) 4096 1048576
        [Op.malloc 16, Op.malloc 16, Op.malloc 8, Op.free 4120]).limit <
      heapStart (heapAfter (fun _ => 0) 4096 1048576
        [Op.malloc 16, Op.malloc 16, Op.malloc 8, Op.free 4120]) + 4294967296 ∧
    ({ addr := 4136, cap := 16, size := 16, used := true } : Blk).used = true ∧
    ({ addr := 4136, cap := 16, size := 16, used := true } : Blk).size < 32 ∧
    32 < 2147483648 ∧
    (heapAfter (fun _ => 0) 4096 1048576
        [Op.malloc 16, Op.malloc 16, Op.malloc 8, Op.free 4120]).brk + 24 + 32 ≤
      (heapAfter (fun _ => 0) 4096 1048576
        [Op.malloc 16, Op.malloc 16, Op.malloc 8, Op.free 4120]).limit ∧
    (rd_size (heapAfter (fun _ => 0) 4096 1048576
          [Op.malloc 16, Op.malloc 16, Op.malloc 8, Op.free 4120]).mem
        ({ addr := 4136, cap := 16, size := 16, used := true } : Blk).addr =
        ({ addr := 4136, cap := 16, size := 16, used := true } : Blk).size ∧
      ∃ h3 q bs3 x f F, realloc (heapAfter (fun _ => 0) 4096 1048576
            [Op.malloc 16, Op.malloc 16, Op.malloc 8, Op.free 4120])
          (({ addr := 4136, cap := 16, size := 16, used := true } : Blk).addr + 24) 32 =
          some (h3, q) ∧
        h3.sbrkFailed = (heapAfter (fun _ => 0) 4096 1048576
            [Op.malloc 16, Op.malloc 16, Op.malloc 8, Op.free 4120]).sbrkFailed ∧
        Rep h3 bs3 ∧ Exact bs3 ∧
        q ≠ ({ addr := 4136, cap := 16, size := 16, used := true } : Blk).addr + 24 ∧
        x ∈ bs3 ∧ q = x.addr + 24 ∧ x.used = true ∧ 32 ≤ x.size ∧
        heapStart h3 ≤ x.addr ∧ x.addr + 24 + x.cap ≤ h3.brk ∧
        rd_isUsed h3.mem x.addr = 1 ∧ rd_size h3.mem x.addr = x.size ∧
        f ∈ bs3 ∧ f.used = false ∧ freeList h3 = some F ∧ f.addr ∈ F ∧
        rd_isUsed h3.mem f.addr = 0 ∧ rd_size h3.mem f.addr = f.size ∧
        f.addr ≤ ({ addr := 4136, cap := 16, size := 16, used := true } : Blk).addr ∧
        ({ addr := 4136, cap := 16, size := 16, used := true } : Blk).addr + 24 +
            ({ addr := 4136, cap := 16, size := 16, used := true } : Blk).size ≤
          f.addr + 24 + f.size) ∧
    (realloc (heapAfter (fun _ => 0) 4096 1048576
        [Op.malloc 16, Op.malloc 16, Op.malloc 8, Op.free 4120]) 4160 32).map
      (fun r => (r.2, r.1.sbrkFailed, r.1.brk, rd_size r.1.mem (r.2 - 24), heapBlocks r.1,
        freeList r.1, rd_size r.1.mem 4096)) =
      some (4232, false, 4264, 32, some [4096, 4176, 4208], some [4096], 56) :=
  ⟨repCheck_sound _ _ (by with_unfolding_all rfl),
    fun x hx => by
      simp only [List.singleton_append, List.mem_cons, List.mem_singleton,
        List.not_mem_nil, or_false] at hx
      rcases hx with rfl | rfl | rfl <;> rfl,
    by with_unfolding_all decide, rfl, by decide, by decide, by with_unfolding_all decide,
    realloc_grow_moves _
      [{ addr := 4096, cap := 16, size := 16, used := false }]
      [{ addr := 4176, cap := 8, size := 8, used := true }]
      { addr := 4136, cap := 16, size := 16, used := true } 32
      (repCheck_sound _ _ (by with_unfolding_all rfl))
      (fun x hx => by
        simp only [List.singleton_append, List.mem_cons, List.mem_singleton,
          List.not_mem_nil, or_false] at hx
        rcases hx with rfl | rfl | rfl <;> rfl)
      (by with_unfolding_all decide) rfl (by decide) (by decide)
      (Or.inr (by with_unfolding_all decide)),
    by with_unfolding_all rfl⟩

/-! ## The contract of malloc -/

/-- C1: in a state that represents a block sequence, let `s < 2 ^ 31` be a
request that a free block serves or for which the break can rise by a header
and `s` bytes.  Then `malloc(s)` returns the payload address `p` of a block
`b` of the block sequence that the new state represents: `b` lies inside the
heap region, is marked used, is not on the free list, has both links null
and holds a size of at least `s`; `p` was not in use before, and the payload
addresses in use afterwards are `p` and those in use before. -/
theorem malloc_contract (h : Heap) (bs : List Blk) (s : Nat) (hr : Rep h bs)
    (hs : s < 2147483648)
    (hc : scanBlocks s bs ≠ none ∨ h.brk + 24 + s ≤ h.limit) :
    ∃ h2 p b L, malloc h s = some (h2, p) ∧ h2.sbrkFailed = h.sbrkFailed ∧
      Rep h2 (mallocBlocks s h.brk bs).1 ∧ b ∈ (mallocBlocks s h.brk bs).1 ∧
      p = b.addr + 24 ∧ b.used = true ∧ s ≤ b.size ∧ b.size ≤ b.cap ∧
      heapStart h2 ≤ b.addr ∧ b.addr + 24 + b.cap ≤ h2.brk ∧
      rd_isUsed h2.mem b.addr = 1 ∧ rd_size h2.mem b.addr = b.size ∧
      rd_next_free h2.mem b.addr = 0 ∧ rd_prev_free h2.mem b.addr = 0 ∧
      freeList h2 = some L ∧ b.addr ∉ L ∧
      p ∉ useds bs ∧ (useds (mallocBlocks s h.brk bs).1).Perm (p :: useds bs) := by
  obtain ⟨h2, p, e, h1, -⟩ := malloc_spec h bs s hr hs
  obtain ⟨r, hp, k1, -, -, -, -⟩ := h1 hc
  obtain ⟨pre, x, post, q1, q2, q3, q4, q5, q6⟩ := malloc_blocks_spec s h.brk bs
  have hx : x ∈ (mallocBlocks s h.brk bs).1 := by rw [q1]; simp
  have hb := tiles_bounds _ _ _ r.tiles x hx
  have hx0 : x.addr ≠ 0 := by
    have := r.start_pos
    omega
  have fx := r.fields x hx hx0
  have hnd := tiles_useds_nodup _ _ _ r.tiles
  rw [q5, List.nodup_middle, List.nodup_cons] at hnd
  refine ⟨h2, p, x, frees (mallocBlocks s h.brk bs).1, e, k1, r, hx, by rw [hp, q2], q3, q4,
    fx.2.1, hb.1, hb.2, by rw [fx.2.2.1, if_pos q3], fx.1, (fx.2.2.2 q3).1, (fx.2.2.2 q3).2,
    freeList_rep _ _ _ r, ?_, ?_, ?_⟩
  · intro hc2
    obtain ⟨y, hy, hy1, hy2⟩ := (mem_frees _ _).1 hc2
    have := same_addr_eq _ _ _ r.tiles y x hy hx hy2
    rw [this, q3] at hy1
    exact absurd hy1 (by simp)
  · rw [hp, ← q2, q6]
    exact hnd.1
  · rw [hp, ← q2, q5, q6]
    exact List.perm_middle

theorem malloc_contract_witness :
    Rep (heapAfter (fun _ => 0) 4096 1048576 [Op.malloc 100, Op.malloc 8, Op.free 4120])
      [{ addr := 4096, cap := 100, size := 100, used := false },
        { addr := 4220, cap := 8, size := 8, used := true }] ∧
    16 < 2147483648 ∧
    (heapAfter (fun _ => 0) 4096 1048576 [Op.malloc 100, Op.malloc 8, Op.free 4120]).brk +
        24 + 16 ≤
      (heapAfter (fun _ => 0) 4096 1048576 [Op.malloc 100, Op.malloc 8, Op.free 4120]).limit ∧
    (∃ h2 p b L,
      malloc (heapAfter (fun _ => 0) 4096 1048576 [Op.malloc 100, Op.malloc 8, Op.free 4120])
        16 = some (h2, p) ∧
      h2.sbrkFailed =
        (heapAfter (fun _ => 0) 4096 1048576
          [Op.malloc 100, Op.malloc 8, Op.free 4120]).sbrkFailed ∧
      Rep h2 (mallocBlocks 16
        (heapAfter (fun _ => 0) 4096 1048576 [Op.malloc 100, Op.malloc 8, Op.free 4120]).brk
        [{ addr := 4096, cap := 100, size := 100, used := false },
          { addr := 4220, cap := 8, size := 8, used := true }]).1 ∧
      b ∈ (mallocBlocks 16
        (heapAfter (fun _ => 0) 4096 1048576 [Op.malloc 100, Op.malloc 8, Op.free 4120]).brk
        [{ addr := 4096, cap := 100, size := 100, used := false },
          { addr := 4220, cap := 8, size := 8, used := true }]).1 ∧
      p = b.addr + 24 ∧ b.used = true ∧ 16 ≤ b.size ∧ b.size ≤ b.cap ∧
      heapStart h2 ≤ b.addr ∧ b.addr + 24 + b.cap ≤ h2.brk ∧
      rd_isUsed h2.mem b.addr = 1 ∧ rd_size h2.mem b.addr = b.size ∧
      rd_next_free h2.mem b.addr = 0 ∧ rd_prev_free h2.mem b.addr = 0 ∧
      freeList h2 = some L ∧ b.addr ∉ L ∧
      p ∉ useds [{ addr := 4096, cap := 100, size := 100, used := false },
        { addr := 4220, cap := 8, size := 8, used := true }] ∧
      (useds (mallocBlocks 16
        (heapAfter (fun _ => 0) 4096 1048576 [Op.malloc 100, Op.malloc 8, Op.free 4120]).brk
        [{ addr := 4096, cap := 100, size := 100, used := false },
          { addr := 4220, cap := 8, size := 8, used := true }]).1).Perm
        (p :: useds [{ addr := 4096, cap := 100, size := 100, used := false },
          { addr := 4220, cap := 8, size := 8, used := true }])) ∧
    (malloc (heapAfter (fun _ => 0) 4096 1048576 [Op.malloc 100, Op.malloc 8, Op.free 4120])
        16).map
      (fun r => (r.2, r.1.sbrkFailed, r.1.brk, heapBlocks r.1, freeList r.1,
        rd_isUsed r.1.mem 4096, rd_size r.1.mem 4096)) =
      some (4120, false, 4252, some [4096, 4136, 4220], some [4136], 1, 16) :=
  ⟨repCheck_sound _ _ (by with_unfolding_all rfl), by decide, by with_unfolding_all decide,
    malloc_contract _
      [{ addr := 4096, cap := 100, size := 100, used := false },
        { addr := 4220, cap := 8, size := 8, used := true }] 16
      (repCheck_sound _ _ (by with_unfolding_all rfl)) (by decide)
      (Or.inr (by with_unfolding_all decide)),
    by with_unfolding_all rfl⟩

/-! ## calloc fills the block with zeros -/

/-- C12: in a state that represents a block sequence, let `num * size < 2 ^ 31`
be a request that a free block serves or for which the break can rise by a
header and `num * size` bytes.  Then `calloc(num, size)` returns the payload
address `p` of a block `b` of the block sequence that the new state
represents: `b` lies inside the heap region, is marked used and holds a size
of at least `num * size`, `p` was not in use before, and the first
`num * size` bytes of the payload are zero, whatever the memory held before. -/
theorem calloc_zero_fill (h : Heap) (bs : List Blk) (num size : Nat) (hr : Rep h bs)
    (hn : num * size < 2147483648)
    (hc : scanBlocks (num * size) bs ≠ none ∨ h.brk + 24 + num * size ≤ h.limit) :
    ∃ h2 p b, calloc h num size = some (h2, p) ∧ h2.sbrkFailed = h.sbrkFailed ∧
      Rep h2 (mallocBlocks (num * size) h.brk bs).1 ∧
      b ∈ (mallocBlocks (num * size) h.brk bs).1 ∧
      p = b.addr + 24 ∧ b.used = true ∧ num * size ≤ b.size ∧ b.size ≤ b.cap ∧
      heapStart h2 ≤ b.addr ∧ b.addr + 24 + b.cap ≤ h2.brk ∧
      rd_isUsed h2.mem b.addr = 1 ∧ rd_size h2.mem b.addr = b.size ∧
      p ∉ useds bs ∧
      (useds (mallocBlocks (num * size) h.brk bs).1).Perm (p :: useds bs) ∧
      ∀ i, i < num * size → h2.mem (p + i) = 0 := by
  have en : num * size % W64 = num * size := by
    simp only [W64]
    omega
  obtain ⟨h1, p, e, c1, -⟩ := malloc_spec h bs (num * size) hr hn
  obtain ⟨r, hp, k1, -, -, -, -⟩ := c1 hc
  obtain ⟨pre, x, post, q1, q2, q3, q4, q5, q6⟩ := malloc_blocks_spec (num * size) h.brk bs
  have hx : x ∈ (mallocBlocks (num * size) h.brk bs).1 := by rw [q1]; simp
  have hb := tiles_bounds _ _ _ r.tiles x hx
  have hx0 : x.addr ≠ 0 := by
    have := r.start_pos
    omega
  have fx := r.fields x hx hx0
  have hxc := fx.2.1
  -- the zeros stay inside the payload of the block
  have r2 : RepX { h1 with mem := memset h1.mem p 0 (num * size) }
      (mallocBlocks (num * size) h.brk bs).1 0 := by
    refine rep_of_bytes h1 _ _ 0 r ?_ rfl rfl rfl rfl rfl
    intro y hy z hz1 hz2
    refine memset_out _ _ _ _ _ ?_
    rw [hp, ← q2]
    rcases tiles_sep _ _ _ r.tiles y hy x hx with e0 | e0 | e0
    · subst e0
      omega
    · omega
    · omega
  have fx2 := r2.fields x hx hx0
  have hnd := tiles_useds_nodup _ _ _ r.tiles
  rw [q5, List.nodup_middle, List.nodup_cons] at hnd
  refine ⟨{ h1 with mem := memset h1.mem p 0 (num * size) }, p, x, by
    unfold calloc
    rw [en, e], k1, r2, hx, by rw [hp, q2], q3, q4, hxc, hb.1, hb.2,
    by rw [fx2.2.2.1, if_pos q3], fx2.1, ?_, ?_, fun i hi => ?_⟩
  · rw [hp, ← q2, q6]
    exact hnd.1
  · rw [hp, ← q2, q5, q6]
    exact List.perm_middle
  · show memset h1.mem p 0 (num * size) (p + i) = 0
    rw [memset_in _ _ _ _ _ hi]

theorem calloc_zero_fill_witness :
    Rep (heapAfter (fun _ => 255) 4096 1048576 [Op.malloc 32, Op.malloc 8, Op.free 4120])
      [{ addr := 4096, cap := 32, size := 32, used := false },
        { addr := 4152, cap := 8, size := 8, used := true }] ∧
    4 * 8 < 2147483648 ∧
    (heapAfter (fun _ => 255) 4096 1048576 [Op.malloc 32, Op.malloc 8, Op.free 4120]).brk +
        24 + 4 * 8 ≤
      (heapAfter (fun _ => 255) 4096 1048576 [Op.malloc 32, Op.malloc 8, Op.free 4120]).limit ∧
    (∃ h2 p b,
      calloc (heapAfter (fun _ => 255) 4096 1048576 [Op.malloc 32, Op.malloc 8, Op.free 4120])
        4 8 = some (h2, p) ∧
      h2.sbrkFailed =
        (heapAfter (fun _ => 255) 4096 1048576
          [Op.malloc 32, Op.malloc 8, Op.free 4120]).sbrkFailed ∧
      Rep h2 (mallocBlocks (4 * 8)
        (heapAfter (fun _ => 255) 4096 1048576 [Op.malloc 32, Op.malloc 8, Op.free 4120]).brk
        [{ addr := 4096, cap := 32, size := 32, used := false },
          { addr := 4152, cap := 8, size := 8, used := true }]).1 ∧
      b ∈ (mallocBlocks (4 * 8)
        (heapAfter (fun _ => 255) 4096 1048576 [Op.malloc 32, Op.malloc 8, Op.free 4120]).brk
        [{ addr := 4096, cap := 32, size := 32, used := false },
          { addr := 4152, cap := 8, size := 8, used := true }]).1 ∧
      p = b.addr + 24 ∧ b.used = true ∧ 4 * 8 ≤ b.size ∧ b.size ≤ b.cap ∧
      heapStart h2 ≤ b.addr ∧ b.addr + 24 + b.cap ≤ h2.brk ∧
      rd_isUsed h2.mem b.addr = 1 ∧ rd_size h2.mem b.addr = b.size ∧
      p ∉ useds [{ addr := 4096, cap := 32, size := 32, used := false },
        { addr := 4152, cap := 8, size := 8, used := true }] ∧
      (useds (mallocBlocks (4 * 8)
        (heapAfter (fun _ => 255) 4096 1048576 [Op.malloc 32, Op.malloc 8, Op.free 4120]).brk
        [{ addr := 4096, cap := 32, size := 32, used := false },
          { addr := 4152, cap := 8, size := 8, used := true }]).1).Perm
        (p :: useds [{ addr := 4096, cap := 32, size := 32, used := false },
          { addr := 4152, cap := 8, size := 8, used := true }]) ∧
      ∀ i, i < 4 * 8 → h2.mem (p + i) = 0) ∧
    ((heapAfter (fun _ => 255) 4096 1048576 [Op.malloc 32, Op.malloc 8, Op.free 4120]).mem
        4120,
      (calloc (heapAfter (fun _ => 255) 4096 1048576
          [Op.malloc 32, Op.malloc 8, Op.free 4120]) 4 8).map
        (fun r => (r.2, r.1.sbrkFailed, r.1.brk, heapBlocks r.1, freeList r.1,
          rd_isUsed r.1.mem 4096, rd_size r.1.mem 4096, r.1.mem 4120, r.1.mem 4151,
          rd_size r.1.mem 4152))) =
      (255, some (4120, false, 4184, some [4096, 4152], some [], 1, 32, 0, 0, 8)) :=
  ⟨repCheck_sound _ _ (by with_unfolding_all rfl), by decide, by with_unfolding_all decide,
    calloc_zero_fill _
      [{ addr := 4096, cap := 32, size := 32, used := false },
        { addr := 4152, cap := 8, size := 8, used := true }] 4 8
      (repCheck_sound _ _ (by with_unfolding_all rfl)) (by decide)
      (Or.inr (by with_unfolding_all decide)),
    by with_unfolding_all rfl⟩

end Alloc
